import Mathlib

/-!
# MINI-SQS task queue: queue manager and write-ahead log

A shallow embedding of `taskqueue/internal/queue/manager.go`,
`taskqueue/internal/wal/{record,wal,replay}.go` and the configuration of
`taskqueue/cmd/server/main.go`.

Modelling conventions.

* Go `string` is `String`; `len(s)` is the UTF-8 byte length `s.utf8ByteSize`.
  (Go strings that are not valid UTF-8 have no counterpart here.)
* Go `map[string]V` is `Finmap (fun _ : String => V)`: keys are unique, two maps
  are equal exactly when they agree on every key, `len` is the number of keys.
  The iteration order of `range` over a map is not fixed by Go, so the one place
  that ranges over a map (`ScanVisibility`) receives the order as an argument.
* A `*Task` stored in `tasks` and mutated through the pointer is a re-insertion of
  the changed record under the same key.
* `time.Time` is an instant counted in nanoseconds (`Int`); `t.After(u)` is `u < t`
  and `t.Add(d)` is `t + d`.
* `Task.Attempts` (Go `int`, 64 bits) is a natural number: it starts at 0 and grows
  by one per reclaimed lease, so it stays far below the range of `int`.  The sizes
  compared with the limits of the configuration are integers.
* The mutex makes every method atomic, so a method is a function from the state
  before the call to the state after it (plus its result).
* Whether `wal.WriteRecord` returns an error is decided by the environment; each
  method receives that outcome as an argument.  The field `wal` of the manager
  state holds the records whose `WriteRecord` call returned `nil`, oldest first.
* Every reading of `clock.Now()` is an argument of the method that reads it.
* The WAL file is a list of bytes.  `json.Marshal` of a record is spelled out (member
  order, `omitempty`, string escaping); the text of a `time.Time` and
  `json.Unmarshal` are parameters (`JSONLib`), and what a theorem uses of them is a
  hypothesis of that theorem.  `bufio.Scanner` is modelled with its default split
  function and its default buffer limit.
-/

namespace TaskQueue

/-! ## clock, config -/

/-- Instants of `time.Time`, in nanoseconds. -/
abbrev Time := Int

/-- The zero value of `time.Time` (January 1, year 1, 00:00 UTC) relative to the Unix epoch. -/
def zeroTime : Time := -62135596800000000000

/-- Method `t.After(u)`. -/
def timeAfter (t u : Time) : Bool := decide (u < t)

/-- Method `t.Add(d)`. -/
def timeAdd (t : Time) (d : Int) : Time := t + d

/-- Struct `config.Config` (the fields the manager and the WAL read). -/
structure Config where
  VisibilityTimeout : Int
  MaxPayloadBytes : Int
  MaxTasksInMemory : Int
  WALSyncOnWrite : Bool
deriving DecidableEq, Repr

/-- The configuration built in `main` (durations in nanoseconds). -/
def mainConfig : Config :=
  { VisibilityTimeout := 30 * 1000000000
    MaxPayloadBytes := 64 * 1024
    MaxTasksInMemory := 10000
    WALSyncOnWrite := true }

/-- The configuration of `TestManager_Flow_And_Recovery`. -/
def testConfig : Config :=
  { VisibilityTimeout := 10 * 1000000000
    MaxPayloadBytes := 1024
    MaxTasksInMemory := 100
    WALSyncOnWrite := true }

/-! ## wal/record.go -/

/-- Constant `wal.EnqueueRecord`. -/
def EnqueueRecord : String := "ENQUEUE"
/-- Constant `wal.PollRecord`. -/
def PollRecord : String := "POLL"
/-- Constant `wal.AckRecord`. -/
def AckRecord : String := "ACK"
/-- Constant `wal.TimeoutRecord`. -/
def TimeoutRecord : String := "TIMEOUT"

/-- Struct `wal.Record`; a field left out of a composite literal has its zero value. -/
structure Record where
  Type_ : String
  TaskID : String
  Payload : String := ""
  Deadline : Time := zeroTime
  WorkerID : String := ""
  Timestamp : Time
deriving DecidableEq, Repr

/-! ## queue/task.go -/

/-- Type `queue.TaskState` with its three constants. -/
inductive TaskState where
  | Pending
  | InFlight
  | Done
deriving DecidableEq, Repr

/-- Struct `queue.Task`. -/
structure Task where
  ID : String
  Payload : String
  State : TaskState
  VisibilityDeadline : Time := zeroTime
  Attempts : Nat
deriving DecidableEq, Repr

/-! ## queue/manager.go -/

/-- Go map from task id to task. -/
abbrev TaskMap := Finmap (fun _ : String => Task)

/-- Go map from task id to worker id. -/
abbrev WorkerMap := Finmap (fun _ : String => String)

/-- Struct `queue.Manager`: the three collections, and the records appended to the WAL. -/
structure Manager where
  tasks : TaskMap
  pending : List String
  inFlight : WorkerMap
  wal : List Record

/-- Function `NewManager` with a WAL that starts empty. -/
def NewManager : Manager :=
  { tasks := ∅, pending := [], inFlight := ∅, wal := [] }

/-- The errors the manager returns, one per `fmt.Errorf` message:
`payloadTooLarge`, `emptyTaskID`, `workerRequired` are the InvalidInput kind,
`capacityReached` is CapacityExceeded, `walWriteFailed` is Durability,
`taskNotFound` is NotFound, `taskNotInFlight` is NotInFlight and
`workerMismatch` is WorkerMismatch. -/
inductive QueueError where
  | payloadTooLarge
  | emptyTaskID
  | capacityReached
  | walWriteFailed
  | workerRequired
  | taskNotFound
  | taskNotInFlight
  | workerMismatch
deriving DecidableEq, Repr

/-- Go index expression `m.inFlight[taskID]`: the zero value when the key is absent. -/
def inFlightAt (m : Manager) (taskID : String) : String :=
  (m.inFlight.lookup taskID).getD ""

/-- Method `ReplayEnqueue`. -/
def ReplayEnqueue (m : Manager) (taskID payload : String) : Manager :=
  match m.tasks.lookup taskID with
  | some _ => m
  | none =>
    { m with
      tasks := m.tasks.insert taskID
        { ID := taskID, Payload := payload, State := .Pending, Attempts := 0 },
      pending := m.pending ++ [taskID] }

/-- The loop of `ReplayPoll` that rebuilds `pending` without the first `taskID`;
`found` is the flag of the same name. -/
def removeFirst (taskID : String) : Bool → List String → List String
  | _, [] => []
  | found, id :: rest =>
    if id = taskID ∧ found = false then removeFirst taskID true rest
    else id :: removeFirst taskID found rest

/-- Method `ReplayPoll`. -/
def ReplayPoll (m : Manager) (taskID workerID : String) (deadline : Time) : Manager :=
  match m.tasks.lookup taskID with
  | none => m
  | some task =>
    { m with
      pending := removeFirst taskID false m.pending,
      tasks := m.tasks.insert taskID
        { task with State := .InFlight, VisibilityDeadline := deadline },
      inFlight := m.inFlight.insert taskID workerID }

/-- Method `ReplayAck`; the worker id is not read. -/
def ReplayAck (m : Manager) (taskID _workerID : String) : Manager :=
  match m.tasks.lookup taskID with
  | none => m
  | some task =>
    { m with
      tasks := m.tasks.insert taskID { task with State := .Done },
      inFlight := m.inFlight.erase taskID }

/-- Method `ReplayTimeout`; the time is not read. -/
def ReplayTimeout (m : Manager) (taskID : String) (_now : Time) : Manager :=
  match m.tasks.lookup taskID with
  | none => m
  | some task =>
    if task.State = .InFlight then
      { m with
        tasks := m.tasks.insert taskID
          { task with Attempts := task.Attempts + 1, State := .Pending },
        inFlight := m.inFlight.erase taskID,
        pending := m.pending ++ [taskID] }
    else m

/-- Method `Enqueue`: the state after the call and the returned error (`none` is `nil`).
`ts` is the reading of the clock for the record, `walOk` whether `WriteRecord` succeeds. -/
def Enqueue (cfg : Config) (m : Manager) (taskID payload : String) (ts : Time)
    (walOk : Bool) : Manager × Option QueueError :=
  if (payload.utf8ByteSize : Int) > cfg.MaxPayloadBytes then (m, some .payloadTooLarge)
  else if taskID = "" then (m, some .emptyTaskID)
  else if (m.tasks.lookup taskID).isSome then (m, none)
  else if (m.tasks.keys.card : Int) ≥ cfg.MaxTasksInMemory then (m, some .capacityReached)
  else
    let rec_ : Record :=
      { Type_ := EnqueueRecord, TaskID := taskID, Payload := payload, Timestamp := ts }
    if walOk = false then (m, some .walWriteFailed)
    else
      ({ m with
         wal := m.wal ++ [rec_],
         tasks := m.tasks.insert taskID
           { ID := taskID, Payload := payload, State := .Pending, Attempts := 0 },
         pending := m.pending ++ [taskID] }, none)

/-- The `for len(m.pending) > 0` loop of `Poll`, run on the current value of `m.pending`
(the list argument); the other fields of `m` are not changed before the loop ends. -/
def pollLoop (cfg : Config) (m : Manager) (workerID : String) (now ts : Time)
    (walOk : Bool) : List String → Manager × Except QueueError (Option Task)
  | [] => ({ m with pending := [] }, .ok none)
  | taskID :: rest =>
    match m.tasks.lookup taskID with
    | none => pollLoop cfg m workerID now ts walOk rest
    | some task =>
      if task.State ≠ .Pending then pollLoop cfg m workerID now ts walOk rest
      else
        let deadline := timeAdd now cfg.VisibilityTimeout
        let rec_ : Record :=
          { Type_ := PollRecord, TaskID := taskID, WorkerID := workerID,
            Deadline := deadline, Timestamp := ts }
        if walOk = false then
          ({ m with pending := [taskID] ++ rest }, .error .walWriteFailed)
        else
          let task' : Task := { task with State := .InFlight, VisibilityDeadline := deadline }
          ({ m with
             pending := rest,
             wal := m.wal ++ [rec_],
             tasks := m.tasks.insert taskID task',
             inFlight := m.inFlight.insert taskID workerID }, .ok (some task'))

/-- Method `Poll`: the state after the call and the pair `(*Task, error)` as
`error e`, `ok (some task)` or `ok none` (nothing to deliver).  `now` is the clock
reading the deadline is computed from, `ts` the reading stored as the record's
timestamp. -/
def Poll (cfg : Config) (m : Manager) (workerID : String) (now ts : Time)
    (walOk : Bool) : Manager × Except QueueError (Option Task) :=
  if workerID = "" then (m, .error .workerRequired)
  else pollLoop cfg m workerID now ts walOk m.pending

/-- Method `Ack`. -/
def Ack (m : Manager) (taskID workerID : String) (ts : Time) (walOk : Bool) :
    Manager × Option QueueError :=
  match m.tasks.lookup taskID with
  | none => (m, some .taskNotFound)
  | some task =>
    if task.State = .Done then (m, none)
    else if task.State ≠ .InFlight then (m, some .taskNotInFlight)
    else if inFlightAt m taskID ≠ workerID then (m, some .workerMismatch)
    else
      let rec_ : Record :=
        { Type_ := AckRecord, TaskID := taskID, WorkerID := workerID, Timestamp := ts }
      if walOk = false then (m, some .walWriteFailed)
      else
        ({ m with
           wal := m.wal ++ [rec_],
           tasks := m.tasks.insert taskID { task with State := .Done },
           inFlight := m.inFlight.erase taskID }, none)

/-- The body of the second loop of `ScanVisibility` for one candidate. -/
def scanOne (now : Time) (walOk : String → Bool) (m : Manager) (taskID : String) : Manager :=
  match m.tasks.lookup taskID with
  | none => m
  | some task =>
    if timeAfter now task.VisibilityDeadline then
      let rec_ : Record := { Type_ := TimeoutRecord, TaskID := taskID, Timestamp := now }
      if walOk taskID = false then m
      else
        { m with
          wal := m.wal ++ [rec_],
          tasks := m.tasks.insert taskID
            { task with Attempts := task.Attempts + 1, State := .Pending },
          inFlight := m.inFlight.erase taskID,
          pending := m.pending ++ [taskID] }
    else m

/-- Method `ScanVisibility`.  `candidates` is the slice collected by ranging over
`m.inFlight`: its keys, each once, in the order the runtime happened to yield them.
`walOk taskID` says whether the `WriteRecord` call for that candidate succeeds. -/
def ScanVisibility (m : Manager) (now : Time) (candidates : List String)
    (walOk : String → Bool) : Manager :=
  candidates.foldl (scanOne now walOk) m

/-- What ranging over `m.inFlight` can produce: every key exactly once. -/
def IsRangeOf (candidates : List String) (inFlight : WorkerMap) : Prop :=
  candidates.Nodup ∧ ∀ id, id ∈ candidates ↔ id ∈ inFlight

/-! ## wal/wal.go, wal/replay.go -/

/-- Contents of a file. -/
abbrev Bytes := List UInt8

/-- UTF-8 bytes of a text. -/
def utf8 (s : List Char) : Bytes := s.flatMap String.utf8EncodeChar

/-- The two functions of `encoding/json` and `time` that the WAL calls and whose code
is outside the repository: `timeJSON t` is the text `time.Time.MarshalJSON` yields
for `t` (quotes included), `unmarshal line` is `json.Unmarshal(line, &rec)` on a
zero `Record`, `none` when it returns an error. -/
structure JSONLib where
  timeJSON : Time → List Char
  unmarshal : Bytes → Option Record

/-- The double quote. -/
def dquote : Char := Char.ofNat 34

/-- The backslash. -/
def bslash : Char := Char.ofNat 92

/-- Lower-case hexadecimal digit, the table `hex` of `encoding/json`. -/
def hexDigit (n : Nat) : Char := Nat.digitChar n

/-- How `json.Marshal` writes one character of a string (HTML escaping on; backspace
and form feed as in Go 1.22 and later). -/
def appendChar (c : Char) : List Char :=
  let v := c.toNat
  if v < 0x80 then
    if v = 0x22 ∨ v = 0x5c then [bslash, c]
    else if v = 0x08 then [bslash, 'b']
    else if v = 0x0c then [bslash, 'f']
    else if v = 0x0a then [bslash, 'n']
    else if v = 0x0d then [bslash, 'r']
    else if v = 0x09 then [bslash, 't']
    else if v < 0x20 ∨ v = 0x3c ∨ v = 0x3e ∨ v = 0x26 then
      [bslash, 'u', '0', '0', hexDigit (v / 16), hexDigit (v % 16)]
    else [c]
  else if v = 0x2028 ∨ v = 0x2029 then [bslash, 'u', '2', '0', '2', hexDigit (v % 16)]
  else [c]

/-- A string as a JSON string literal. -/
def jsonString (s : String) : List Char :=
  [dquote] ++ s.data.flatMap appendChar ++ [dquote]

/-- A member name followed by the colon. -/
def jsonKey (name : String) : List Char := [dquote] ++ name.data ++ [dquote, ':']

/-- What `json.Marshal(rec)` yields for a `wal.Record` with the struct tags of
`record.go`: members in field order, `payload` and `worker_id` left out when empty
(`omitempty` has no effect on the struct-typed `deadline`). -/
def marshal (lib : JSONLib) (r : Record) : Bytes :=
  utf8 ([Char.ofNat 123] ++ jsonKey "type" ++ jsonString r.Type_
    ++ [','] ++ jsonKey "task_id" ++ jsonString r.TaskID
    ++ (if r.Payload = "" then [] else [','] ++ jsonKey "payload" ++ jsonString r.Payload)
    ++ [','] ++ jsonKey "deadline" ++ lib.timeJSON r.Deadline
    ++ (if r.WorkerID = "" then [] else [','] ++ jsonKey "worker_id" ++ jsonString r.WorkerID)
    ++ [','] ++ jsonKey "timestamp" ++ lib.timeJSON r.Timestamp
    ++ [Char.ofNat 125])

/-- Struct `wal.WAL`: the bytes of the open file and the sync flag. -/
structure WAL where
  file : Bytes
  syncOnWrite : Bool

/-- What the environment decides in one `WriteRecord` call: whether `json.Marshal`,
`file.Write` and `file.Sync` succeed. -/
structure WriteEnv where
  marshalOk : Bool
  writeOk : Bool
  syncOk : Bool

/-- The three errors of `WriteRecord`. -/
inductive WalError where
  | marshalFailed
  | writeFailed
  | syncFailed
deriving DecidableEq, Repr

/-- Method `WAL.WriteRecord`: the record as one JSON text followed by a newline,
appended with one write. -/
def WriteRecord (lib : JSONLib) (w : WAL) (r : Record) (env : WriteEnv) :
    WAL × Option WalError :=
  if env.marshalOk = false then (w, some .marshalFailed)
  else
    let data := marshal lib r ++ [10]
    if env.writeOk = false then (w, some .writeFailed)
    else
      let w' := { w with file := w.file ++ data }
      if w.syncOnWrite = true ∧ env.syncOk = false then (w', some .syncFailed)
      else (w', none)

/-- The environment in which every step of a write succeeds. -/
def allOk : WriteEnv := { marshalOk := true, writeOk := true, syncOk := true }

/-- The file after `WriteRecord` has returned `nil` for each of the records in turn. -/
def writeAll (lib : JSONLib) (w : WAL) : List Record → WAL
  | [] => w
  | r :: rs => writeAll lib (WriteRecord lib w r allOk).1 rs

/-- Constant `bufio.MaxScanTokenSize`, the buffer limit of a `bufio.Scanner` that was
given no other buffer. -/
def MaxScanTokenSize : Nat := 64 * 1024

/-- Function `dropCR` of `bufio`: one trailing carriage return is removed. -/
def dropCR (data : Bytes) : Bytes :=
  if data.getLast? = some 13 then data.dropLast else data

/-- The tokens `scanner.Scan()` yields with the default split function `ScanLines`
and the default buffer, and whether `scanner.Err()` is `ErrTooLong` at the end.
`cur` holds the bytes of the current line read so far.  A line ends at a newline
or at the end of the file; the scanner gives up when the buffer is full, that is
when `MaxScanTokenSize` bytes of a line hold no newline. -/
def scanLines : Bytes → Bytes → List Bytes × Bool
  | cur, [] =>
    if cur = [] then ([], false)
    else if cur.length ≥ MaxScanTokenSize then ([], true)
    else ([dropCR cur], false)
  | cur, b :: rest =>
    if b = 10 then
      if cur.length ≥ MaxScanTokenSize then ([], true)
      else
        let r := scanLines [] rest
        (dropCR cur :: r.1, r.2)
    else scanLines (cur ++ [b]) rest

/-- Result of `os.Open(walPath)`. -/
inductive OpenResult where
  | notExist
  | failed
  | opened (data : Bytes)

/-- The errors of `Replay`, one per `fmt.Errorf` message. -/
inductive ReplayError where
  | openFailed
  | corrupt (lineNum : Nat)
  | unknownType (lineNum : Nat) (type : String)
  | readFailed
deriving DecidableEq, Repr

/-- The `switch rec.Type` of `Replay`; `none` is the default branch. -/
def dispatch (target : Manager) (r : Record) : Option Manager :=
  if r.Type_ = EnqueueRecord then some (ReplayEnqueue target r.TaskID r.Payload)
  else if r.Type_ = PollRecord then some (ReplayPoll target r.TaskID r.WorkerID r.Deadline)
  else if r.Type_ = AckRecord then some (ReplayAck target r.TaskID r.WorkerID)
  else if r.Type_ = TimeoutRecord then some (ReplayTimeout target r.TaskID r.Timestamp)
  else none

/-- The `for scanner.Scan()` loop of `Replay` over the scanned lines; `lineNum` is
the counter before the line is read, `tooLong` the final `scanner.Err()`. -/
def replayLoop (lib : JSONLib) (tooLong : Bool) :
    Nat → Manager → List Bytes → Manager × Option ReplayError
  | _, target, [] => (target, if tooLong then some .readFailed else none)
  | lineNum, target, line :: rest =>
    if line.length = 0 then replayLoop lib tooLong (lineNum + 1) target rest
    else
      match lib.unmarshal line with
      | none => (target, some (.corrupt (lineNum + 1)))
      | some r =>
        match dispatch target r with
        | none => (target, some (.unknownType (lineNum + 1) r.Type_))
        | some target' => replayLoop lib tooLong (lineNum + 1) target' rest

/-- Function `wal.Replay`: the target after the call and the returned error. -/
def Replay (lib : JSONLib) (f : OpenResult) (target : Manager) :
    Manager × Option ReplayError :=
  match f with
  | .notExist => (target, none)
  | .failed => (target, some .openFailed)
  | .opened data =>
    let s := scanLines [] data
    replayLoop lib s.2 0 target s.1

/-- The restoration hooks applied to a sequence of records the way the loop of
`Replay` dispatches them; `none` when a record has an unknown type. -/
def replayRecords : Manager → List Record → Option Manager
  | target, [] => some target
  | target, r :: rs =>
    match dispatch target r with
    | none => none
    | some target' => replayRecords target' rs

/-! ## Calls, runs and invariants -/

/-- One call of the public API together with what the environment supplies to it:
clock readings, the outcome of the WAL write, and for `ScanVisibility` the order
in which the keys of `inFlight` were collected. -/
inductive Call where
  | enqueue (taskID payload : String) (ts : Time) (walOk : Bool)
  | poll (workerID : String) (now ts : Time) (walOk : Bool)
  | ack (taskID workerID : String) (ts : Time) (walOk : Bool)
  | scan (now : Time) (candidates : List String) (walOk : String → Bool)

/-- The state after one call. -/
def step (cfg : Config) (m : Manager) : Call → Manager
  | .enqueue taskID payload ts walOk => (Enqueue cfg m taskID payload ts walOk).1
  | .poll workerID now ts walOk => (Poll cfg m workerID now ts walOk).1
  | .ack taskID workerID ts walOk => (Ack m taskID workerID ts walOk).1
  | .scan now candidates walOk => ScanVisibility m now candidates walOk

/-- The state after a sequence of calls. -/
def run (cfg : Config) : Manager → List Call → Manager
  | m, [] => m
  | m, c :: cs => run cfg (step cfg m c) cs

/-- A call the program can make in state `m`: the candidates of a scan are the keys
of `m.inFlight`. -/
def Call.Admissible (m : Manager) : Call → Prop
  | .scan _ candidates _ => IsRangeOf candidates m.inFlight
  | _ => True

/-- Every call of the sequence is admissible in the state it is made in. -/
def Admissible (cfg : Config) : Manager → List Call → Prop
  | _, [] => True
  | m, c :: cs => c.Admissible m ∧ Admissible cfg (step cfg m c) cs

/-- Every WAL append of the call succeeds. -/
def Call.WalSucceeds : Call → Prop
  | .enqueue _ _ _ walOk => walOk = true
  | .poll _ _ _ walOk => walOk = true
  | .ack _ _ _ walOk => walOk = true
  | .scan _ _ walOk => ∀ id, walOk id = true

/-- Invariant (1): every id in `pending` names a task in state `Pending`. -/
def PendingArePending (m : Manager) : Prop :=
  ∀ id ∈ m.pending, ∃ t, m.tasks.lookup id = some t ∧ t.State = .Pending

/-- Invariant (2): every key of `inFlight` names a task in state `InFlight`. -/
def InFlightAreInFlight (m : Manager) : Prop :=
  ∀ id, id ∈ m.inFlight → ∃ t, m.tasks.lookup id = some t ∧ t.State = .InFlight

/-- Invariant (3): no id in both collections, none twice in `pending`, no `Done`
task in either. -/
def Exclusive (m : Manager) : Prop :=
  (∀ id, ¬ (id ∈ m.pending ∧ id ∈ m.inFlight)) ∧ m.pending.Nodup ∧
  ∀ id t, m.tasks.lookup id = some t → t.State = .Done → id ∉ m.pending ∧ id ∉ m.inFlight

/-- The structural invariants (1)-(3) of the data model. -/
def Inv (m : Manager) : Prop :=
  PendingArePending m ∧ InFlightAreInFlight m ∧ Exclusive m

/-- Every stored task is accounted for: it is `Pending` and in `pending`, or
`InFlight` and a key of `inFlight`, or `Done`. -/
def Tracked (m : Manager) : Prop :=
  ∀ id t, m.tasks.lookup id = some t →
    (t.State = .Pending ∧ id ∈ m.pending) ∨ (t.State = .InFlight ∧ id ∈ m.inFlight) ∨
    t.State = .Done

/-- The payload stored for a task id, if any. -/
def payloadOf (m : Manager) (id : String) : Option String :=
  (m.tasks.lookup id).map (fun t => t.Payload)

/-- The ledger of accepted tasks after a call that was made in state `m`: an id gets
an entry, the payload handed over, the first time `Enqueue` returns `nil` for it. -/
def noteCall (cfg : Config) (m : Manager) (ledger : String → Option String) :
    Call → String → Option String
  | .enqueue taskID payload ts walOk => fun id =>
    if id = taskID ∧ (Enqueue cfg m taskID payload ts walOk).2 = none ∧ ledger id = none
    then some payload else ledger id
  | _ => ledger

/-- The ledger of accepted tasks after a sequence of calls. -/
def ledgerAfter (cfg : Config) :
    Manager → (String → Option String) → List Call → String → Option String
  | _, ledger, [] => ledger
  | m, ledger, c :: cs => ledgerAfter cfg (step cfg m c) (noteCall cfg m ledger c) cs

/-- The ledger has an entry exactly for the stored tasks, with the stored payload. -/
def LedgerOK (m : Manager) (ledger : String → Option String) : Prop :=
  ∀ id, ledger id = payloadOf m id

/-- The configuration of `TestManager_Idempotency` (unset fields are zero). -/
def idemConfig : Config :=
  { VisibilityTimeout := 0
    MaxPayloadBytes := 100
    MaxTasksInMemory := 10
    WALSyncOnWrite := false }

/-- Two enqueues of the same id with different payloads. -/
def dupCalls : List Call :=
  [ .enqueue "t1" "p" 0 true, .enqueue "t1" "other" 0 true ]

/-- `Enqueue` called for each item `(taskID, payload, ts)` in turn, every WAL append
succeeding: the final state and the errors returned. -/
def enqueueAll (cfg : Config) :
    Manager → List (String × String × Time) → Manager × List (Option QueueError)
  | m, [] => (m, [])
  | m, it :: its =>
    let r := Enqueue cfg m it.1 it.2.1 it.2.2 true
    let rs := enqueueAll cfg r.1 its
    (rs.1, r.2 :: rs.2)

/-- `Poll` called for each `(workerID, now, ts)` in turn, every WAL append succeeding:
the final state and the results returned. -/
def pollAll (cfg : Config) :
    Manager → List (String × Time × Time) → Manager × List (Except QueueError (Option Task))
  | m, [] => (m, [])
  | m, p :: ps =>
    let r := Poll cfg m p.1 p.2.1 p.2.2 true
    let rs := pollAll cfg r.1 ps
    (rs.1, r.2 :: rs.2)

/-- The snapshot `Poll` returns for a task that was enqueued as `it` and never timed
out, when the clock read `now`. -/
def leased (cfg : Config) (it : String × String × Time) (p : String × Time × Time) :
    Except QueueError (Option Task) :=
  .ok (some { ID := it.1, Payload := it.2.1, State := .InFlight,
              VisibilityDeadline := timeAdd p.2.1 cfg.VisibilityTimeout, Attempts := 0 })

/-- The three tasks of the FIFO scenario. -/
def abcItems : List (String × String × Time) := [("a", "1", 0), ("b", "2", 0), ("c", "3", 0)]

/-- Three polls by one worker. -/
def abcPolls : List (String × Time × Time) := [("w", 0, 0), ("w", 0, 0), ("w", 0, 0)]

/-- The manager of `TestManager_Idempotency` after `Enqueue("t1", "p")`. -/
def afterT1 : Manager := (Enqueue idemConfig NewManager "t1" "p" 0 true).1

/-- A payload of 101 bytes, one more than `idemConfig` allows. -/
def payload101 : String := String.mk (List.replicate 101 'x')

/-- A task can be delivered from `pending`: it exists and is `Pending` (the test of
the loop of `Poll`). -/
def deliverable (m : Manager) (id : String) : Bool :=
  match m.tasks.lookup id with
  | none => false
  | some t => decide (t.State = .Pending)

/-- A manager restored from the log `ENQUEUE s`, `ENQUEUE x`, `ACK s`: task `s` is
`Done` and still listed in `pending`, ahead of the pending task `x`. -/
def staleHead : Manager :=
  ReplayAck (ReplayEnqueue (ReplayEnqueue NewManager "s" "p") "x" "q") "s" "w0"

/-- Scenario 5 after `Enqueue("t1","p")` and `Poll("w1")`. -/
def leasedT1 : Manager :=
  (Poll testConfig (Enqueue testConfig NewManager "t1" "p" 0 true).1 "w1" 0 0 true).1

/-- The lease of a stored task has run out at `now`: the test `now.After(deadline)` of
`ScanVisibility`. -/
def expired (m : Manager) (now : Time) (id : String) : Bool :=
  match m.tasks.lookup id with
  | none => false
  | some t => timeAfter now t.VisibilityDeadline

/-- The candidates a scan reclaims, in the order it meets them. -/
def reclaimed (m : Manager) (now : Time) (candidates : List String) : List String :=
  candidates.filter (expired m now)

/-- The record `ScanVisibility` writes for a reclaimed task. -/
def timeoutRecord (now : Time) (taskID : String) : Record :=
  { Type_ := TimeoutRecord, TaskID := taskID, Timestamp := now }

/-- A task after its lease was reclaimed. -/
def requeued (t : Task) : Task :=
  { t with Attempts := t.Attempts + 1, State := .Pending }

/-- A payload of `n` bytes, the letter `a` repeated. -/
def payloadOfSize (n : Nat) : String := String.mk (List.replicate n 'a')

/-- A payload of exactly 64 KiB, the largest `mainConfig` accepts. -/
def payload64K : String := payloadOfSize 65536

/-- The WAL that `main` opens, before the first write. -/
def emptyWAL : WAL := { file := [], syncOnWrite := mainConfig.WALSyncOnWrite }

/-- The bytes `json.Marshal` writes ahead of the payload of an ENQUEUE record. -/
def enqueueHead (taskID : String) : Bytes :=
  utf8 ([Char.ofNat 123] ++ jsonKey "type" ++ jsonString EnqueueRecord
    ++ [','] ++ jsonKey "task_id" ++ jsonString taskID ++ [','] ++ jsonKey "payload" ++ [dquote])

/-- The configuration of the idempotency test with room for a single task. -/
def capOneConfig : Config := { idemConfig with MaxTasksInMemory := 1 }

/-- Invariant (5): every stored payload is within `MaxPayloadBytes`. -/
def PayloadsBounded (cfg : Config) (m : Manager) : Prop :=
  ∀ id t, m.tasks.lookup id = some t → (t.Payload.utf8ByteSize : Int) ≤ cfg.MaxPayloadBytes

/-- Tasks `a` and `b` enqueued and both leased at time 0 under `testConfig`. -/
def twoLeased : Manager :=
  (pollAll testConfig (enqueueAll testConfig NewManager [("a", "1", 0), ("b", "2", 0)]).1
    [("w", 0, 0), ("w", 0, 0)]).1

/-- A manager restored from the log `ENQUEUE s`, `ACK s`: task `s` is `Done` and its
id is still listed in `pending`. -/
def staleOnly : Manager := ReplayAck (ReplayEnqueue NewManager "s" "p") "s" "w0"

/-- A manager in which the id of the pending task `x` is listed twice in `pending`,
around the id of the pending task `y`. -/
def dupPending : Manager :=
  { tasks := Finmap.insert "y" { ID := "y", Payload := "q", State := .Pending, Attempts := 0 }
      (Finmap.singleton "x" { ID := "x", Payload := "p", State := .Pending, Attempts := 2 })
    pending := ["x", "y", "x"]
    inFlight := ∅
    wal := [] }

/-- Scenario 1 after the ack: `t1` is `Done`. -/
def ackedT1 : Manager := (Ack leasedT1 "t1" "w1" 0 true).1

/-- Calls made after `t1` is done: the same id is enqueued again, a worker polls,
the task is acknowledged once more and a scan runs. -/
def afterDoneCalls : List Call :=
  [ .enqueue "t1" "again" 20000000000 true,
    .poll "w2" 20000000000 20000000000 true,
    .ack "t1" "w9" 20000000000 true,
    .scan 99000000000 [] (fun _ => true) ]

/-- The four record types `Replay` knows. -/
def KnownType (ty : String) : Prop :=
  ty = EnqueueRecord ∨ ty = PollRecord ∨ ty = AckRecord ∨ ty = TimeoutRecord

/-- A line `Replay` can apply: `json.Unmarshal` accepts it and the type of the record
is one of the four. -/
def WellFormed (lib : JSONLib) (line : Bytes) : Prop :=
  ∃ r, lib.unmarshal line = some r ∧ KnownType r.Type_

/-- The restoration hook a record stands for, applied to the target; a record of
another type changes nothing. -/
def applyRecord (target : Manager) (r : Record) : Manager :=
  if r.Type_ = EnqueueRecord then ReplayEnqueue target r.TaskID r.Payload
  else if r.Type_ = PollRecord then ReplayPoll target r.TaskID r.WorkerID r.Deadline
  else if r.Type_ = AckRecord then ReplayAck target r.TaskID r.WorkerID
  else if r.Type_ = TimeoutRecord then ReplayTimeout target r.TaskID r.Timestamp
  else target

/-- The hooks of the records of a sequence of lines applied in file order; an empty
line and a line that does not parse contribute nothing. -/
def applyLines (lib : JSONLib) : Manager → List Bytes → Manager
  | target, [] => target
  | target, line :: rest =>
    if line = [] then applyLines lib target rest
    else
      match lib.unmarshal line with
      | none => applyLines lib target rest
      | some r => applyLines lib (applyRecord target r) rest

/-- The text `time.Time.MarshalJSON` yields for the zero time. -/
def zeroTimeJSON : List Char := [dquote] ++ "0001-01-01T00:00:00Z".data ++ [dquote]

/-- The time format of the examples: every time is written as the zero time, the
only time the examples use. -/
def zeroTimeOnly : JSONLib := { timeJSON := fun _ => zeroTimeJSON, unmarshal := fun _ => none }

/-- The stand-in for `encoding/json` in the examples: times as in `zeroTimeOnly`, and
a line is decoded exactly when it is the JSON text of one of the records `known`,
the case in which `json.Unmarshal` yields that record; every other line is refused. -/
def knownJSON (known : List Record) : JSONLib :=
  { timeJSON := fun _ => zeroTimeJSON
    unmarshal := fun line => known.find? (fun r => decide (marshal zeroTimeOnly r = line)) }

/-- The record of `Enqueue("s", "p")` at the zero time. -/
def recS : Record := { Type_ := EnqueueRecord, TaskID := "s", Payload := "p", Timestamp := zeroTime }

/-- The record of `Enqueue("x", "q")` at the zero time. -/
def recX : Record := { Type_ := EnqueueRecord, TaskID := "x", Payload := "q", Timestamp := zeroTime }

/-- The decoder of the examples for logs made of `recS` and `recX`. -/
def sxJSON : JSONLib := knownJSON [recS, recX]

/-- A line that is no JSON text. -/
def garbageLine : Bytes := utf8 "garbage".data

/-- A log with a record, an empty line, a line that is no JSON, and a record. -/
def logGarbage : Bytes :=
  marshal sxJSON recS ++ [10] ++ [10] ++ garbageLine ++ [10] ++ marshal sxJSON recX ++ [10]

/-- The five values `GetStats` returns. -/
structure Stats where
  total : Nat
  pending : Nat
  inFlight : Nat
  done : Nat
  retries : Nat
deriving DecidableEq, Repr

/-- The body of the loop of `GetStats` for one task, on the pair `(done, retries)`. -/
def countTask (acc : Nat × Nat) (_id : String) (t : Task) : Nat × Nat :=
  (if t.State = .Done then acc.1 + 1 else acc.1, acc.2 + t.Attempts)

/-- Method `GetStats`: the sizes of the three collections, and the loop over `tasks`
that counts the `Done` tasks and sums the attempts (the order of the loop does not
matter). -/
def GetStats (m : Manager) : Stats :=
  let counts := Finmap.foldl countTask
    (fun d _ b₁ _ b₂ => by
      unfold countTask
      refine Prod.ext ?_ ?_
      · simp only
        split_ifs <;> rfl
      · simp only
        omega)
    (0, 0) m.tasks
  { total := m.tasks.keys.card
    pending := m.pending.length
    inFlight := m.inFlight.keys.card
    done := counts.1
    retries := counts.2 }

/-- The state stored for a task id, if any. -/
def stateAt (tasks : TaskMap) (id : String) : Option TaskState :=
  (tasks.lookup id).map (fun t => t.State)

/-- One operation on a manager: a call of the public API or one of the four
restoration hooks `Replay` drives. -/
inductive Op where
  | call (c : Call)
  | replayEnqueue (taskID payload : String)
  | replayPoll (taskID workerID : String) (deadline : Time)
  | replayAck (taskID workerID : String)
  | replayTimeout (taskID : String) (now : Time)

/-- The state after one operation. -/
def applyOp (cfg : Config) (m : Manager) : Op → Manager
  | .call c => step cfg m c
  | .replayEnqueue taskID payload => ReplayEnqueue m taskID payload
  | .replayPoll taskID workerID deadline => ReplayPoll m taskID workerID deadline
  | .replayAck taskID workerID => ReplayAck m taskID workerID
  | .replayTimeout taskID now => ReplayTimeout m taskID now

/-- The state after a sequence of operations. The fields of `Manager` are unexported,
so the states of a manager are those `build cfg NewManager ops` yields. -/
def build (cfg : Config) : Manager → List Op → Manager
  | m, [] => m
  | m, o :: os => build cfg (applyOp cfg m o) os

/-- Scenario 1 as a sequence of operations: enqueue `t1`, lease it to `w1`, ack. -/
def doneOps : List Op :=
  [ .call (.enqueue "t1" "p" 0 true), .call (.poll "w1" 0 0 true),
    .call (.ack "t1" "w1" 0 true) ]

/-- Invariants (1)-(3) of the data model as section 3 of the specification words them:
ids in `pending` are `Pending`, keys of `inFlight` are `InFlight`, no id is in both
collections and no `Done` task is in either. Nothing is said about an id that
occurs twice in `pending`. -/
def DataInv (m : Manager) : Prop :=
  PendingArePending m ∧ InFlightAreInFlight m ∧
  (∀ id, ¬ (id ∈ m.pending ∧ id ∈ m.inFlight)) ∧
  ∀ id t, m.tasks.lookup id = some t → t.State = .Done → id ∉ m.pending ∧ id ∉ m.inFlight

/-- An operation the program can make in state `m`: a scan ranges over the keys of
`m.inFlight`; the hooks and the other calls take any arguments. -/
def Op.Admissible (m : Manager) : Op → Prop
  | .call c => c.Admissible m
  | _ => True

/-- Every operation of the sequence is admissible in the state it is made in. -/
def OpsAdmissible (cfg : Config) : Manager → List Op → Prop
  | _, [] => True
  | m, o :: os => o.Admissible m ∧ OpsAdmissible cfg (applyOp cfg m o) os

/-- What the operations keep true of a state even when the hooks are called with
arguments no manager would log: keys of `inFlight` are `InFlight` tasks, no id is
listed twice in `pending`, every id in `pending` names a task, and a task in state
`InFlight` is a key of `inFlight` and not listed in `pending`. -/
def Coherent (m : Manager) : Prop :=
  InFlightAreInFlight m ∧ m.pending.Nodup ∧
  (∀ id ∈ m.pending, (m.tasks.lookup id).isSome = true) ∧
  ∀ id t, m.tasks.lookup id = some t → t.State = .InFlight → id ∈ m.inFlight ∧ id ∉ m.pending

/-- The calls of `TestManager_Flow_And_Recovery`, the clock counted from the start of
the test: enqueue, poll, a scan eleven seconds later that reclaims the lease, a
second poll and the ack. -/
def flowCalls : List Call :=
  [ .enqueue "task-1" "payload-1" 0 true,
    .poll "worker-1" 0 0 true,
    .scan 11000000000 ["task-1"] (fun _ => true),
    .poll "worker-2" 11000000000 11000000000 true,
    .ack "task-1" "worker-2" 11000000000 true ]

/-- Two manager states hold the same `tasks`, the same `pending` sequence and the
same `inFlight` map. -/
def Agree (a b : Manager) : Prop :=
  a.tasks = b.tasks ∧ a.pending = b.pending ∧ a.inFlight = b.inFlight

/-- Replaying the records of `m` from the empty manager rebuilds the memory of `m`. -/
def Synced (m : Manager) : Prop :=
  ∃ r, replayRecords NewManager m.wal = some r ∧ Agree r m

end TaskQueue

namespace TaskQueue

/-! ## Preservation of the structural invariants -/

theorem lookup_insert_ne {V : Type} (s : Finmap (fun _ : String => V)) {a b : String} (v : V)
    (h : a ≠ b) : (s.insert b v).lookup a = s.lookup a :=
  Finmap.lookup_insert_of_ne s h

theorem inv_of_core {m : Manager} (h1 : PendingArePending m) (h2 : InFlightAreInFlight m)
    (h3 : m.pending.Nodup) : Inv m := by
  refine ⟨h1, h2, ?_, h3, ?_⟩
  · rintro id ⟨hp, hf⟩
    obtain ⟨t, ht, hs⟩ := h1 id hp
    obtain ⟨t', ht', hs'⟩ := h2 id hf
    rw [ht] at ht'
    cases ht'
    rw [hs] at hs'
    cases hs'
  · intro id t ht hd
    constructor
    · intro hp
      obtain ⟨t', ht', hs'⟩ := h1 id hp
      rw [ht] at ht'
      cases ht'
      rw [hd] at hs'
      cases hs'
    · intro hf
      obtain ⟨t', ht', hs'⟩ := h2 id hf
      rw [ht] at ht'
      cases ht'
      rw [hd] at hs'
      cases hs'

theorem inv_NewManager : Inv NewManager := by
  apply inv_of_core
  · intro id h
    simp [NewManager] at h
  · intro id h
    exact absurd h Finmap.not_mem_empty
  · simp [NewManager]

theorem inv_Enqueue (cfg : Config) (m : Manager) (taskID payload : String) (ts : Time)
    (walOk : Bool) (h : Inv m) : Inv (Enqueue cfg m taskID payload ts walOk).1 := by
  unfold Enqueue
  split_ifs with c1 c2 c3 c4 c5
  all_goals try exact h
  have hnone : m.tasks.lookup taskID = none := by
    cases hl : m.tasks.lookup taskID with
    | none => rfl
    | some t => simp [hl] at c3
  obtain ⟨h1, h2, _, h3, _⟩ := h
  have hnp : taskID ∉ m.pending := by
    intro hp
    obtain ⟨t, ht, _⟩ := h1 taskID hp
    rw [hnone] at ht
    cases ht
  apply inv_of_core
  · intro id hid
    simp only [List.mem_append, List.mem_singleton] at hid
    by_cases e : id = taskID
    · subst e
      exact ⟨_, Finmap.lookup_insert _, rfl⟩
    · rcases hid with hid | hid
      · obtain ⟨t, ht, hs⟩ := h1 id hid
        exact ⟨t, by simpa [lookup_insert_ne _ _ e] using ht, hs⟩
      · exact absurd hid e
  · intro id hid
    obtain ⟨t, ht, hs⟩ := h2 id hid
    have e : id ≠ taskID := by
      rintro rfl
      rw [hnone] at ht
      cases ht
    exact ⟨t, by simpa [lookup_insert_ne _ _ e] using ht, hs⟩
  · simp only
    exact List.Nodup.append h3 (List.nodup_singleton _) (by simpa using hnp)

end TaskQueue

namespace TaskQueue

theorem core_pollLoop (cfg : Config) (m : Manager) (workerID : String) (now ts : Time)
    (walOk : Bool) (h2 : InFlightAreInFlight m) :
    ∀ L : List String, L.Nodup →
      (∀ id ∈ L, ∃ t, m.tasks.lookup id = some t ∧ t.State = .Pending) →
      Inv (pollLoop cfg m workerID now ts walOk L).1 := by
  intro L
  induction L with
  | nil =>
    intro _ _
    apply inv_of_core
    · intro id hid
      simp [pollLoop] at hid
    · exact h2
    · simp [pollLoop]
  | cons x rest ih =>
    intro hnd hL
    have hrest : ∀ id ∈ rest, ∃ t, m.tasks.lookup id = some t ∧ t.State = .Pending :=
      fun id hid => hL id (List.mem_cons_of_mem _ hid)
    have hnd' : rest.Nodup := (List.nodup_cons.mp hnd).2
    have hx : x ∉ rest := (List.nodup_cons.mp hnd).1
    unfold pollLoop
    cases hl : m.tasks.lookup x with
    | none => exact ih hnd' hrest
    | some task =>
      simp only
      split_ifs with c1 c2
      · exact ih hnd' hrest
      · apply inv_of_core
        · intro id hid
          exact hL id (by simpa using hid)
        · exact h2
        · simpa using hnd
      · apply inv_of_core
        · intro id hid
          have e : id ≠ x := by
            rintro rfl
            exact hx hid
          obtain ⟨t, ht, hs⟩ := hrest id hid
          exact ⟨t, by simpa [lookup_insert_ne _ _ e] using ht, hs⟩
        · intro id hid
          by_cases e : id = x
          · subst e
            exact ⟨_, Finmap.lookup_insert _, rfl⟩
          · have hid' : id ∈ m.inFlight := by
              rcases Finmap.mem_insert.mp hid with h | h
              · exact absurd h e
              · exact h
            obtain ⟨t, ht, hs⟩ := h2 id hid'
            exact ⟨t, by simpa [lookup_insert_ne _ _ e] using ht, hs⟩
        · exact hnd'

theorem inv_Poll (cfg : Config) (m : Manager) (workerID : String) (now ts : Time)
    (walOk : Bool) (h : Inv m) : Inv (Poll cfg m workerID now ts walOk).1 := by
  unfold Poll
  split_ifs with c
  · exact h
  · exact core_pollLoop cfg m workerID now ts walOk h.2.1 m.pending h.2.2.2.1 h.1

theorem inv_Ack (m : Manager) (taskID workerID : String) (ts : Time) (walOk : Bool)
    (h : Inv m) : Inv (Ack m taskID workerID ts walOk).1 := by
  unfold Ack
  cases hl : m.tasks.lookup taskID with
  | none => exact h
  | some task =>
    simp only
    split_ifs with c1 c2 c3 c4
    all_goals try exact h
    obtain ⟨h1, h2, _, h3, _⟩ := h
    have hfl : task.State = .InFlight := by simpa using c2
    apply inv_of_core
    · intro id hid
      obtain ⟨t, ht, hs⟩ := h1 id hid
      have e : id ≠ taskID := by
        rintro rfl
        rw [hl] at ht
        cases ht
        rw [hs] at hfl
        cases hfl
      exact ⟨t, by simpa [lookup_insert_ne _ _ e] using ht, hs⟩
    · intro id hid
      obtain ⟨e, hid'⟩ := Finmap.mem_erase.mp hid
      obtain ⟨t, ht, hs⟩ := h2 id hid'
      exact ⟨t, by simpa [lookup_insert_ne _ _ e] using ht, hs⟩
    · exact h3

theorem inv_scanOne (now : Time) (walOk : String → Bool) (m : Manager) (taskID : String)
    (hin : taskID ∈ m.inFlight) (h : Inv m) : Inv (scanOne now walOk m taskID) := by
  unfold scanOne
  cases hl : m.tasks.lookup taskID with
  | none => exact h
  | some task =>
    simp only
    split_ifs with c1 c2
    all_goals try exact h
    obtain ⟨h1, h2, hex, h3, _⟩ := h
    have hnp : taskID ∉ m.pending := fun hp => hex taskID ⟨hp, hin⟩
    apply inv_of_core
    · intro id hid
      simp only [List.mem_append, List.mem_singleton] at hid
      by_cases e : id = taskID
      · subst e
        exact ⟨_, Finmap.lookup_insert _, rfl⟩
      · rcases hid with hid | hid
        · obtain ⟨t, ht, hs⟩ := h1 id hid
          exact ⟨t, by simpa [lookup_insert_ne _ _ e] using ht, hs⟩
        · exact absurd hid e
    · intro id hid
      obtain ⟨e, hid'⟩ := Finmap.mem_erase.mp hid
      obtain ⟨t, ht, hs⟩ := h2 id hid'
      exact ⟨t, by simpa [lookup_insert_ne _ _ e] using ht, hs⟩
    · simp only
      exact List.Nodup.append h3 (List.nodup_singleton _) (by simpa using hnp)

theorem mem_inFlight_scanOne (now : Time) (walOk : String → Bool) (m : Manager)
    (taskID id : String) (hne : id ≠ taskID) (hid : id ∈ m.inFlight) :
    id ∈ (scanOne now walOk m taskID).inFlight := by
  unfold scanOne
  cases hl : m.tasks.lookup taskID with
  | none => exact hid
  | some task =>
    simp only
    split_ifs with c1 c2
    all_goals try exact hid
    exact Finmap.mem_erase.mpr ⟨hne, hid⟩

theorem inv_ScanVisibility (now : Time) (walOk : String → Bool) :
    ∀ (candidates : List String) (m : Manager), candidates.Nodup →
      (∀ id ∈ candidates, id ∈ m.inFlight) → Inv m →
      Inv (ScanVisibility m now candidates walOk) := by
  intro candidates
  induction candidates with
  | nil =>
    intro m _ _ h
    exact h
  | cons c cs ih =>
    intro m hnd hin h
    have hc : c ∉ cs := (List.nodup_cons.mp hnd).1
    show Inv (ScanVisibility (scanOne now walOk m c) now cs walOk)
    apply ih _ (List.nodup_cons.mp hnd).2
    · intro id hid
      apply mem_inFlight_scanOne
      · rintro rfl
        exact hc hid
      · exact hin id (List.mem_cons_of_mem _ hid)
    · exact inv_scanOne now walOk m c (hin c (List.mem_cons_self _ _)) h

theorem inv_step (cfg : Config) (m : Manager) (c : Call) (ha : c.Admissible m) (h : Inv m) :
    Inv (step cfg m c) := by
  cases c with
  | enqueue taskID payload ts walOk => exact inv_Enqueue cfg m taskID payload ts walOk h
  | poll workerID now ts walOk => exact inv_Poll cfg m workerID now ts walOk h
  | ack taskID workerID ts walOk => exact inv_Ack m taskID workerID ts walOk h
  | scan now candidates walOk =>
    exact inv_ScanVisibility now walOk candidates m ha.1 (fun id hid => (ha.2 id).mp hid) h

theorem inv_run (cfg : Config) :
    ∀ (calls : List Call) (m : Manager), Admissible cfg m calls → Inv m → Inv (run cfg m calls) := by
  intro calls
  induction calls with
  | nil =>
    intro m _ h
    exact h
  | cons c cs ih =>
    intro m ha h
    exact ih (step cfg m c) ha.2 (inv_step cfg m c ha.1 h)

end TaskQueue

namespace TaskQueue

/-! ## Replay of the manager's own records -/

theorem replayRecords_snoc (r : Record) :
    ∀ (w : List Record) (t : Manager),
      replayRecords t (w ++ [r]) = (replayRecords t w).bind (fun t' => dispatch t' r) := by
  intro w
  induction w with
  | nil =>
    intro t
    simp only [List.nil_append, replayRecords, Option.some_bind]
    cases dispatch t r <;> rfl
  | cons x xs ih =>
    intro t
    simp only [List.cons_append, replayRecords]
    cases dispatch t x with
    | none => rfl
    | some t' => exact ih t'

theorem agree_eq {r m : Manager} (h : Agree r m) : r = { m with wal := r.wal } := by
  cases r
  cases m
  obtain ⟨h1, h2, h3⟩ := h
  simp only at h1 h2 h3
  subst h1 h2 h3
  rfl

theorem removeFirst_true (taskID : String) (l : List String) :
    removeFirst taskID true l = l := by
  induction l with
  | nil => rfl
  | cons x xs ih => simp [removeFirst, ih]

theorem removeFirst_head (taskID : String) (l : List String) :
    removeFirst taskID false (taskID :: l) = l := by
  simp [removeFirst, removeFirst_true]

theorem synced_snoc {m m' : Manager} (rec_ : Record) (hook : Manager → Manager)
    (hs : Synced m) (hw : m'.wal = m.wal ++ [rec_])
    (hd : ∀ t, dispatch t rec_ = some (hook t))
    (ha : ∀ w, Agree (hook { m with wal := w }) m') : Synced m' := by
  obtain ⟨r, hr, hag⟩ := hs
  refine ⟨hook r, ?_, ?_⟩
  · rw [hw, replayRecords_snoc, hr]
    exact hd r
  · rw [agree_eq hag]
    exact ha _

theorem synced_of_eq {m m' : Manager} (hs : Synced m) (hw : m'.wal = m.wal)
    (ha : Agree m m') : Synced m' := by
  obtain ⟨r, hr, hag⟩ := hs
  refine ⟨r, by rw [hw]; exact hr, ?_⟩
  exact ⟨hag.1.trans ha.1, hag.2.1.trans ha.2.1, hag.2.2.trans ha.2.2⟩

theorem synced_Enqueue (cfg : Config) (m : Manager) (taskID payload : String) (ts : Time)
    (hs : Synced m) : Synced (Enqueue cfg m taskID payload ts true).1 := by
  unfold Enqueue
  split_ifs with c1 c2 c3 c4 c5
  all_goals try exact hs
  have hnone : m.tasks.lookup taskID = none := by
    cases hl : m.tasks.lookup taskID with
    | none => rfl
    | some t => simp [hl] at c3
  refine synced_snoc _ (fun t => ReplayEnqueue t taskID payload) hs rfl ?_ ?_
  · intro t
    simp [dispatch]
  · intro w
    simp [ReplayEnqueue, hnone, Agree]

end TaskQueue

namespace TaskQueue

theorem synced_Poll (cfg : Config) (m : Manager) (workerID : String) (now ts : Time)
    (hi : Inv m) (hs : Synced m) : Synced (Poll cfg m workerID now ts true).1 := by
  unfold Poll
  split_ifs with c
  · exact hs
  · cases hp : m.pending with
    | nil =>
      refine synced_of_eq hs rfl ?_
      simp [pollLoop, Agree, hp]
    | cons x rest =>
      obtain ⟨t, ht, hst⟩ := hi.1 x (by simp [hp])
      refine synced_snoc
        { Type_ := PollRecord, TaskID := x, WorkerID := workerID,
          Deadline := timeAdd now cfg.VisibilityTimeout, Timestamp := ts }
        (fun r => ReplayPoll r x workerID (timeAdd now cfg.VisibilityTimeout)) hs ?_ ?_ ?_
      · simp [pollLoop, ht, hst]
      · intro r
        simp [dispatch, PollRecord, EnqueueRecord]
      · intro w
        simp [pollLoop, ReplayPoll, ht, hst, Agree, hp, removeFirst_head]

theorem synced_Ack (m : Manager) (taskID workerID : String) (ts : Time)
    (hs : Synced m) : Synced (Ack m taskID workerID ts true).1 := by
  unfold Ack
  cases hl : m.tasks.lookup taskID with
  | none => exact hs
  | some task =>
    simp only
    split_ifs with c1 c2 c3 c4
    all_goals try exact hs
    refine synced_snoc _ (fun r => ReplayAck r taskID workerID) hs rfl ?_ ?_
    · intro r
      simp [dispatch, PollRecord, EnqueueRecord, AckRecord]
    · intro w
      simp [ReplayAck, hl, Agree]

theorem synced_scanOne (now : Time) (walOk : String → Bool) (m : Manager) (taskID : String)
    (hin : taskID ∈ m.inFlight) (hi : Inv m) (hs : Synced m) :
    Synced (scanOne now walOk m taskID) := by
  obtain ⟨t, ht, hst⟩ := hi.2.1 taskID hin
  unfold scanOne
  rw [ht]
  simp only
  split_ifs with c1 c2
  all_goals try exact hs
  refine synced_snoc _ (fun r => ReplayTimeout r taskID now) hs rfl ?_ ?_
  · intro r
    simp [dispatch, PollRecord, EnqueueRecord, AckRecord, TimeoutRecord]
  · intro w
    simp [ReplayTimeout, ht, hst, Agree]

theorem synced_ScanVisibility (now : Time) (walOk : String → Bool) :
    ∀ (candidates : List String) (m : Manager), candidates.Nodup →
      (∀ id ∈ candidates, id ∈ m.inFlight) → Inv m → Synced m →
      Synced (ScanVisibility m now candidates walOk) := by
  intro candidates
  induction candidates with
  | nil =>
    intro m _ _ _ h
    exact h
  | cons c cs ih =>
    intro m hnd hin hi hs
    have hc : c ∉ cs := (List.nodup_cons.mp hnd).1
    have hcin : c ∈ m.inFlight := hin c (List.mem_cons_self _ _)
    show Synced (ScanVisibility (scanOne now walOk m c) now cs walOk)
    apply ih _ (List.nodup_cons.mp hnd).2
    · intro id hid
      apply mem_inFlight_scanOne
      · rintro rfl
        exact hc hid
      · exact hin id (List.mem_cons_of_mem _ hid)
    · exact inv_scanOne now walOk m c hcin hi
    · exact synced_scanOne now walOk m c hcin hi hs

theorem synced_step (cfg : Config) (m : Manager) (c : Call) (ha : c.Admissible m)
    (hw : c.WalSucceeds) (hi : Inv m) (hs : Synced m) : Synced (step cfg m c) := by
  cases c with
  | enqueue taskID payload ts walOk =>
    have e : walOk = true := hw
    subst e
    exact synced_Enqueue cfg m taskID payload ts hs
  | poll workerID now ts walOk =>
    have e : walOk = true := hw
    subst e
    exact synced_Poll cfg m workerID now ts hi hs
  | ack taskID workerID ts walOk =>
    have e : walOk = true := hw
    subst e
    exact synced_Ack m taskID workerID ts hs
  | scan now candidates walOk =>
    exact synced_ScanVisibility now walOk candidates m ha.1
      (fun id hid => (ha.2 id).mp hid) hi hs

theorem synced_run (cfg : Config) :
    ∀ (calls : List Call) (m : Manager), Admissible cfg m calls →
      (∀ c ∈ calls, c.WalSucceeds) → Inv m → Synced m → Synced (run cfg m calls) := by
  intro calls
  induction calls with
  | nil =>
    intro m _ _ _ h
    exact h
  | cons c cs ih =>
    intro m ha hw hi hs
    exact ih (step cfg m c) ha.2 (fun c' hc' => hw c' (List.mem_cons_of_mem _ hc'))
      (inv_step cfg m c ha.1 hi)
      (synced_step cfg m c ha.1 (hw c (List.mem_cons_self _ _)) hi hs)

theorem synced_NewManager : Synced NewManager :=
  ⟨NewManager, rfl, rfl, rfl, rfl⟩

end TaskQueue

namespace TaskQueue

theorem flowCalls_inFlight :
    (step testConfig (step testConfig NewManager (.enqueue "task-1" "payload-1" 0 true))
      (.poll "worker-1" 0 0 true)).inFlight = Finmap.insert "task-1" "worker-1" ∅ := by
  decide

theorem flowCalls_admissible : Admissible testConfig NewManager flowCalls := by
  refine ⟨trivial, trivial, ⟨by simp, ?_⟩, trivial, trivial, trivial⟩
  intro id
  rw [flowCalls_inFlight]
  simp [Finmap.mem_insert, Finmap.not_mem_empty]

theorem flowCalls_walSucceeds : ∀ c ∈ flowCalls, c.WalSucceeds := by
  intro c hc
  simp only [flowCalls, List.mem_cons, List.mem_singleton, List.not_mem_nil, or_false] at hc
  rcases hc with rfl | rfl | rfl | rfl | rfl
  · rfl
  · rfl
  · intro _
    rfl
  · rfl
  · rfl

/-- C1. Replay equivalence: after any admissible sequence of Enqueue, Poll, Ack and
ScanVisibility calls on the empty manager in which every WAL append succeeds, feeding
the records the manager wrote, in order, to the restoration hooks the way `Replay`
dispatches them, starting from a fresh empty manager, succeeds and yields the same
`tasks` map (every field of every task), the same `pending` sequence in the same
order and the same `inFlight` map. -/
theorem replay_equivalence (cfg : Config) (calls : List Call)
    (ha : Admissible cfg NewManager calls) (hw : ∀ c ∈ calls, c.WalSucceeds) :
    ∃ r, replayRecords NewManager (run cfg NewManager calls).wal = some r ∧
      r.tasks = (run cfg NewManager calls).tasks ∧
      r.pending = (run cfg NewManager calls).pending ∧
      r.inFlight = (run cfg NewManager calls).inFlight :=
  synced_run cfg calls NewManager ha hw inv_NewManager synced_NewManager

/-- Witness of C1 on the calls of the recovery test. -/
theorem replay_equivalence_witness :
    Admissible testConfig NewManager flowCalls ∧ (∀ c ∈ flowCalls, c.WalSucceeds) ∧
    ∃ r, replayRecords NewManager (run testConfig NewManager flowCalls).wal = some r ∧
      r.tasks = (run testConfig NewManager flowCalls).tasks ∧
      r.pending = (run testConfig NewManager flowCalls).pending ∧
      r.inFlight = (run testConfig NewManager flowCalls).inFlight :=
  ⟨flowCalls_admissible, flowCalls_walSucceeds,
    replay_equivalence testConfig flowCalls flowCalls_admissible flowCalls_walSucceeds⟩

/-- C2. Structural invariants: in every state reached from the empty manager by an
admissible sequence of Enqueue, Poll, Ack and ScanVisibility calls, whatever the
outcome of each WAL append, (1) every id in `pending` names a task in state `Pending`,
(2) every key of `inFlight` names a task in state `InFlight`, and (3) no id is in both
`pending` and `inFlight`, no id occurs twice in `pending`, and a `Done` task is in
neither. -/
theorem structural_invariants (cfg : Config) (calls : List Call)
    (ha : Admissible cfg NewManager calls) :
    (∀ id ∈ (run cfg NewManager calls).pending,
      ∃ t, (run cfg NewManager calls).tasks.lookup id = some t ∧ t.State = .Pending) ∧
    (∀ id, id ∈ (run cfg NewManager calls).inFlight →
      ∃ t, (run cfg NewManager calls).tasks.lookup id = some t ∧ t.State = .InFlight) ∧
    (∀ id, ¬ (id ∈ (run cfg NewManager calls).pending ∧
      id ∈ (run cfg NewManager calls).inFlight)) ∧
    (run cfg NewManager calls).pending.Nodup ∧
    (∀ id t, (run cfg NewManager calls).tasks.lookup id = some t → t.State = .Done →
      id ∉ (run cfg NewManager calls).pending ∧ id ∉ (run cfg NewManager calls).inFlight) :=
  inv_run cfg calls NewManager ha inv_NewManager

/-- Witness of C2 on the calls of the recovery test. -/
theorem structural_invariants_witness :
    Admissible testConfig NewManager flowCalls ∧ Inv (run testConfig NewManager flowCalls) :=
  ⟨flowCalls_admissible, structural_invariants testConfig flowCalls flowCalls_admissible⟩

end TaskQueue

namespace TaskQueue

/-! ## No task is lost -/

theorem manager_eta_pending (m : Manager) (l : List String) (h : m.pending = l) :
    { m with pending := l } = m := by
  cases m
  simp only at h
  subst h
  rfl

theorem Poll_of_inv (cfg : Config) (m : Manager) (workerID : String) (now ts : Time)
    (walOk : Bool) (hi : PendingArePending m) (hw : workerID ≠ "") :
    (m.pending = [] ∧ Poll cfg m workerID now ts walOk = (m, .ok none)) ∨
    ∃ x rest t, m.pending = x :: rest ∧ m.tasks.lookup x = some t ∧ t.State = .Pending ∧
      Poll cfg m workerID now ts walOk =
        if walOk = false then (m, .error .walWriteFailed)
        else
          ({ m with
             pending := rest,
             wal := m.wal ++ [{ Type_ := PollRecord, TaskID := x, WorkerID := workerID, Deadline := timeAdd now cfg.VisibilityTimeout, Timestamp := ts }],
             tasks := m.tasks.insert x { t with State := .InFlight, VisibilityDeadline := timeAdd now cfg.VisibilityTimeout },
             inFlight := m.inFlight.insert x workerID },
           .ok (some { t with State := .InFlight, VisibilityDeadline := timeAdd now cfg.VisibilityTimeout })) := by
  cases hp : m.pending with
  | nil =>
    left
    refine ⟨rfl, ?_⟩
    simp [Poll, hw, hp, pollLoop, manager_eta_pending m [] hp]
  | cons x rest =>
    right
    obtain ⟨t, ht, hst⟩ := hi x (by simp [hp])
    refine ⟨x, rest, t, rfl, ht, hst, ?_⟩
    cases walOk with
    | false => simp [Poll, hw, hp, pollLoop, ht, hst, manager_eta_pending m (x :: rest) hp]
    | true => simp [Poll, hw, hp, pollLoop, ht, hst]

end TaskQueue

namespace TaskQueue

theorem tracked_Enqueue (cfg : Config) (m : Manager) (taskID payload : String) (ts : Time)
    (walOk : Bool) (h : Tracked m) : Tracked (Enqueue cfg m taskID payload ts walOk).1 := by
  unfold Enqueue
  split_ifs with c1 c2 c3 c4 c5
  all_goals try exact h
  intro id t ht
  simp only at ht ⊢
  by_cases e : id = taskID
  · subst e
    rw [Finmap.lookup_insert] at ht
    cases ht
    left
    simp
  · rw [lookup_insert_ne _ _ e] at ht
    rcases h id t ht with ⟨hs, hp⟩ | hr
    · exact Or.inl ⟨hs, List.mem_append_left _ hp⟩
    · exact Or.inr hr

theorem tracked_Poll (cfg : Config) (m : Manager) (workerID : String) (now ts : Time)
    (walOk : Bool) (hi : PendingArePending m) (h : Tracked m) :
    Tracked (Poll cfg m workerID now ts walOk).1 := by
  by_cases hw : workerID = ""
  · simpa [Poll, hw] using h
  · rcases Poll_of_inv cfg m workerID now ts walOk hi hw with ⟨_, hp⟩ | ⟨x, rest, t, hp, ht, hst, hr⟩
    · rw [hp]
      exact h
    · rw [hr]
      cases walOk with
      | false => exact h
      | true =>
        intro id t' ht'
        simp only [Bool.true_eq_false, if_false] at ht' ⊢
        by_cases e : id = x
        · subst e
          rw [Finmap.lookup_insert] at ht'
          cases ht'
          right
          left
          exact ⟨rfl, Finmap.mem_insert.mpr (Or.inl rfl)⟩
        · rw [lookup_insert_ne _ _ e] at ht'
          rcases h id t' ht' with ⟨hs, hpn⟩ | ⟨hs, hf⟩ | hd
          · left
            refine ⟨hs, ?_⟩
            rw [hp] at hpn
            rcases List.mem_cons.mp hpn with h1 | h1
            · exact absurd h1 e
            · exact h1
          · exact Or.inr (Or.inl ⟨hs, Finmap.mem_insert.mpr (Or.inr hf)⟩)
          · exact Or.inr (Or.inr hd)

theorem tracked_Ack (m : Manager) (taskID workerID : String) (ts : Time) (walOk : Bool)
    (h : Tracked m) : Tracked (Ack m taskID workerID ts walOk).1 := by
  unfold Ack
  cases hl : m.tasks.lookup taskID with
  | none => exact h
  | some task =>
    simp only
    split_ifs with c1 c2 c3 c4
    all_goals try exact h
    intro id t ht
    simp only at ht ⊢
    by_cases e : id = taskID
    · subst e
      rw [Finmap.lookup_insert] at ht
      cases ht
      exact Or.inr (Or.inr rfl)
    · rw [lookup_insert_ne _ _ e] at ht
      rcases h id t ht with hp | ⟨hs, hf⟩ | hd
      · exact Or.inl hp
      · exact Or.inr (Or.inl ⟨hs, Finmap.mem_erase.mpr ⟨e, hf⟩⟩)
      · exact Or.inr (Or.inr hd)

theorem tracked_scanOne (now : Time) (walOk : String → Bool) (m : Manager) (taskID : String)
    (h : Tracked m) : Tracked (scanOne now walOk m taskID) := by
  unfold scanOne
  cases hl : m.tasks.lookup taskID with
  | none => exact h
  | some task =>
    simp only
    split_ifs with c1 c2
    all_goals try exact h
    intro id t ht
    simp only at ht ⊢
    by_cases e : id = taskID
    · subst e
      rw [Finmap.lookup_insert] at ht
      cases ht
      left
      simp
    · rw [lookup_insert_ne _ _ e] at ht
      rcases h id t ht with ⟨hs, hp⟩ | ⟨hs, hf⟩ | hd
      · exact Or.inl ⟨hs, List.mem_append_left _ hp⟩
      · exact Or.inr (Or.inl ⟨hs, Finmap.mem_erase.mpr ⟨e, hf⟩⟩)
      · exact Or.inr (Or.inr hd)

theorem tracked_ScanVisibility (now : Time) (walOk : String → Bool) :
    ∀ (candidates : List String) (m : Manager), Tracked m →
      Tracked (ScanVisibility m now candidates walOk) := by
  intro candidates
  induction candidates with
  | nil =>
    intro m h
    exact h
  | cons c cs ih =>
    intro m h
    exact ih _ (tracked_scanOne now walOk m c h)

theorem tracked_step (cfg : Config) (m : Manager) (c : Call) (hi : Inv m) (h : Tracked m) :
    Tracked (step cfg m c) := by
  cases c with
  | enqueue taskID payload ts walOk => exact tracked_Enqueue cfg m taskID payload ts walOk h
  | poll workerID now ts walOk => exact tracked_Poll cfg m workerID now ts walOk hi.1 h
  | ack taskID workerID ts walOk => exact tracked_Ack m taskID workerID ts walOk h
  | scan now candidates walOk => exact tracked_ScanVisibility now walOk candidates m h

end TaskQueue

namespace TaskQueue

theorem payloadOf_insert_same (tasks : TaskMap) (x id : String) (t t' : Task)
    (hl : tasks.lookup x = some t) (hp : t'.Payload = t.Payload) :
    ((tasks.insert x t').lookup id).map (fun t => t.Payload) =
      (tasks.lookup id).map (fun t => t.Payload) := by
  by_cases e : id = x
  · subst e
    rw [Finmap.lookup_insert, hl]
    simp [hp]
  · rw [lookup_insert_ne _ _ e]

theorem payloadOf_pollLoop (cfg : Config) (m : Manager) (workerID : String) (now ts : Time)
    (walOk : Bool) (id : String) :
    ∀ L : List String, payloadOf (pollLoop cfg m workerID now ts walOk L).1 id = payloadOf m id := by
  intro L
  induction L with
  | nil => rfl
  | cons x rest ih =>
    unfold pollLoop
    cases hl : m.tasks.lookup x with
    | none => exact ih
    | some task =>
      simp only
      split_ifs with c1 c2
      · exact ih
      · rfl
      · exact payloadOf_insert_same m.tasks x id task _ hl rfl

theorem payloadOf_Poll (cfg : Config) (m : Manager) (workerID : String) (now ts : Time)
    (walOk : Bool) (id : String) :
    payloadOf (Poll cfg m workerID now ts walOk).1 id = payloadOf m id := by
  unfold Poll
  split_ifs with c
  · rfl
  · exact payloadOf_pollLoop cfg m workerID now ts walOk id m.pending

theorem payloadOf_Ack (m : Manager) (taskID workerID : String) (ts : Time) (walOk : Bool)
    (id : String) : payloadOf (Ack m taskID workerID ts walOk).1 id = payloadOf m id := by
  unfold Ack
  cases hl : m.tasks.lookup taskID with
  | none => rfl
  | some task =>
    simp only
    split_ifs with c1 c2 c3 c4
    all_goals try rfl
    exact payloadOf_insert_same m.tasks taskID id task _ hl rfl

theorem payloadOf_scanOne (now : Time) (walOk : String → Bool) (m : Manager)
    (taskID id : String) : payloadOf (scanOne now walOk m taskID) id = payloadOf m id := by
  unfold scanOne
  cases hl : m.tasks.lookup taskID with
  | none => rfl
  | some task =>
    simp only
    split_ifs with c1 c2
    all_goals try rfl
    exact payloadOf_insert_same m.tasks taskID id task _ hl rfl

theorem payloadOf_ScanVisibility (now : Time) (walOk : String → Bool) (id : String) :
    ∀ (candidates : List String) (m : Manager),
      payloadOf (ScanVisibility m now candidates walOk) id = payloadOf m id := by
  intro candidates
  induction candidates with
  | nil =>
    intro m
    rfl
  | cons c cs ih =>
    intro m
    exact (ih (scanOne now walOk m c)).trans (payloadOf_scanOne now walOk m c id)

theorem Enqueue_cases (cfg : Config) (m : Manager) (taskID payload : String) (ts : Time)
    (walOk : Bool) :
    (∃ e, Enqueue cfg m taskID payload ts walOk = (m, some e)) ∨
    ((m.tasks.lookup taskID).isSome = true ∧ Enqueue cfg m taskID payload ts walOk = (m, none)) ∨
    (m.tasks.lookup taskID = none ∧
      Enqueue cfg m taskID payload ts walOk =
        ({ m with
           wal := m.wal ++ [{ Type_ := EnqueueRecord, TaskID := taskID, Payload := payload, Timestamp := ts }],
           tasks := m.tasks.insert taskID { ID := taskID, Payload := payload, State := .Pending, Attempts := 0 },
           pending := m.pending ++ [taskID] }, none)) := by
  unfold Enqueue
  split_ifs with c1 c2 c3 c4 c5
  · exact Or.inl ⟨_, rfl⟩
  · exact Or.inl ⟨_, rfl⟩
  · exact Or.inr (Or.inl ⟨c3, rfl⟩)
  · exact Or.inl ⟨_, rfl⟩
  · exact Or.inl ⟨_, rfl⟩
  · refine Or.inr (Or.inr ⟨?_, rfl⟩)
    cases hl : m.tasks.lookup taskID with
    | none => rfl
    | some t => simp [hl] at c3

theorem ledger_Enqueue (cfg : Config) (m : Manager) (taskID payload : String) (ts : Time)
    (walOk : Bool) (ledger : String → Option String) (h : LedgerOK m ledger) :
    LedgerOK (Enqueue cfg m taskID payload ts walOk).1
      (noteCall cfg m ledger (.enqueue taskID payload ts walOk)) := by
  intro id
  have hid := h id
  rcases Enqueue_cases cfg m taskID payload ts walOk with ⟨e, he⟩ | ⟨hs, he⟩ | ⟨hn, he⟩
  · simp only [noteCall, he]
    simpa using hid
  · simp only [noteCall, he]
    by_cases e : id = taskID
    · subst e
      have : ledger id ≠ none := by
        rw [hid]
        unfold payloadOf
        cases hl : m.tasks.lookup id with
        | none => simp [hl] at hs
        | some t => simp
      simpa [this] using hid
    · simpa [e] using hid
  · simp only [noteCall, he]
    by_cases e : id = taskID
    · subst e
      have : ledger id = none := by
        rw [hid]
        simp [payloadOf, hn]
      simp [this, payloadOf, Finmap.lookup_insert]
    · simp [e, hid, payloadOf, lookup_insert_ne _ _ e]

theorem ledger_step (cfg : Config) (m : Manager) (c : Call) (ledger : String → Option String)
    (h : LedgerOK m ledger) : LedgerOK (step cfg m c) (noteCall cfg m ledger c) := by
  cases c with
  | enqueue taskID payload ts walOk => exact ledger_Enqueue cfg m taskID payload ts walOk ledger h
  | poll workerID now ts walOk =>
    intro id
    exact (h id).trans (payloadOf_Poll cfg m workerID now ts walOk id).symm
  | ack taskID workerID ts walOk =>
    intro id
    exact (h id).trans (payloadOf_Ack m taskID workerID ts walOk id).symm
  | scan now candidates walOk =>
    intro id
    exact (h id).trans (payloadOf_ScanVisibility now walOk id candidates m).symm

theorem ledger_run (cfg : Config) :
    ∀ (calls : List Call) (m : Manager) (ledger : String → Option String),
      Admissible cfg m calls → Inv m → Tracked m → LedgerOK m ledger →
      Tracked (run cfg m calls) ∧ LedgerOK (run cfg m calls) (ledgerAfter cfg m ledger calls) := by
  intro calls
  induction calls with
  | nil =>
    intro m ledger _ _ ht hl
    exact ⟨ht, hl⟩
  | cons c cs ih =>
    intro m ledger ha hi ht hl
    exact ih (step cfg m c) (noteCall cfg m ledger c) ha.2 (inv_step cfg m c ha.1 hi)
      (tracked_step cfg m c hi ht) (ledger_step cfg m c ledger hl)

theorem not_lost_of (m : Manager) (ledger : String → Option String) (ht : Tracked m)
    (hl : LedgerOK m ledger) (id p : String) (h : ledger id = some p) :
    ∃ t, m.tasks.lookup id = some t ∧ t.Payload = p ∧
      ((t.State = .Pending ∧ id ∈ m.pending) ∨ (t.State = .InFlight ∧ id ∈ m.inFlight) ∨
        t.State = .Done) := by
  rw [hl id] at h
  unfold payloadOf at h
  cases hk : m.tasks.lookup id with
  | none => simp [hk] at h
  | some t =>
    refine ⟨t, rfl, ?_, ht id t hk⟩
    simpa [hk] using h

end TaskQueue

namespace TaskQueue

theorem tracked_NewManager : Tracked NewManager := by
  intro id t h
  simp [NewManager] at h

theorem ledger_NewManager : LedgerOK NewManager (fun _ => none) := by
  intro id
  simp [payloadOf, NewManager]

/-- C3. No task is lost: after any admissible sequence of Enqueue, Poll, Ack and
ScanVisibility calls on the empty manager, every id for which some Enqueue returned
`nil` (an entry of the ledger, whose payload is the one of the first such call) is
still a key of `tasks`, holds that payload, and is `Pending` and in `pending`, or
`InFlight` and a key of `inFlight`, or `Done`. -/
theorem no_task_lost (cfg : Config) (calls : List Call)
    (ha : Admissible cfg NewManager calls) (id p : String)
    (h : ledgerAfter cfg NewManager (fun _ => none) calls id = some p) :
    ∃ t, (run cfg NewManager calls).tasks.lookup id = some t ∧ t.Payload = p ∧
      ((t.State = .Pending ∧ id ∈ (run cfg NewManager calls).pending) ∨
       (t.State = .InFlight ∧ id ∈ (run cfg NewManager calls).inFlight) ∨
       t.State = .Done) :=
  not_lost_of _ _
    (ledger_run cfg calls NewManager _ ha inv_NewManager tracked_NewManager ledger_NewManager).1
    (ledger_run cfg calls NewManager _ ha inv_NewManager tracked_NewManager ledger_NewManager).2
    id p h

/-- Witness of C3: after `Enqueue("t1","p")` and `Enqueue("t1","other")` the ledger
holds `"p"` for `"t1"`, and so does `tasks`. -/
theorem no_task_lost_witness :
    Admissible idemConfig NewManager dupCalls ∧
    ledgerAfter idemConfig NewManager (fun _ => none) dupCalls "t1" = some "p" ∧
    ∃ t, (run idemConfig NewManager dupCalls).tasks.lookup "t1" = some t ∧ t.Payload = "p" ∧
      ((t.State = .Pending ∧ "t1" ∈ (run idemConfig NewManager dupCalls).pending) ∨
       (t.State = .InFlight ∧ "t1" ∈ (run idemConfig NewManager dupCalls).inFlight) ∨
       t.State = .Done) :=
  ⟨⟨trivial, trivial, trivial⟩, by decide,
    no_task_lost idemConfig dupCalls ⟨trivial, trivial, trivial⟩ "t1" "p" (by decide)⟩

end TaskQueue

namespace TaskQueue

/-! ## FIFO delivery -/

theorem keys_insert_new (tasks : TaskMap) (x : String) (t : Task) (h : tasks.lookup x = none) :
    (tasks.insert x t).keys.card = tasks.keys.card + 1 := by
  have hk : (tasks.insert x t).keys = insert x tasks.keys := by
    ext a
    simp [Finmap.mem_keys, Finmap.mem_insert]
  rw [hk, Finset.card_insert_of_not_mem]
  rw [Finmap.mem_keys]
  exact Finmap.lookup_eq_none.mp h

theorem Enqueue_new (cfg : Config) (m : Manager) (taskID payload : String) (ts : Time)
    (h1 : (payload.utf8ByteSize : Int) ≤ cfg.MaxPayloadBytes) (h2 : taskID ≠ "")
    (h3 : m.tasks.lookup taskID = none) (h4 : (m.tasks.keys.card : Int) < cfg.MaxTasksInMemory) :
    Enqueue cfg m taskID payload ts true =
      ({ m with
         wal := m.wal ++ [{ Type_ := EnqueueRecord, TaskID := taskID, Payload := payload, Timestamp := ts }],
         tasks := m.tasks.insert taskID { ID := taskID, Payload := payload, State := .Pending, Attempts := 0 },
         pending := m.pending ++ [taskID] }, none) := by
  unfold Enqueue
  rw [if_neg (not_lt.mpr h1), if_neg h2, if_neg (by simp [h3]), if_neg (not_le.mpr h4)]
  simp

theorem lookup_enqueueAll (cfg : Config) (id : String) (t : Task) :
    ∀ (items : List (String × String × Time)) (m : Manager),
      m.tasks.lookup id = some t → (enqueueAll cfg m items).1.tasks.lookup id = some t := by
  intro items
  induction items with
  | nil =>
    intro m h
    exact h
  | cons it its ih =>
    intro m h
    apply ih
    rcases Enqueue_cases cfg m it.1 it.2.1 it.2.2 true with ⟨e, he⟩ | ⟨_, he⟩ | ⟨hn, he⟩
    · rw [he]
      exact h
    · rw [he]
      exact h
    · rw [he]
      have e : id ≠ it.1 := by
        rintro rfl
        rw [hn] at h
        cases h
      simpa [lookup_insert_ne _ _ e] using h

theorem enqueueAll_fresh (cfg : Config) :
    ∀ (items : List (String × String × Time)) (m : Manager),
      (items.map (fun it => it.1)).Nodup →
      (∀ it ∈ items, it.1 ≠ "" ∧ (it.2.1.utf8ByteSize : Int) ≤ cfg.MaxPayloadBytes ∧
        m.tasks.lookup it.1 = none) →
      ((m.tasks.keys.card : Int) + items.length ≤ cfg.MaxTasksInMemory) →
      (∀ e ∈ (enqueueAll cfg m items).2, e = none) ∧
      (enqueueAll cfg m items).1.pending = m.pending ++ items.map (fun it => it.1) ∧
      ∀ it ∈ items, (enqueueAll cfg m items).1.tasks.lookup it.1 =
        some { ID := it.1, Payload := it.2.1, State := .Pending, Attempts := 0 } := by
  intro items
  induction items with
  | nil =>
    intro m _ _ _
    simp [enqueueAll]
  | cons it its ih =>
    intro m hnd hit hcap
    obtain ⟨hid, hlen, hnone⟩ := hit it (List.mem_cons_self _ _)
    have hnd' := List.nodup_cons.mp hnd
    have hcap' : (m.tasks.keys.card : Int) < cfg.MaxTasksInMemory := by
      simp only [List.length_cons, Nat.cast_add, Nat.cast_one] at hcap
      omega
    have he := Enqueue_new cfg m it.1 it.2.1 it.2.2 hlen hid hnone hcap'
    have hstep : enqueueAll cfg m (it :: its) =
        ((enqueueAll cfg (Enqueue cfg m it.1 it.2.1 it.2.2 true).1 its).1,
          (Enqueue cfg m it.1 it.2.1 it.2.2 true).2 ::
            (enqueueAll cfg (Enqueue cfg m it.1 it.2.1 it.2.2 true).1 its).2) := rfl
    have hrec := ih (Enqueue cfg m it.1 it.2.1 it.2.2 true).1 hnd'.2 (by
      intro it' hit'
      obtain ⟨a, b, c⟩ := hit it' (List.mem_cons_of_mem _ hit')
      refine ⟨a, b, ?_⟩
      rw [he]
      have e : it'.1 ≠ it.1 := by
        intro e
        apply hnd'.1
        show it.1 ∈ List.map (fun it => it.1) its
        rw [← e]
        exact List.mem_map_of_mem (fun it => it.1) hit'
      simpa [lookup_insert_ne _ _ e] using c) (by
      rw [he]
      simp only [List.length_cons, Nat.cast_add, Nat.cast_one] at hcap
      simp only [keys_insert_new m.tasks it.1 _ hnone, Nat.cast_add, Nat.cast_one]
      omega)
    rw [hstep]
    refine ⟨?_, ?_, ?_⟩
    · intro e hmem
      rcases List.mem_cons.mp hmem with h | h
      · rw [h, he]
      · exact hrec.1 e h
    · rw [hrec.2.1, he]
      simp
    · intro it' hit'
      rcases List.mem_cons.mp hit' with h | h
      · subst h
        apply lookup_enqueueAll
        rw [he]
        exact Finmap.lookup_insert _
      · exact hrec.2.2 it' h

end TaskQueue

namespace TaskQueue

theorem pollAll_fifo (cfg : Config) :
    ∀ (items : List (String × String × Time)) (m : Manager) (polls : List (String × Time × Time)),
      m.pending = items.map (fun it => it.1) →
      (items.map (fun it => it.1)).Nodup →
      (∀ it ∈ items, m.tasks.lookup it.1 =
        some { ID := it.1, Payload := it.2.1, State := .Pending, Attempts := 0 }) →
      polls.length = items.length → (∀ p ∈ polls, p.1 ≠ "") →
      (pollAll cfg m polls).2 = List.zipWith (leased cfg) items polls := by
  intro items
  induction items with
  | nil =>
    intro m polls _ _ _ hlen _
    have : polls = [] := List.length_eq_zero.mp (by simpa using hlen)
    subst this
    rfl
  | cons it its ih =>
    intro m polls hp hnd hl hlen hw
    cases polls with
    | nil => simp at hlen
    | cons p ps =>
      have hnd' := List.nodup_cons.mp hnd
      have hpw : p.1 ≠ "" := hw p (List.mem_cons_self _ _)
      have hit := hl it (List.mem_cons_self _ _)
      have hpoll : Poll cfg m p.1 p.2.1 p.2.2 true =
          ({ m with
             pending := its.map (fun it => it.1),
             wal := m.wal ++ [{ Type_ := PollRecord, TaskID := it.1, WorkerID := p.1, Deadline := timeAdd p.2.1 cfg.VisibilityTimeout, Timestamp := p.2.2 }],
             tasks := m.tasks.insert it.1 { ID := it.1, Payload := it.2.1, State := .InFlight, VisibilityDeadline := timeAdd p.2.1 cfg.VisibilityTimeout, Attempts := 0 },
             inFlight := m.inFlight.insert it.1 p.1 }, leased cfg it p) := by
        simp [Poll, hpw, hp, pollLoop, hit, leased]
      have hstep : pollAll cfg m (p :: ps) =
          ((pollAll cfg (Poll cfg m p.1 p.2.1 p.2.2 true).1 ps).1,
            (Poll cfg m p.1 p.2.1 p.2.2 true).2 ::
              (pollAll cfg (Poll cfg m p.1 p.2.1 p.2.2 true).1 ps).2) := rfl
      rw [hstep, List.zipWith_cons_cons]
      have hrec := ih (Poll cfg m p.1 p.2.1 p.2.2 true).1 ps (by rw [hpoll]) hnd'.2 (by
        intro it' hit'
        rw [hpoll]
        have e : it'.1 ≠ it.1 := by
          intro e
          apply hnd'.1
          show it.1 ∈ List.map (fun it => it.1) its
          rw [← e]
          exact List.mem_map_of_mem (fun it => it.1) hit'
        simpa [lookup_insert_ne _ _ e] using hl it' (List.mem_cons_of_mem _ hit'))
        (by simpa using hlen) (fun q hq => hw q (List.mem_cons_of_mem _ hq))
      rw [hrec, hpoll]

/-- C4. FIFO delivery: n tasks with distinct non-empty ids and payloads within the
limit, n at most `MaxTasksInMemory`, are enqueued in order into the empty manager (each
`Enqueue` returns `nil`), then `Poll` is called n times with non-empty worker ids,
every WAL append succeeding and no scan in between: the k-th poll returns the k-th
task enqueued, with its payload, `attempts = 0` and the deadline of that poll. -/
theorem fifo_delivery (cfg : Config) (items : List (String × String × Time))
    (polls : List (String × Time × Time))
    (hnd : (items.map (fun it => it.1)).Nodup)
    (hit : ∀ it ∈ items, it.1 ≠ "" ∧ (it.2.1.utf8ByteSize : Int) ≤ cfg.MaxPayloadBytes)
    (hcap : (items.length : Int) ≤ cfg.MaxTasksInMemory)
    (hlen : polls.length = items.length) (hw : ∀ p ∈ polls, p.1 ≠ "") :
    (∀ e ∈ (enqueueAll cfg NewManager items).2, e = none) ∧
    (pollAll cfg (enqueueAll cfg NewManager items).1 polls).2 =
      List.zipWith (leased cfg) items polls := by
  have h := enqueueAll_fresh cfg items NewManager hnd
    (fun it h => ⟨(hit it h).1, (hit it h).2, by simp [NewManager]⟩)
    (by simpa [NewManager] using hcap)
  refine ⟨h.1, ?_⟩
  exact pollAll_fifo cfg items _ polls (by simpa [NewManager] using h.2.1) hnd h.2.2 hlen hw

/-- Witness of C4, the concrete case: `a`, `b`, `c` are enqueued and three polls return
them in that order. -/
theorem fifo_delivery_witness :
    (pollAll testConfig (enqueueAll testConfig NewManager abcItems).1 abcPolls).2 =
      [ .ok (some { ID := "a", Payload := "1", State := .InFlight, VisibilityDeadline := 10000000000, Attempts := 0 }),
        .ok (some { ID := "b", Payload := "2", State := .InFlight, VisibilityDeadline := 10000000000, Attempts := 0 }),
        .ok (some { ID := "c", Payload := "3", State := .InFlight, VisibilityDeadline := 10000000000, Attempts := 0 }) ] :=
  (fifo_delivery testConfig abcItems abcPolls (by decide) (by decide) (by decide) (by decide)
    (by decide)).2

end TaskQueue

namespace TaskQueue

/-! ## Enqueue on an existing id -/

/-- C5, counterexample. With the limit of 100 bytes of the idempotency test, `t1` is
stored and `Enqueue("t1", p')` with a payload of 101 bytes does not return `nil`: the
size check comes before the lookup and the call is rejected. -/
theorem enqueue_existing_oversize :
    (afterT1.tasks.lookup "t1").isSome = true ∧
    Enqueue idemConfig afterT1 "t1" payload101 0 true = (afterT1, some .payloadTooLarge) := by
  constructor
  · decide
  · have h : (payload101.utf8ByteSize : Int) > idemConfig.MaxPayloadBytes := by decide
    unfold Enqueue
    rw [if_pos h]

/-- C5, amended. For every manager state, every non-empty task id already present in
`tasks` and every payload whose length is within `MaxPayloadBytes`, `Enqueue` returns
`nil` and leaves the whole state as it was: no record is appended to the WAL, and
`tasks` (with the payload stored first), `pending` and `inFlight` are unchanged. The
number of stored tasks and the outcome the WAL would have had play no part. -/
theorem enqueue_idempotent (cfg : Config) (m : Manager) (taskID payload : String) (ts : Time)
    (walOk : Bool) (hlen : (payload.utf8ByteSize : Int) ≤ cfg.MaxPayloadBytes)
    (hid : taskID ≠ "") (hex : taskID ∈ m.tasks) :
    Enqueue cfg m taskID payload ts walOk = (m, none) := by
  unfold Enqueue
  rw [if_neg (not_lt.mpr hlen), if_neg hid, if_pos (Finmap.lookup_isSome.mpr hex)]

/-- Witness of C5: `Enqueue("t1", "other")` after `Enqueue("t1", "p")`. -/
theorem enqueue_idempotent_witness :
    (("other".utf8ByteSize : Int) ≤ idemConfig.MaxPayloadBytes) ∧ "t1" ≠ "" ∧
    "t1" ∈ afterT1.tasks ∧
    Enqueue idemConfig afterT1 "t1" "other" 0 true = (afterT1, none) :=
  ⟨by decide, by decide, by decide,
    enqueue_idempotent idemConfig afterT1 "t1" "other" 0 true (by decide) (by decide) (by decide)⟩

end TaskQueue

namespace TaskQueue

/-! ## Poll -/

theorem pollLoop_walFails (cfg : Config) (m : Manager) (workerID : String) (now ts : Time) :
    ∀ L : List String,
      pollLoop cfg m workerID now ts false L =
        ({ m with pending := L.dropWhile (fun id => !deliverable m id) },
          if L.dropWhile (fun id => !deliverable m id) = [] then .ok none
          else .error .walWriteFailed) := by
  intro L
  induction L with
  | nil => rfl
  | cons x rest ih =>
    unfold pollLoop
    cases hl : m.tasks.lookup x with
    | none =>
      have hd : deliverable m x = false := by simp [deliverable, hl]
      simp only [List.dropWhile_cons, hd, Bool.not_false, if_true]
      exact ih
    | some task =>
      by_cases hs : task.State = .Pending
      · have hd : deliverable m x = true := by simp [deliverable, hl, hs]
        simp [hd, hs]
      · have hd : deliverable m x = false := by simp [deliverable, hl, hs]
        simp only [List.dropWhile_cons, hd, Bool.not_false, if_true]
        simp only [ne_eq, hs, not_false_eq_true, if_true]
        exact ih

theorem dropWhile_eq_self_of_head {α : Type} (p : α → Bool) (l : List α)
    (h : ∀ a ∈ l, p a = false) : l.dropWhile p = l := by
  cases l with
  | nil => rfl
  | cons a as => simp [List.dropWhile_cons, h a (List.mem_cons_self _ _)]

/-- C7, counterexample. In the manager restored from `ENQUEUE s`, `ENQUEUE x`, `ACK s`
the sequence `pending` is `s, x`; a `Poll` whose WAL append fails returns the
durability error and leaves `pending` as `x` alone, not as it was. -/
theorem poll_wal_failure_drops_stale :
    staleHead.pending = ["s", "x"] ∧
    (Poll testConfig staleHead "w1" 0 0 false).2 = .error .walWriteFailed ∧
    (Poll testConfig staleHead "w1" 0 0 false).1.pending = ["x"] ∧
    (Poll testConfig staleHead "w1" 0 0 false).1.pending ≠ staleHead.pending :=
  ⟨by decide, by rfl, by decide, by decide⟩

/-- C7, amended. For every manager state and non-empty worker id, when `pending`
holds an id of a `Pending` task and the WAL append of `Poll` fails, `Poll` returns
the durability error, `tasks`, `inFlight` and the WAL are what they were, and
`pending` is the old sequence from the candidate on: the candidate is back at its
head and the ids ahead of it that named no `Pending` task are gone. When every id
in `pending` names a `Pending` task (invariant 1) the whole state is the
pre-operation state. -/
theorem poll_wal_failure (cfg : Config) (m : Manager) (workerID : String) (now ts : Time)
    (hw : workerID ≠ "") (hc : ∃ id ∈ m.pending, deliverable m id = true) :
    (Poll cfg m workerID now ts false).2 = .error .walWriteFailed ∧
    (Poll cfg m workerID now ts false).1.tasks = m.tasks ∧
    (Poll cfg m workerID now ts false).1.inFlight = m.inFlight ∧
    (Poll cfg m workerID now ts false).1.wal = m.wal ∧
    (Poll cfg m workerID now ts false).1.pending =
      m.pending.dropWhile (fun id => !deliverable m id) ∧
    (∃ x, (Poll cfg m workerID now ts false).1.pending.head? = some x ∧
      deliverable m x = true) ∧
    (PendingArePending m → (Poll cfg m workerID now ts false).1 = m) := by
  have hP : Poll cfg m workerID now ts false =
      pollLoop cfg m workerID now ts false m.pending := by
    unfold Poll
    rw [if_neg hw]
  rw [hP, pollLoop_walFails]
  obtain ⟨c, hcm, hcd⟩ := hc
  have hne : m.pending.dropWhile (fun id => !deliverable m id) ≠ [] := by
    intro h
    have := List.dropWhile_eq_nil_iff.mp h c hcm
    simp [hcd] at this
  refine ⟨by simp [hne], rfl, rfl, rfl, rfl, ?_, ?_⟩
  · simp only
    cases hd : m.pending.dropWhile (fun id => !deliverable m id) with
    | nil => exact absurd hd hne
    | cons x xs =>
      refine ⟨x, rfl, ?_⟩
      have := List.head_dropWhile_not (fun id => !deliverable m id) m.pending
        (by rw [hd]; simp)
      simp only [hd, List.head_cons] at this
      simpa using this
  · intro hpp
    simp only
    apply manager_eta_pending
    symm
    apply dropWhile_eq_self_of_head
    intro a ha
    obtain ⟨t, ht, hs⟩ := hpp a ha
    simp [deliverable, ht, hs]

theorem deliverable_staleHead : ∃ id ∈ staleHead.pending, deliverable staleHead id = true :=
  ⟨"x", by decide, by decide⟩

/-- Witness of C7 on the state of the counterexample. -/
theorem poll_wal_failure_witness :
    "w1" ≠ "" ∧ (∃ id ∈ staleHead.pending, deliverable staleHead id = true) ∧
    (Poll testConfig staleHead "w1" 0 0 false).2 = .error .walWriteFailed ∧
    (Poll testConfig staleHead "w1" 0 0 false).1.tasks = staleHead.tasks :=
  ⟨by decide, deliverable_staleHead,
    (poll_wal_failure testConfig staleHead "w1" 0 0 (by decide) deliverable_staleHead).1,
    (poll_wal_failure testConfig staleHead "w1" 0 0 (by decide) deliverable_staleHead).2.1⟩

end TaskQueue

namespace TaskQueue

/-! ## Ack -/

/-- C8. Ack error cases, for every manager state, task id, worker id, clock reading
and WAL outcome: `Ack` returns NotFound when the id is not in `tasks`, NotInFlight
when the task is `Pending`, and WorkerMismatch when the task is `InFlight` and
`inFlight[taskID]` differs from the worker id; in each case the state after the call
is the state before it, so no record is appended and `tasks`, `pending` and
`inFlight` are unchanged. -/
theorem ack_errors (m : Manager) (taskID workerID : String) (ts : Time) (walOk : Bool) :
    (m.tasks.lookup taskID = none →
      Ack m taskID workerID ts walOk = (m, some .taskNotFound)) ∧
    (∀ t, m.tasks.lookup taskID = some t → t.State = .Pending →
      Ack m taskID workerID ts walOk = (m, some .taskNotInFlight)) ∧
    (∀ t, m.tasks.lookup taskID = some t → t.State = .InFlight →
      inFlightAt m taskID ≠ workerID →
      Ack m taskID workerID ts walOk = (m, some .workerMismatch)) := by
  refine ⟨?_, ?_, ?_⟩
  · intro h
    simp [Ack, h]
  · intro t h hs
    simp [Ack, h, hs]
  · intro t h hs hne
    simp [Ack, h, hs, hne]

/-- Witness of C8, scenario 5: `t1` is leased to `w1`; `Ack("t1","w2")` is a worker
mismatch and `t1` stays `InFlight` for `w1`; `Ack("nope","w1")` is not found. -/
theorem ack_errors_witness :
    Ack leasedT1 "t1" "w2" 0 true = (leasedT1, some .workerMismatch) ∧
    Ack leasedT1 "nope" "w1" 0 true = (leasedT1, some .taskNotFound) ∧
    Ack afterT1 "t1" "w1" 0 true = (afterT1, some .taskNotInFlight) ∧
    leasedT1.inFlight.lookup "t1" = some "w1" :=
  ⟨(ack_errors leasedT1 "t1" "w2" 0 true).2.2
      { ID := "t1", Payload := "p", State := .InFlight, VisibilityDeadline := 10000000000, Attempts := 0 }
      (by decide) rfl (by decide),
    (ack_errors leasedT1 "nope" "w1" 0 true).1 (by decide),
    (ack_errors afterT1 "t1" "w1" 0 true).2.1
      { ID := "t1", Payload := "p", State := .Pending, Attempts := 0 } (by decide) rfl,
    by decide⟩

/-! ## ScanVisibility -/

theorem scanOne_expired (now : Time) (walOk : String → Bool) (m : Manager) (c : String)
    (t : Task) (hl : m.tasks.lookup c = some t) (he : expired m now c = true)
    (hok : walOk c = true) :
    scanOne now walOk m c =
      { m with
        wal := m.wal ++ [timeoutRecord now c],
        tasks := m.tasks.insert c (requeued t),
        inFlight := m.inFlight.erase c,
        pending := m.pending ++ [c] } := by
  have he' : timeAfter now t.VisibilityDeadline = true := by simpa [expired, hl] using he
  simp [scanOne, hl, he', hok, timeoutRecord, requeued]

theorem scanOne_not_expired (now : Time) (walOk : String → Bool) (m : Manager) (c : String)
    (he : expired m now c = false) : scanOne now walOk m c = m := by
  unfold scanOne
  cases hl : m.tasks.lookup c with
  | none => rfl
  | some t =>
    have he' : timeAfter now t.VisibilityDeadline = false := by simpa [expired, hl] using he
    simp [he']

theorem expired_scanOne (now : Time) (walOk : String → Bool) (m : Manager) (c id : String)
    (hne : id ≠ c) : expired (scanOne now walOk m c) now id = expired m now id := by
  unfold scanOne
  cases hl : m.tasks.lookup c with
  | none => rfl
  | some t =>
    simp only
    split_ifs with c1 c2
    all_goals try rfl
    simp [expired, lookup_insert_ne _ _ hne]

theorem scan_fold (now : Time) (walOk : String → Bool) (hok : ∀ id, walOk id = true) :
    ∀ (candidates : List String) (m : Manager), candidates.Nodup →
      (ScanVisibility m now candidates walOk).pending = m.pending ++ reclaimed m now candidates ∧
      (ScanVisibility m now candidates walOk).wal =
        m.wal ++ (reclaimed m now candidates).map (timeoutRecord now) ∧
      (∀ id, (ScanVisibility m now candidates walOk).tasks.lookup id =
        if id ∈ reclaimed m now candidates then (m.tasks.lookup id).map requeued
        else m.tasks.lookup id) ∧
      (∀ id, (ScanVisibility m now candidates walOk).inFlight.lookup id =
        if id ∈ reclaimed m now candidates then none else m.inFlight.lookup id) := by
  intro candidates
  induction candidates with
  | nil =>
    intro m _
    simp [ScanVisibility, reclaimed]
  | cons c cs ih =>
    intro m hnd
    have hc : c ∉ cs := (List.nodup_cons.mp hnd).1
    have hstep : ScanVisibility m now (c :: cs) walOk =
        ScanVisibility (scanOne now walOk m c) now cs walOk := rfl
    have hrec := ih (scanOne now walOk m c) (List.nodup_cons.mp hnd).2
    have hfilter : reclaimed (scanOne now walOk m c) now cs = reclaimed m now cs := by
      unfold reclaimed
      apply List.filter_congr
      intro id hid
      apply expired_scanOne
      rintro rfl
      exact hc hid
    rw [hfilter] at hrec
    have hcr : c ∉ reclaimed m now cs := fun h => hc (List.mem_of_mem_filter h)
    rw [hstep]
    cases he : expired m now c with
    | false =>
      have hr : reclaimed m now (c :: cs) = reclaimed m now cs := by
        simp [reclaimed, List.filter_cons, he]
      rw [hr]
      rw [scanOne_not_expired now walOk m c he] at hrec ⊢
      exact hrec
    | true =>
      have hr : reclaimed m now (c :: cs) = c :: reclaimed m now cs := by
        simp [reclaimed, List.filter_cons, he]
      obtain ⟨t, hl⟩ : ∃ t, m.tasks.lookup c = some t := by
        cases hl : m.tasks.lookup c with
        | none => simp [expired, hl] at he
        | some t => exact ⟨t, rfl⟩
      rw [hr]
      rw [scanOne_expired now walOk m c t hl he (hok c)] at hrec ⊢
      obtain ⟨h1, h2, h3, h4⟩ := hrec
      refine ⟨?_, ?_, ?_, ?_⟩
      · rw [h1]
        simp
      · rw [h2]
        simp
      · intro id
        rw [h3 id]
        by_cases e : id = c
        · subst e
          simp [hcr, hl, Finmap.lookup_insert]
        · simp [e, lookup_insert_ne _ _ e]
      · intro id
        rw [h4 id]
        by_cases e : id = c
        · subst e
          simp [hcr, Finmap.lookup_erase]
        · simp [e, Finmap.lookup_erase_ne e]

end TaskQueue

namespace TaskQueue

/-- C9. ScanVisibility reclaims exactly the expired leases. For every manager state
and clock reading `now`, with the candidates ranging over the keys of `inFlight` and
every WAL append succeeding: a stored task that is a key of `inFlight` is reclaimed
if and only if its deadline is strictly earlier than `now`; each reclaimed task has
`attempts` increased by one and state `Pending` (its other fields unchanged) and is
no longer a key of `inFlight`; `pending` is the old sequence followed by the
reclaimed ids, each once; the WAL is the old one followed by one TIMEOUT record
`(taskID, timestamp = now)` per reclaimed task, in the same order; every other task
and every other `inFlight` entry is unchanged. -/
theorem scan_reclaims_expired (m : Manager) (now : Time) (candidates : List String)
    (walOk : String → Bool) (hr : IsRangeOf candidates m.inFlight)
    (hok : ∀ id, walOk id = true) :
    (∀ id t, id ∈ m.inFlight → m.tasks.lookup id = some t →
      (id ∈ reclaimed m now candidates ↔ t.VisibilityDeadline < now)) ∧
    (∀ id ∈ reclaimed m now candidates, id ∈ m.inFlight ∧
      ∃ t, m.tasks.lookup id = some t ∧
        (ScanVisibility m now candidates walOk).tasks.lookup id =
          some { t with Attempts := t.Attempts + 1, State := .Pending } ∧
        id ∉ (ScanVisibility m now candidates walOk).inFlight) ∧
    (ScanVisibility m now candidates walOk).pending = m.pending ++ reclaimed m now candidates ∧
    (reclaimed m now candidates).Nodup ∧
    (ScanVisibility m now candidates walOk).wal =
      m.wal ++ (reclaimed m now candidates).map
        (fun id => { Type_ := TimeoutRecord, TaskID := id, Timestamp := now }) ∧
    (∀ id, id ∉ reclaimed m now candidates →
      (ScanVisibility m now candidates walOk).tasks.lookup id = m.tasks.lookup id ∧
      (ScanVisibility m now candidates walOk).inFlight.lookup id = m.inFlight.lookup id) := by
  obtain ⟨h1, h2, h3, h4⟩ := scan_fold now walOk hok candidates m hr.1
  refine ⟨?_, ?_, h1, List.Nodup.filter _ hr.1, h2, ?_⟩
  · intro id t hin hl
    unfold reclaimed
    rw [List.mem_filter]
    simp [expired, hl, timeAfter, (hr.2 id).mpr hin]
  · intro id hid
    have hc : id ∈ candidates := List.mem_of_mem_filter hid
    have he : expired m now id = true := (List.mem_filter.mp hid).2
    refine ⟨(hr.2 id).mp hc, ?_⟩
    cases hl : m.tasks.lookup id with
    | none => simp [expired, hl] at he
    | some t =>
      refine ⟨t, rfl, ?_, ?_⟩
      · rw [h3 id, if_pos hid, hl]
        rfl
      · rw [← Finmap.lookup_eq_none, h4 id, if_pos hid]
  · intro id hid
    exact ⟨by rw [h3 id, if_neg hid], by rw [h4 id, if_neg hid]⟩

theorem leasedT1_inFlight : leasedT1.inFlight = Finmap.insert "t1" "w1" ∅ := by
  decide

theorem leasedT1_range : IsRangeOf ["t1"] leasedT1.inFlight := by
  refine ⟨by simp, ?_⟩
  intro id
  rw [leasedT1_inFlight]
  simp [Finmap.mem_insert, Finmap.not_mem_empty]

/-- Witness of C9, scenario 2: `t1` was leased at time 0 for ten seconds; the scan
at eleven seconds reclaims it, the scan at exactly ten seconds does not. -/
theorem scan_reclaims_expired_witness :
    IsRangeOf ["t1"] leasedT1.inFlight ∧
    reclaimed leasedT1 11000000000 ["t1"] = ["t1"] ∧
    reclaimed leasedT1 10000000000 ["t1"] = [] ∧
    (ScanVisibility leasedT1 11000000000 ["t1"] (fun _ => true)).pending =
      leasedT1.pending ++ reclaimed leasedT1 11000000000 ["t1"] ∧
    (ScanVisibility leasedT1 10000000000 ["t1"] (fun _ => true)).pending =
      leasedT1.pending ++ reclaimed leasedT1 10000000000 ["t1"] :=
  ⟨leasedT1_range, by decide, by decide,
    (scan_reclaims_expired leasedT1 11000000000 ["t1"] (fun _ => true) leasedT1_range
      (fun _ => rfl)).2.2.1,
    (scan_reclaims_expired leasedT1 10000000000 ["t1"] (fun _ => true) leasedT1_range
      (fun _ => rfl)).2.2.1⟩

end TaskQueue

namespace TaskQueue

/-! ## Replay of a log with a long line -/

theorem scanLines_full (post : Bytes) :
    ∀ cur : Bytes, cur.length ≥ MaxScanTokenSize → scanLines cur post = ([], true) := by
  induction post with
  | nil =>
    intro cur h
    have hne : cur ≠ [] := by
      rintro rfl
      simp [MaxScanTokenSize] at h
    simp [scanLines, hne, h]
  | cons b rest ih =>
    intro cur h
    unfold scanLines
    by_cases hb : b = 10
    · simp [hb, h]
    · rw [if_neg hb]
      apply ih
      simp only [List.length_append, List.length_singleton]
      omega

theorem scanLines_long_line (post : Bytes) :
    ∀ (seg cur : Bytes), (∀ b ∈ seg, b ≠ 10) → cur.length + seg.length ≥ MaxScanTokenSize →
      scanLines cur (seg ++ post) = ([], true) := by
  intro seg
  induction seg with
  | nil =>
    intro cur _ h
    exact scanLines_full post cur (by simpa using h)
  | cons b rest ih =>
    intro cur hno h
    have hb : b ≠ 10 := hno b (List.mem_cons_self _ _)
    simp only [List.cons_append]
    unfold scanLines
    rw [if_neg hb]
    apply ih
    · intro b' hb'
      exact hno b' (List.mem_cons_of_mem _ hb')
    · simp only [List.length_append, List.length_singleton, List.length_cons] at h ⊢
      omega

theorem utf8_append (x y : List Char) : utf8 (x ++ y) = utf8 x ++ utf8 y := by
  simp [utf8]

theorem utf8_escaped_replicate (n : Nat) :
    utf8 ((List.replicate n 'a').flatMap appendChar) = List.replicate n 97 := by
  induction n with
  | zero => rfl
  | succ k ih =>
    rw [List.replicate_succ, List.flatMap_cons, utf8_append, ih, List.replicate_succ]
    rfl

theorem utf8ByteSize_replicate (n : Nat) :
    (String.mk (List.replicate n 'a')).utf8ByteSize = n := by
  show String.utf8ByteSize.go (List.replicate n 'a') = n
  induction n with
  | zero => rfl
  | succ k ih =>
    rw [List.replicate_succ]
    show String.utf8ByteSize.go (List.replicate k 'a') + 'a'.utf8Size = k + 1
    rw [ih]
    rfl

theorem payloadOfSize_size (n : Nat) : (payloadOfSize n).utf8ByteSize = n :=
  utf8ByteSize_replicate n

theorem payloadOfSize_ne_empty (n : Nat) (h : 0 < n) : payloadOfSize n ≠ "" := by
  intro e
  have hs := payloadOfSize_size n
  rw [e] at hs
  have h0 : "".utf8ByteSize = 0 := by decide
  omega

theorem marshal_enqueue_split (lib : JSONLib) (taskID payload : String) (ts : Time)
    (h : payload ≠ "") :
    ∃ tail, marshal lib { Type_ := EnqueueRecord, TaskID := taskID, Payload := payload, Timestamp := ts } ++ [10] =
      (enqueueHead taskID ++ utf8 (payload.data.flatMap appendChar)) ++ tail := by
  refine ⟨utf8 ([dquote] ++ [','] ++ jsonKey "deadline" ++ lib.timeJSON zeroTime
    ++ [','] ++ jsonKey "timestamp" ++ lib.timeJSON ts ++ [Char.ofNat 125]) ++ [10], ?_⟩
  simp only [marshal, enqueueHead, jsonString, if_neg h, utf8_append, List.append_assoc,
    if_true, List.append_nil]

end TaskQueue

namespace TaskQueue

theorem enqueueHead_no_newline : ∀ b ∈ enqueueHead "t", b ≠ 10 := by
  decide

theorem writeAll_single (lib : JSONLib) (w : WAL) (r : Record) :
    (writeAll lib w [r]).file = w.file ++ (marshal lib r ++ [10]) := by
  simp [writeAll, WriteRecord, allOk]

theorem Enqueue_payloadOfSize (n : Nat) (hn : (n : Int) ≤ mainConfig.MaxPayloadBytes)
    (ts : Time) :
    Enqueue mainConfig NewManager "t" (payloadOfSize n) ts true =
      ({ NewManager with
         wal := NewManager.wal ++ [{ Type_ := EnqueueRecord, TaskID := "t", Payload := payloadOfSize n, Timestamp := ts }],
         tasks := NewManager.tasks.insert "t" { ID := "t", Payload := payloadOfSize n, State := .Pending, Attempts := 0 },
         pending := NewManager.pending ++ ["t"] }, none) := by
  apply Enqueue_new
  · rw [payloadOfSize_size]
    exact hn
  · decide
  · rfl
  · decide

theorem replay_long_line (lib : JSONLib) (ts : Time) (target : Manager) (n : Nat)
    (hn : n ≥ MaxScanTokenSize) :
    Replay lib (.opened (writeAll lib emptyWAL
      [{ Type_ := EnqueueRecord, TaskID := "t", Payload := payloadOfSize n, Timestamp := ts }]).file)
      target = (target, some .readFailed) := by
  have hpos : 0 < n := by
    simp only [MaxScanTokenSize] at hn
    omega
  obtain ⟨tail, ht⟩ := marshal_enqueue_split lib "t" (payloadOfSize n) ts
    (payloadOfSize_ne_empty n hpos)
  have hseg : utf8 ((payloadOfSize n).data.flatMap appendChar) = List.replicate n 97 :=
    utf8_escaped_replicate n
  have hscan : scanLines [] ((enqueueHead "t" ++ utf8 ((payloadOfSize n).data.flatMap appendChar)) ++ tail) =
      ([], true) := by
    apply scanLines_long_line
    · intro b hb
      rcases List.mem_append.mp hb with h | h
      · exact enqueueHead_no_newline b h
      · rw [hseg] at h
        rw [(List.mem_replicate.mp h).2]
        decide
    · rw [hseg]
      simp only [List.length_append, List.length_replicate, List.length_nil]
      omega
  unfold Replay
  simp only
  rw [writeAll_single, ht]
  show replayLoop lib (scanLines [] ((enqueueHead "t" ++ utf8 ((payloadOfSize n).data.flatMap appendChar)) ++ tail)).2 0 target
    (scanLines [] ((enqueueHead "t" ++ utf8 ((payloadOfSize n).data.flatMap appendChar)) ++ tail)).1 = _
  rw [hscan]
  rfl

/-- C10, the failing input evaluated. Under the configuration of `main`, the call
`Enqueue("t", p)` with a payload `p` of exactly 65536 bytes is accepted and appends
one ENQUEUE record; the file `WriteRecord` produces for it starts with a line longer
than the 65536 bytes a default `bufio.Scanner` holds, so `Replay` of that file
returns the read error, whatever `json.Unmarshal` and the time format do. -/
theorem replay_fails_on_accepted_payload (lib : JSONLib) (ts : Time) :
    payload64K.utf8ByteSize = 65536 ∧
    (Enqueue mainConfig NewManager "t" payload64K ts true).2 = none ∧
    (Enqueue mainConfig NewManager "t" payload64K ts true).1.wal =
      [{ Type_ := EnqueueRecord, TaskID := "t", Payload := payload64K, Timestamp := ts }] ∧
    Replay lib (.opened (writeAll lib emptyWAL
      (Enqueue mainConfig NewManager "t" payload64K ts true).1.wal).file) NewManager =
      (NewManager, some .readFailed) := by
  unfold payload64K
  rw [Enqueue_payloadOfSize 65536 (by decide)]
  exact ⟨payloadOfSize_size 65536, rfl, rfl,
    replay_long_line lib ts NewManager 65536 (by decide)⟩

end TaskQueue

namespace TaskQueue

/-! ## Enqueue: capacity and payload size -/

/-- C11. Enqueue capacity limit: for every manager state, every non-empty task id not
present in `tasks` and every payload within `MaxPayloadBytes`, `Enqueue` returns the
capacity error if and only if the number of stored tasks is at least
`MaxTasksInMemory` (below capacity a call whose WAL append succeeds returns `nil`);
on that error the state is the state before the call, so no WAL record is appended
and `tasks`, `pending` and `inFlight` are unchanged; and when the call has inserted
the task, the number of stored tasks is at most `MaxTasksInMemory`. -/
theorem enqueue_capacity (cfg : Config) (m : Manager) (taskID payload : String) (ts : Time)
    (walOk : Bool) (hid : taskID ≠ "") (hnew : taskID ∉ m.tasks)
    (hlen : (payload.utf8ByteSize : Int) ≤ cfg.MaxPayloadBytes) :
    ((Enqueue cfg m taskID payload ts walOk).2 = some .capacityReached ↔
      (m.tasks.keys.card : Int) ≥ cfg.MaxTasksInMemory) ∧
    ((m.tasks.keys.card : Int) ≥ cfg.MaxTasksInMemory →
      Enqueue cfg m taskID payload ts walOk = (m, some .capacityReached)) ∧
    ((m.tasks.keys.card : Int) < cfg.MaxTasksInMemory →
      (Enqueue cfg m taskID payload ts true).2 = none) ∧
    (taskID ∈ (Enqueue cfg m taskID payload ts walOk).1.tasks →
      ((Enqueue cfg m taskID payload ts walOk).1.tasks.keys.card : Int) ≤
        cfg.MaxTasksInMemory) := by
  have hnone : m.tasks.lookup taskID = none := Finmap.lookup_eq_none.mpr hnew
  have hsome : ¬ (m.tasks.lookup taskID).isSome = true := by simp [hnone]
  by_cases hcap : (m.tasks.keys.card : Int) ≥ cfg.MaxTasksInMemory
  · have he : Enqueue cfg m taskID payload ts walOk = (m, some .capacityReached) := by
      unfold Enqueue
      rw [if_neg (not_lt.mpr hlen), if_neg hid, if_neg hsome, if_pos hcap]
    refine ⟨⟨fun _ => hcap, fun _ => by rw [he]⟩, fun _ => he, fun h => absurd hcap (not_le.mpr h),
      ?_⟩
    rw [he]
    intro h
    exact absurd h hnew
  · have hlt : (m.tasks.keys.card : Int) < cfg.MaxTasksInMemory := not_le.mp hcap
    refine ⟨⟨?_, fun h => absurd h hcap⟩, fun h => absurd h hcap, fun _ => ?_, ?_⟩
    · intro h
      cases walOk with
      | true =>
        rw [Enqueue_new cfg m taskID payload ts hlen hid hnone hlt] at h
        cases h
      | false =>
        have : Enqueue cfg m taskID payload ts false = (m, some .walWriteFailed) := by
          unfold Enqueue
          rw [if_neg (not_lt.mpr hlen), if_neg hid, if_neg hsome, if_neg hcap]
          rfl
        rw [this] at h
        cases h
    · rw [Enqueue_new cfg m taskID payload ts hlen hid hnone hlt]
    · cases walOk with
      | true =>
        rw [Enqueue_new cfg m taskID payload ts hlen hid hnone hlt]
        intro _
        simp only [keys_insert_new m.tasks taskID _ hnone, Nat.cast_add, Nat.cast_one]
        omega
      | false =>
        have : Enqueue cfg m taskID payload ts false = (m, some .walWriteFailed) := by
          unfold Enqueue
          rw [if_neg (not_lt.mpr hlen), if_neg hid, if_neg hsome, if_neg hcap]
          rfl
        rw [this]
        intro h
        exact absurd h hnew

/-- Witness of C11: with room for one task and `t1` stored, `Enqueue("t2", "p")` is
rejected with the capacity error and nothing changes. -/
theorem enqueue_capacity_witness :
    "t2" ≠ "" ∧ "t2" ∉ afterT1.tasks ∧
    (("p".utf8ByteSize : Int) ≤ capOneConfig.MaxPayloadBytes) ∧
    ((afterT1.tasks.keys.card : Int) ≥ capOneConfig.MaxTasksInMemory) ∧
    Enqueue capOneConfig afterT1 "t2" "p" 0 true = (afterT1, some .capacityReached) :=
  ⟨by decide, by decide, by decide, by decide,
    (enqueue_capacity capOneConfig afterT1 "t2" "p" 0 true (by decide) (by decide)
      (by decide)).2.1 (by decide)⟩

end TaskQueue

namespace TaskQueue

theorem bounded_of_payloadOf (cfg : Config) (m m' : Manager) (h : PayloadsBounded cfg m)
    (hp : ∀ id, payloadOf m' id = payloadOf m id) : PayloadsBounded cfg m' := by
  intro id t ht
  have h1 : payloadOf m' id = some t.Payload := by simp [payloadOf, ht]
  rw [hp id] at h1
  unfold payloadOf at h1
  cases hl : m.tasks.lookup id with
  | none => simp [hl] at h1
  | some t0 =>
    have e : t0.Payload = t.Payload := by simpa [hl] using h1
    rw [← e]
    exact h id t0 hl

theorem bounded_Enqueue (cfg : Config) (m : Manager) (taskID payload : String) (ts : Time)
    (walOk : Bool) (h : PayloadsBounded cfg m) :
    PayloadsBounded cfg (Enqueue cfg m taskID payload ts walOk).1 := by
  unfold Enqueue
  split_ifs with c1 c2 c3 c4 c5
  all_goals try exact h
  intro id t ht
  simp only at ht
  by_cases e : id = taskID
  · subst e
    rw [Finmap.lookup_insert] at ht
    cases ht
    exact not_lt.mp c1
  · rw [lookup_insert_ne _ _ e] at ht
    exact h id t ht

theorem bounded_step (cfg : Config) (m : Manager) (c : Call) (h : PayloadsBounded cfg m) :
    PayloadsBounded cfg (step cfg m c) := by
  cases c with
  | enqueue taskID payload ts walOk => exact bounded_Enqueue cfg m taskID payload ts walOk h
  | poll workerID now ts walOk =>
    exact bounded_of_payloadOf cfg m _ h (payloadOf_Poll cfg m workerID now ts walOk)
  | ack taskID workerID ts walOk =>
    exact bounded_of_payloadOf cfg m _ h (payloadOf_Ack m taskID workerID ts walOk)
  | scan now candidates walOk =>
    exact bounded_of_payloadOf cfg m _ h
      (fun id => payloadOf_ScanVisibility now walOk id candidates m)

theorem bounded_run (cfg : Config) :
    ∀ (calls : List Call) (m : Manager), PayloadsBounded cfg m →
      PayloadsBounded cfg (run cfg m calls) := by
  intro calls
  induction calls with
  | nil =>
    intro m h
    exact h
  | cons c cs ih =>
    intro m h
    exact ih (step cfg m c) (bounded_step cfg m c h)

theorem bounded_NewManager (cfg : Config) : PayloadsBounded cfg NewManager := by
  intro id t h
  simp [NewManager] at h

/-- C12. Payload size boundary: for every manager state below capacity and every
non-empty task id not present in `tasks`, with the WAL append succeeding, `Enqueue`
returns `nil` if and only if the byte length of the payload is at most
`MaxPayloadBytes`; a longer payload is rejected as invalid input whatever the WAL
would do, and the state after the rejected call is the state before it; and in every
state reached from the empty manager by Enqueue, Poll, Ack and ScanVisibility calls
every stored payload is at most `MaxPayloadBytes` long. -/
theorem payload_boundary (cfg : Config) (m : Manager) (taskID payload : String) (ts : Time)
    (calls : List Call) (hid : taskID ≠ "") (hnew : taskID ∉ m.tasks)
    (hcap : (m.tasks.keys.card : Int) < cfg.MaxTasksInMemory) :
    ((Enqueue cfg m taskID payload ts true).2 = none ↔
      (payload.utf8ByteSize : Int) ≤ cfg.MaxPayloadBytes) ∧
    (∀ walOk, (payload.utf8ByteSize : Int) > cfg.MaxPayloadBytes →
      Enqueue cfg m taskID payload ts walOk = (m, some .payloadTooLarge)) ∧
    (∀ id t, (run cfg NewManager calls).tasks.lookup id = some t →
      (t.Payload.utf8ByteSize : Int) ≤ cfg.MaxPayloadBytes) := by
  have hrej : ∀ walOk, (payload.utf8ByteSize : Int) > cfg.MaxPayloadBytes →
      Enqueue cfg m taskID payload ts walOk = (m, some .payloadTooLarge) := by
    intro walOk h
    unfold Enqueue
    rw [if_pos h]
  refine ⟨⟨?_, ?_⟩, hrej, bounded_run cfg calls NewManager (bounded_NewManager cfg)⟩
  · intro h
    by_contra hgt
    rw [hrej true (not_le.mp hgt)] at h
    cases h
  · intro h
    rw [Enqueue_new cfg m taskID payload ts h hid (Finmap.lookup_eq_none.mpr hnew) hcap]

/-- Witness of C12 at the boundary of the idempotency test (limit 100): a payload of
exactly 100 bytes is accepted, one of 101 bytes is rejected and changes nothing. -/
theorem payload_boundary_witness :
    "t" ≠ "" ∧ "t" ∉ NewManager.tasks ∧
    ((NewManager.tasks.keys.card : Int) < idemConfig.MaxTasksInMemory) ∧
    (payloadOfSize 100).utf8ByteSize = 100 ∧ (payloadOfSize 101).utf8ByteSize = 101 ∧
    (Enqueue idemConfig NewManager "t" (payloadOfSize 100) 0 true).2 = none ∧
    Enqueue idemConfig NewManager "t" (payloadOfSize 101) 0 true =
      (NewManager, some .payloadTooLarge) :=
  ⟨by decide, by decide, by decide, payloadOfSize_size 100, payloadOfSize_size 101,
    (payload_boundary idemConfig NewManager "t" (payloadOfSize 100) 0 dupCalls (by decide)
      (by decide) (by decide)).1.mpr (by rw [payloadOfSize_size]; decide),
    (payload_boundary idemConfig NewManager "t" (payloadOfSize 101) 0 dupCalls (by decide)
      (by decide) (by decide)).2.1 true (by rw [payloadOfSize_size]; decide)⟩

/-! ## Ack twice -/

/-- C13. Ack is idempotent: in every state in which the task is `InFlight` and
`inFlight[taskID]` is the worker, the first `Ack(taskID, w)` with a succeeding WAL
append returns `nil`, appends exactly one ACK record, sets the state to `Done`,
removes the `inFlight` entry and leaves every other field of the task (payload,
attempts) and `pending` as they were; a second `Ack(taskID, w)` returns `nil` and
leaves the whole state, WAL included, as the first one left it, whatever the WAL
would do. -/
theorem ack_idempotent (m : Manager) (taskID workerID : String) (ts ts2 : Time)
    (walOk2 : Bool) (t : Task) (hl : m.tasks.lookup taskID = some t)
    (hs : t.State = .InFlight) (hw : m.inFlight.lookup taskID = some workerID) :
    Ack m taskID workerID ts true =
      ({ m with
         wal := m.wal ++ [{ Type_ := AckRecord, TaskID := taskID, WorkerID := workerID, Timestamp := ts }],
         tasks := m.tasks.insert taskID { t with State := .Done },
         inFlight := m.inFlight.erase taskID }, none) ∧
    Ack (Ack m taskID workerID ts true).1 taskID workerID ts2 walOk2 =
      ((Ack m taskID workerID ts true).1, none) := by
  have h1 : Ack m taskID workerID ts true =
      ({ m with
         wal := m.wal ++ [{ Type_ := AckRecord, TaskID := taskID, WorkerID := workerID, Timestamp := ts }],
         tasks := m.tasks.insert taskID { t with State := .Done },
         inFlight := m.inFlight.erase taskID }, none) := by
    simp [Ack, hl, hs, inFlightAt, hw]
  refine ⟨h1, ?_⟩
  rw [h1]
  simp [Ack, Finmap.lookup_insert]

/-- Witness of C13, scenario 1: `t1` is leased to `w1` and acknowledged twice. -/
theorem ack_idempotent_witness :
    leasedT1.inFlight.lookup "t1" = some "w1" ∧
    (Ack leasedT1 "t1" "w1" 0 true).2 = none ∧
    (Ack leasedT1 "t1" "w1" 0 true).1.wal.length = leasedT1.wal.length + 1 ∧
    Ack (Ack leasedT1 "t1" "w1" 0 true).1 "t1" "w1" 1 false =
      ((Ack leasedT1 "t1" "w1" 0 true).1, none) :=
  ⟨by decide, by decide, by decide,
    (ack_idempotent leasedT1 "t1" "w1" 0 1 false
      { ID := "t1", Payload := "p", State := .InFlight, VisibilityDeadline := 10000000000, Attempts := 0 }
      (by decide) rfl (by decide)).2⟩

end TaskQueue

namespace TaskQueue

/-! ## Order of reclamation within one scan -/

theorem twoLeased_inFlight :
    twoLeased.inFlight = Finmap.insert "b" "w" (Finmap.insert "a" "w" ∅) := by
  decide

theorem twoLeased_range_ab : IsRangeOf ["a", "b"] twoLeased.inFlight := by
  refine ⟨by decide, ?_⟩
  intro id
  rw [twoLeased_inFlight]
  simp [Finmap.mem_insert, Finmap.not_mem_empty, or_comm]

theorem twoLeased_range_ba : IsRangeOf ["b", "a"] twoLeased.inFlight := by
  refine ⟨by decide, ?_⟩
  intro id
  rw [twoLeased_inFlight]
  simp [Finmap.mem_insert, Finmap.not_mem_empty]

/-- C14, counterexample. Tasks `a` and `b` are leased at time 0 for ten seconds and
both are expired at eleven seconds (nothing is pending, four records are in the
WAL). If the range over `inFlight` yields `a, b` the scan leaves `pending = a, b`
and appends TIMEOUT `a`, TIMEOUT `b`; if it yields `b, a`, the scan of the same
state at the same time leaves `pending = b, a` and appends TIMEOUT `b`, TIMEOUT `a`. -/
theorem scan_order_follows_iteration :
    IsRangeOf ["a", "b"] twoLeased.inFlight ∧ IsRangeOf ["b", "a"] twoLeased.inFlight ∧
    (ScanVisibility twoLeased 11000000000 ["a", "b"] (fun _ => true)).pending = ["a", "b"] ∧
    (ScanVisibility twoLeased 11000000000 ["b", "a"] (fun _ => true)).pending = ["b", "a"] ∧
    (ScanVisibility twoLeased 11000000000 ["a", "b"] (fun _ => true)).wal.drop 4 =
      [timeoutRecord 11000000000 "a", timeoutRecord 11000000000 "b"] ∧
    (ScanVisibility twoLeased 11000000000 ["b", "a"] (fun _ => true)).wal.drop 4 =
      [timeoutRecord 11000000000 "b", timeoutRecord 11000000000 "a"] :=
  ⟨twoLeased_range_ab, twoLeased_range_ba, by decide, by decide, by decide, by decide⟩

/-- C14, amended. For every manager state and clock reading, two scans that range
over `inFlight` in two orders (every WAL append succeeding) reclaim the same tasks
and leave the same `tasks` and `inFlight` maps; each appends the reclaimed ids to
`pending` and their TIMEOUT records to the WAL in the order in which its own range
met them, so the two `pending` sequences and the two WAL suffixes hold the same
entries, possibly in a different order. -/
theorem scan_same_up_to_order (m : Manager) (now : Time) (c1 c2 : List String)
    (walOk : String → Bool) (h1 : IsRangeOf c1 m.inFlight) (h2 : IsRangeOf c2 m.inFlight)
    (hok : ∀ id, walOk id = true) :
    (ScanVisibility m now c1 walOk).tasks = (ScanVisibility m now c2 walOk).tasks ∧
    (ScanVisibility m now c1 walOk).inFlight = (ScanVisibility m now c2 walOk).inFlight ∧
    (ScanVisibility m now c1 walOk).pending = m.pending ++ c1.filter (expired m now) ∧
    (ScanVisibility m now c2 walOk).pending = m.pending ++ c2.filter (expired m now) ∧
    (ScanVisibility m now c1 walOk).wal =
      m.wal ++ (c1.filter (expired m now)).map
        (fun id => { Type_ := TimeoutRecord, TaskID := id, Timestamp := now }) ∧
    (ScanVisibility m now c2 walOk).wal =
      m.wal ++ (c2.filter (expired m now)).map
        (fun id => { Type_ := TimeoutRecord, TaskID := id, Timestamp := now }) ∧
    (c1.filter (expired m now)).Perm (c2.filter (expired m now)) := by
  obtain ⟨p1, w1, t1, f1⟩ := scan_fold now walOk hok c1 m h1.1
  obtain ⟨p2, w2, t2, f2⟩ := scan_fold now walOk hok c2 m h2.1
  have hperm : c1.Perm c2 :=
    (List.perm_ext_iff_of_nodup h1.1 h2.1).mpr (fun id => (h1.2 id).trans (h2.2 id).symm)
  have hfp : (reclaimed m now c1).Perm (reclaimed m now c2) := hperm.filter _
  have hmem : ∀ id, id ∈ reclaimed m now c1 ↔ id ∈ reclaimed m now c2 := fun id => hfp.mem_iff
  refine ⟨?_, ?_, p1, p2, w1, w2, hfp⟩
  · apply Finmap.ext_lookup
    intro id
    rw [t1 id, t2 id]
    by_cases h : id ∈ reclaimed m now c1
    · rw [if_pos h, if_pos ((hmem id).mp h)]
    · rw [if_neg h, if_neg (fun h' => h ((hmem id).mpr h'))]
  · apply Finmap.ext_lookup
    intro id
    rw [f1 id, f2 id]
    by_cases h : id ∈ reclaimed m now c1
    · rw [if_pos h, if_pos ((hmem id).mp h)]
    · rw [if_neg h, if_neg (fun h' => h ((hmem id).mpr h'))]

/-- Witness of C14 on the state of the counterexample. -/
theorem scan_same_up_to_order_witness :
    IsRangeOf ["a", "b"] twoLeased.inFlight ∧ IsRangeOf ["b", "a"] twoLeased.inFlight ∧
    (ScanVisibility twoLeased 11000000000 ["a", "b"] (fun _ => true)).tasks =
      (ScanVisibility twoLeased 11000000000 ["b", "a"] (fun _ => true)).tasks ∧
    (ScanVisibility twoLeased 11000000000 ["a", "b"] (fun _ => true)).inFlight =
      (ScanVisibility twoLeased 11000000000 ["b", "a"] (fun _ => true)).inFlight :=
  ⟨twoLeased_range_ab, twoLeased_range_ba,
    (scan_same_up_to_order twoLeased 11000000000 ["a", "b"] ["b", "a"] (fun _ => true)
      twoLeased_range_ab twoLeased_range_ba (fun _ => rfl)).1,
    (scan_same_up_to_order twoLeased 11000000000 ["a", "b"] ["b", "a"] (fun _ => true)
      twoLeased_range_ab twoLeased_range_ba (fun _ => rfl)).2.1⟩

end TaskQueue

namespace TaskQueue

/-! ## Poll with nothing to deliver -/

theorem pollLoop_nothing (cfg : Config) (m : Manager) (workerID : String) (now ts : Time)
    (walOk : Bool) :
    ∀ L : List String, (∀ id ∈ L, deliverable m id = false) →
      pollLoop cfg m workerID now ts walOk L = ({ m with pending := [] }, .ok none) := by
  intro L
  induction L with
  | nil =>
    intro _
    rfl
  | cons x rest ih =>
    intro h
    have hx := h x (List.mem_cons_self _ _)
    have hrest := ih (fun id hid => h id (List.mem_cons_of_mem _ hid))
    unfold pollLoop
    cases hl : m.tasks.lookup x with
    | none => exact hrest
    | some task =>
      have hs : task.State ≠ .Pending := by
        intro e
        simp [deliverable, hl, e] at hx
      simp only [ne_eq, hs, not_false_eq_true, if_true]
      exact hrest

/-- C18. Poll returns empty, not an error, when nothing is deliverable: for every
non-empty worker id and every manager state in which `pending` is empty or holds no
id of a task in state `Pending`, `Poll` returns no task and no error, whatever the
WAL would do; no WAL record is appended and `tasks` and `inFlight` are what they
were (`pending` is left empty). -/
theorem poll_empty (cfg : Config) (m : Manager) (workerID : String) (now ts : Time)
    (walOk : Bool) (hw : workerID ≠ "")
    (hnone : ∀ id ∈ m.pending, deliverable m id = false) :
    (Poll cfg m workerID now ts walOk).2 = .ok none ∧
    (Poll cfg m workerID now ts walOk).1.wal = m.wal ∧
    (Poll cfg m workerID now ts walOk).1.tasks = m.tasks ∧
    (Poll cfg m workerID now ts walOk).1.inFlight = m.inFlight ∧
    (Poll cfg m workerID now ts walOk).1.pending = [] := by
  have h : Poll cfg m workerID now ts walOk = ({ m with pending := [] }, .ok none) := by
    unfold Poll
    rw [if_neg hw]
    exact pollLoop_nothing cfg m workerID now ts walOk m.pending hnone
  rw [h]
  exact ⟨rfl, rfl, rfl, rfl, rfl⟩

/-- Witness of C18: with `t1` leased and nothing pending, and with only the id of a
`Done` task in `pending`, `Poll` returns no task and no error. -/
theorem poll_empty_witness :
    "w2" ≠ "" ∧ leasedT1.pending = [] ∧ staleOnly.pending = ["s"] ∧
    deliverable staleOnly "s" = false ∧
    (Poll testConfig leasedT1 "w2" 5 5 true).2 = .ok none ∧
    (Poll testConfig staleOnly "w2" 5 5 true).2 = .ok none ∧
    (Poll testConfig staleOnly "w2" 5 5 true).1.tasks = staleOnly.tasks :=
  ⟨by decide, by decide, by decide, by decide,
    (poll_empty testConfig leasedT1 "w2" 5 5 true (by decide) (by decide)).1,
    (poll_empty testConfig staleOnly "w2" 5 5 true (by decide) (by decide)).1,
    (poll_empty testConfig staleOnly "w2" 5 5 true (by decide) (by decide)).2.2.1⟩

/-! ## ReplayPoll -/

theorem removeFirst_eq_erase (taskID : String) (l : List String) :
    removeFirst taskID false l = l.erase taskID := by
  induction l with
  | nil => rfl
  | cons x xs ih =>
    by_cases e : x = taskID
    · subst e
      simp [removeFirst, removeFirst_true]
    · simp [removeFirst, e, ih, List.erase_cons]

/-- C20. ReplayPoll removes a single occurrence: for every manager state, when the
task id is present in `tasks`, after `ReplayPoll` the sequence `pending` is the old
one with only the first occurrence of the id erased (every other entry, later
duplicates included, kept in order), the task is `InFlight` with the given deadline
and its other fields (attempts, payload) unchanged, `inFlight[taskID]` is the worker
and nothing is written to the WAL; when the id is absent from `tasks` the state is
unchanged. -/
theorem replayPoll_single (m : Manager) (taskID workerID : String) (deadline : Time) :
    (∀ t, m.tasks.lookup taskID = some t →
      ReplayPoll m taskID workerID deadline =
        { m with
          pending := m.pending.erase taskID,
          tasks := m.tasks.insert taskID { t with State := .InFlight, VisibilityDeadline := deadline },
          inFlight := m.inFlight.insert taskID workerID }) ∧
    (m.tasks.lookup taskID = none → ReplayPoll m taskID workerID deadline = m) := by
  constructor
  · intro t ht
    simp [ReplayPoll, ht, removeFirst_eq_erase]
  · intro h
    simp [ReplayPoll, h]

/-- Witness of C20: with `pending = x, y, x`, `ReplayPoll("x")` leaves `y, x`, and
`ReplayPoll` of an unknown id changes nothing. -/
theorem replayPoll_single_witness :
    dupPending.pending = ["x", "y", "x"] ∧
    (ReplayPoll dupPending "x" "w" 7).pending = ["y", "x"] ∧
    (ReplayPoll dupPending "x" "w" 7).tasks.lookup "x" =
      some { ID := "x", Payload := "p", State := .InFlight, VisibilityDeadline := 7, Attempts := 2 } ∧
    (ReplayPoll dupPending "x" "w" 7).inFlight.lookup "x" = some "w" ∧
    ReplayPoll dupPending "nope" "w" 7 = dupPending := by
  have h := (replayPoll_single dupPending "x" "w" 7).1
    { ID := "x", Payload := "p", State := .Pending, Attempts := 2 } (by decide)
  refine ⟨rfl, ?_, ?_, ?_, (replayPoll_single dupPending "nope" "w" 7).2 (by decide)⟩
  · rw [h]
    decide
  · rw [h]
    exact Finmap.lookup_insert _
  · rw [h]
    exact Finmap.lookup_insert _

end TaskQueue

namespace TaskQueue

/-! ## Restoration hooks and the structural invariants -/

theorem inv_ReplayEnqueue (m : Manager) (taskID payload : String) (h : Inv m) :
    Inv (ReplayEnqueue m taskID payload) := by
  unfold ReplayEnqueue
  cases hl : m.tasks.lookup taskID with
  | some t => exact h
  | none =>
    simp only
    obtain ⟨h1, h2, _, h3, _⟩ := h
    have hnp : taskID ∉ m.pending := by
      intro hp
      obtain ⟨t, ht, _⟩ := h1 taskID hp
      rw [hl] at ht
      cases ht
    apply inv_of_core
    · intro id hid
      simp only [List.mem_append, List.mem_singleton] at hid
      by_cases e : id = taskID
      · subst e
        exact ⟨_, Finmap.lookup_insert _, rfl⟩
      · rcases hid with hid | hid
        · obtain ⟨t, ht, hs⟩ := h1 id hid
          exact ⟨t, by simpa [lookup_insert_ne _ _ e] using ht, hs⟩
        · exact absurd hid e
    · intro id hid
      obtain ⟨t, ht, hs⟩ := h2 id hid
      have e : id ≠ taskID := by
        rintro rfl
        rw [hl] at ht
        cases ht
      exact ⟨t, by simpa [lookup_insert_ne _ _ e] using ht, hs⟩
    · simp only
      exact List.Nodup.append h3 (List.nodup_singleton _) (by simpa using hnp)

theorem inv_ReplayPoll (m : Manager) (taskID workerID : String) (deadline : Time)
    (h : Inv m) : Inv (ReplayPoll m taskID workerID deadline) := by
  unfold ReplayPoll
  cases hl : m.tasks.lookup taskID with
  | none => exact h
  | some task =>
    simp only [removeFirst_eq_erase]
    obtain ⟨h1, h2, _, h3, _⟩ := h
    apply inv_of_core
    · intro id hid
      have hmem : id ≠ taskID ∧ id ∈ m.pending := (List.Nodup.mem_erase_iff h3).mp hid
      obtain ⟨t, ht, hs⟩ := h1 id hmem.2
      exact ⟨t, by simpa [lookup_insert_ne _ _ hmem.1] using ht, hs⟩
    · intro id hid
      by_cases e : id = taskID
      · subst e
        exact ⟨_, Finmap.lookup_insert _, rfl⟩
      · have hid' : id ∈ m.inFlight := by
          rcases Finmap.mem_insert.mp hid with h | h
          · exact absurd h e
          · exact h
        obtain ⟨t, ht, hs⟩ := h2 id hid'
        exact ⟨t, by simpa [lookup_insert_ne _ _ e] using ht, hs⟩
    · exact List.Nodup.erase _ h3

theorem inv_ReplayAck (m : Manager) (taskID workerID : String) (hnp : taskID ∉ m.pending)
    (h : Inv m) : Inv (ReplayAck m taskID workerID) := by
  unfold ReplayAck
  cases hl : m.tasks.lookup taskID with
  | none => exact h
  | some task =>
    simp only
    obtain ⟨h1, h2, _, h3, _⟩ := h
    apply inv_of_core
    · intro id hid
      have e : id ≠ taskID := by
        rintro rfl
        exact hnp hid
      obtain ⟨t, ht, hs⟩ := h1 id hid
      exact ⟨t, by simpa [lookup_insert_ne _ _ e] using ht, hs⟩
    · intro id hid
      obtain ⟨e, hid'⟩ := Finmap.mem_erase.mp hid
      obtain ⟨t, ht, hs⟩ := h2 id hid'
      exact ⟨t, by simpa [lookup_insert_ne _ _ e] using ht, hs⟩
    · exact h3

theorem inv_ReplayTimeout (m : Manager) (taskID : String) (now : Time) (h : Inv m) :
    Inv (ReplayTimeout m taskID now) := by
  unfold ReplayTimeout
  cases hl : m.tasks.lookup taskID with
  | none => exact h
  | some task =>
    simp only
    split_ifs with c
    · obtain ⟨h1, h2, _, h3, _⟩ := h
      have hnp : taskID ∉ m.pending := by
        intro hp
        obtain ⟨t, ht, hs⟩ := h1 taskID hp
        rw [hl] at ht
        cases ht
        rw [c] at hs
        cases hs
      apply inv_of_core
      · intro id hid
        simp only [List.mem_append, List.mem_singleton] at hid
        by_cases e : id = taskID
        · subst e
          exact ⟨_, Finmap.lookup_insert _, rfl⟩
        · rcases hid with hid | hid
          · obtain ⟨t, ht, hs⟩ := h1 id hid
            exact ⟨t, by simpa [lookup_insert_ne _ _ e] using ht, hs⟩
          · exact absurd hid e
      · intro id hid
        obtain ⟨e, hid'⟩ := Finmap.mem_erase.mp hid
        obtain ⟨t, ht, hs⟩ := h2 id hid'
        exact ⟨t, by simpa [lookup_insert_ne _ _ e] using ht, hs⟩
      · simp only
        exact List.Nodup.append h3 (List.nodup_singleton _) (by simpa using hnp)
    · exact h

theorem inv_leasedT1 : Inv leasedT1 :=
  inv_Poll testConfig _ "w1" 0 0 true
    (inv_Enqueue testConfig NewManager "t1" "p" 0 true inv_NewManager)

end TaskQueue

namespace TaskQueue

/-! ## Done is terminal -/

theorem count_append_other (l : List String) (id x : String) (h : x ≠ id) :
    (l ++ [x]).count id = l.count id := by
  simp [List.count_append, List.count_cons, h]

theorem done_Enqueue (cfg : Config) (m : Manager) (taskID payload : String) (ts : Time)
    (walOk : Bool) (id : String) (t : Task) (hl : m.tasks.lookup id = some t)
    (hnf : id ∉ m.inFlight) :
    (Enqueue cfg m taskID payload ts walOk).1.tasks.lookup id = some t ∧
    id ∉ (Enqueue cfg m taskID payload ts walOk).1.inFlight ∧
    (Enqueue cfg m taskID payload ts walOk).1.pending.count id ≤ m.pending.count id := by
  unfold Enqueue
  split_ifs with c1 c2 c3 c4 c5
  all_goals try exact ⟨hl, hnf, le_refl _⟩
  have e : taskID ≠ id := by
    rintro rfl
    simp [hl] at c3
  refine ⟨?_, hnf, ?_⟩
  · simpa [lookup_insert_ne _ _ (Ne.symm e)] using hl
  · simp only
    rw [count_append_other _ _ _ e]

theorem done_pollLoop (cfg : Config) (m : Manager) (workerID : String) (now ts : Time)
    (walOk : Bool) (id : String) (t : Task) (hl : m.tasks.lookup id = some t)
    (hd : t.State = .Done) (hnf : id ∉ m.inFlight) :
    ∀ L : List String,
      (pollLoop cfg m workerID now ts walOk L).1.tasks.lookup id = some t ∧
      id ∉ (pollLoop cfg m workerID now ts walOk L).1.inFlight ∧
      (pollLoop cfg m workerID now ts walOk L).1.pending.count id ≤ L.count id := by
  intro L
  induction L with
  | nil => exact ⟨hl, hnf, le_refl _⟩
  | cons x rest ih =>
    have hle : rest.count id ≤ (x :: rest).count id := by
      rw [List.count_cons]
      omega
    unfold pollLoop
    cases hx : m.tasks.lookup x with
    | none => exact ⟨ih.1, ih.2.1, le_trans ih.2.2 hle⟩
    | some task =>
      simp only
      split_ifs with c1 c2
      · exact ⟨ih.1, ih.2.1, le_trans ih.2.2 hle⟩
      · exact ⟨hl, hnf, le_refl _⟩
      · have e : id ≠ x := by
          rintro rfl
          rw [hl] at hx
          cases hx
          apply c1
          rw [hd]
          exact TaskState.noConfusion
        refine ⟨?_, ?_, hle⟩
        · simpa [lookup_insert_ne _ _ e] using hl
        · intro hin
          rcases Finmap.mem_insert.mp hin with h | h
          · exact e h
          · exact hnf h

theorem done_Ack (m : Manager) (taskID workerID : String) (ts : Time) (walOk : Bool)
    (id : String) (t : Task) (hl : m.tasks.lookup id = some t) (hd : t.State = .Done)
    (hnf : id ∉ m.inFlight) :
    (Ack m taskID workerID ts walOk).1.tasks.lookup id = some t ∧
    id ∉ (Ack m taskID workerID ts walOk).1.inFlight ∧
    (Ack m taskID workerID ts walOk).1.pending = m.pending := by
  unfold Ack
  cases hx : m.tasks.lookup taskID with
  | none => exact ⟨hl, hnf, rfl⟩
  | some task =>
    simp only
    split_ifs with c1 c2 c3 c4
    all_goals try exact ⟨hl, hnf, rfl⟩
    have e : id ≠ taskID := by
      rintro rfl
      rw [hl] at hx
      cases hx
      exact c1 hd
    refine ⟨?_, ?_, rfl⟩
    · simpa [lookup_insert_ne _ _ e] using hl
    · intro hin
      exact hnf (Finmap.mem_erase.mp hin).2

theorem done_scanOne (now : Time) (walOk : String → Bool) (m : Manager) (c id : String)
    (t : Task) (hl : m.tasks.lookup id = some t) (hnf : id ∉ m.inFlight) (hc : c ≠ id) :
    (scanOne now walOk m c).tasks.lookup id = some t ∧
    id ∉ (scanOne now walOk m c).inFlight ∧
    (scanOne now walOk m c).pending.count id = m.pending.count id := by
  unfold scanOne
  cases hx : m.tasks.lookup c with
  | none => exact ⟨hl, hnf, rfl⟩
  | some task =>
    simp only
    split_ifs with c1 c2
    all_goals try exact ⟨hl, hnf, rfl⟩
    refine ⟨?_, ?_, ?_⟩
    · simpa [lookup_insert_ne _ _ (Ne.symm hc)] using hl
    · intro hin
      exact hnf (Finmap.mem_erase.mp hin).2
    · simp only
      exact count_append_other _ _ _ hc

theorem done_ScanVisibility (now : Time) (walOk : String → Bool) (id : String) (t : Task) :
    ∀ (candidates : List String) (m : Manager), m.tasks.lookup id = some t →
      id ∉ m.inFlight → id ∉ candidates →
      (ScanVisibility m now candidates walOk).tasks.lookup id = some t ∧
      id ∉ (ScanVisibility m now candidates walOk).inFlight ∧
      (ScanVisibility m now candidates walOk).pending.count id = m.pending.count id := by
  intro candidates
  induction candidates with
  | nil =>
    intro m hl hnf _
    exact ⟨hl, hnf, rfl⟩
  | cons c cs ih =>
    intro m hl hnf hnc
    have hc : c ≠ id := fun e => hnc (e ▸ List.mem_cons_self _ _)
    obtain ⟨a1, a2, a3⟩ := done_scanOne now walOk m c id t hl hnf hc
    obtain ⟨b1, b2, b3⟩ := ih (scanOne now walOk m c) a1 a2
      (fun h => hnc (List.mem_cons_of_mem _ h))
    exact ⟨b1, b2, b3.trans a3⟩

theorem done_step (cfg : Config) (m : Manager) (c : Call) (id : String) (t : Task)
    (hl : m.tasks.lookup id = some t) (hd : t.State = .Done) (hnf : id ∉ m.inFlight)
    (ha : c.Admissible m) :
    (step cfg m c).tasks.lookup id = some t ∧ id ∉ (step cfg m c).inFlight ∧
    (step cfg m c).pending.count id ≤ m.pending.count id := by
  cases c with
  | enqueue taskID payload ts walOk => exact done_Enqueue cfg m taskID payload ts walOk id t hl hnf
  | poll workerID now ts walOk =>
    show (Poll cfg m workerID now ts walOk).1.tasks.lookup id = some t ∧
      id ∉ (Poll cfg m workerID now ts walOk).1.inFlight ∧
      (Poll cfg m workerID now ts walOk).1.pending.count id ≤ m.pending.count id
    unfold Poll
    split_ifs with c
    · exact ⟨hl, hnf, le_refl _⟩
    · exact done_pollLoop cfg m workerID now ts walOk id t hl hd hnf m.pending
  | ack taskID workerID ts walOk =>
    obtain ⟨a1, a2, a3⟩ := done_Ack m taskID workerID ts walOk id t hl hd hnf
    exact ⟨a1, a2, by rw [show (step cfg m (.ack taskID workerID ts walOk)).pending = m.pending from a3]⟩
  | scan now candidates walOk =>
    obtain ⟨a1, a2, a3⟩ := done_ScanVisibility now walOk id t candidates m hl hnf
      (fun h => hnf ((ha.2 id).mp h))
    exact ⟨a1, a2, le_of_eq a3⟩

theorem done_run (cfg : Config) (id : String) (t : Task) (hd : t.State = .Done) :
    ∀ (calls : List Call) (m : Manager), m.tasks.lookup id = some t → id ∉ m.inFlight →
      Admissible cfg m calls →
      (run cfg m calls).tasks.lookup id = some t ∧ id ∉ (run cfg m calls).inFlight ∧
      (run cfg m calls).pending.count id ≤ m.pending.count id := by
  intro calls
  induction calls with
  | nil =>
    intro m hl hnf _
    exact ⟨hl, hnf, le_refl _⟩
  | cons c cs ih =>
    intro m hl hnf ha
    obtain ⟨a1, a2, a3⟩ := done_step cfg m c id t hl hd hnf ha.1
    obtain ⟨b1, b2, b3⟩ := ih (step cfg m c) a1 a2 ha.2
    exact ⟨b1, b2, le_trans b3 a3⟩

end TaskQueue

namespace TaskQueue

theorem leased_of_same (m m' : Manager) (ht : m'.tasks = m.tasks)
    (hf : m'.inFlight = m.inFlight) (h : InFlightAreInFlight m) : InFlightAreInFlight m' := by
  intro id hid
  rw [hf] at hid
  rw [ht]
  exact h id hid

theorem leased_of_erase (m m' : Manager) (x : String) (t' : Task)
    (ht : m'.tasks = m.tasks.insert x t') (hf : m'.inFlight = m.inFlight.erase x)
    (h : InFlightAreInFlight m) : InFlightAreInFlight m' := by
  intro id hid
  rw [hf] at hid
  obtain ⟨e, hid'⟩ := Finmap.mem_erase.mp hid
  obtain ⟨t, hl, hs⟩ := h id hid'
  exact ⟨t, by rw [ht, lookup_insert_ne _ _ e]; exact hl, hs⟩

theorem leased_of_insert (m m' : Manager) (x w : String) (t' : Task)
    (ht : m'.tasks = m.tasks.insert x t') (hf : m'.inFlight = m.inFlight.insert x w)
    (hs' : t'.State = .InFlight) (h : InFlightAreInFlight m) : InFlightAreInFlight m' := by
  intro id hid
  rw [hf] at hid
  by_cases e : id = x
  · subst e
    exact ⟨t', by rw [ht]; exact Finmap.lookup_insert _, hs'⟩
  · have hid' : id ∈ m.inFlight := by
      rcases Finmap.mem_insert.mp hid with h1 | h1
      · exact absurd h1 e
      · exact h1
    obtain ⟨t, hl, hs⟩ := h id hid'
    exact ⟨t, by rw [ht, lookup_insert_ne _ _ e]; exact hl, hs⟩

theorem leased_of_new (m m' : Manager) (x : String) (t' : Task)
    (hx : m.tasks.lookup x = none) (ht : m'.tasks = m.tasks.insert x t')
    (hf : m'.inFlight = m.inFlight) (h : InFlightAreInFlight m) : InFlightAreInFlight m' := by
  intro id hid
  rw [hf] at hid
  obtain ⟨t, hl, hs⟩ := h id hid
  have e : id ≠ x := by
    rintro rfl
    rw [hx] at hl
    cases hl
  exact ⟨t, by rw [ht, lookup_insert_ne _ _ e]; exact hl, hs⟩

theorem leased_NewManager : InFlightAreInFlight NewManager := by
  intro id hid
  exact absurd hid (by simp [NewManager, Finmap.not_mem_empty])

theorem leased_Enqueue (cfg : Config) (m : Manager) (taskID payload : String) (ts : Time)
    (walOk : Bool) (h : InFlightAreInFlight m) :
    InFlightAreInFlight (Enqueue cfg m taskID payload ts walOk).1 := by
  rcases Enqueue_cases cfg m taskID payload ts walOk with ⟨e, he⟩ | ⟨_, he⟩ | ⟨hn, he⟩
  · rw [he]
    exact h
  · rw [he]
    exact h
  · rw [he]
    exact leased_of_new m _ taskID _ hn rfl rfl h

theorem leased_pollLoop (cfg : Config) (m : Manager) (workerID : String) (now ts : Time)
    (walOk : Bool) (h : InFlightAreInFlight m) :
    ∀ L : List String, InFlightAreInFlight (pollLoop cfg m workerID now ts walOk L).1 := by
  intro L
  induction L with
  | nil => exact leased_of_same m _ rfl rfl h
  | cons x rest ih =>
    unfold pollLoop
    cases hl : m.tasks.lookup x with
    | none => exact ih
    | some task =>
      simp only
      split_ifs with c1 c2
      · exact ih
      · exact leased_of_same m _ rfl rfl h
      · exact leased_of_insert m _ x workerID _ rfl rfl rfl h

theorem leased_Poll (cfg : Config) (m : Manager) (workerID : String) (now ts : Time)
    (walOk : Bool) (h : InFlightAreInFlight m) :
    InFlightAreInFlight (Poll cfg m workerID now ts walOk).1 := by
  unfold Poll
  split_ifs with c
  · exact h
  · exact leased_pollLoop cfg m workerID now ts walOk h m.pending

theorem leased_Ack (m : Manager) (taskID workerID : String) (ts : Time) (walOk : Bool)
    (h : InFlightAreInFlight m) : InFlightAreInFlight (Ack m taskID workerID ts walOk).1 := by
  unfold Ack
  cases hx : m.tasks.lookup taskID with
  | none => exact h
  | some task =>
    simp only
    split_ifs with c1 c2 c3 c4
    all_goals try exact h
    exact leased_of_erase m _ taskID _ rfl rfl h

theorem leased_scanOne (now : Time) (walOk : String → Bool) (m : Manager) (c : String)
    (h : InFlightAreInFlight m) : InFlightAreInFlight (scanOne now walOk m c) := by
  unfold scanOne
  cases hx : m.tasks.lookup c with
  | none => exact h
  | some task =>
    simp only
    split_ifs with c1 c2
    all_goals try exact h
    exact leased_of_erase m _ c _ rfl rfl h

theorem leased_ScanVisibility (now : Time) (walOk : String → Bool) :
    ∀ (candidates : List String) (m : Manager), InFlightAreInFlight m →
      InFlightAreInFlight (ScanVisibility m now candidates walOk) := by
  intro candidates
  induction candidates with
  | nil =>
    intro m h
    exact h
  | cons c cs ih =>
    intro m h
    exact ih (scanOne now walOk m c) (leased_scanOne now walOk m c h)

theorem leased_step (cfg : Config) (m : Manager) (c : Call) (h : InFlightAreInFlight m) :
    InFlightAreInFlight (step cfg m c) := by
  cases c with
  | enqueue taskID payload ts walOk => exact leased_Enqueue cfg m taskID payload ts walOk h
  | poll workerID now ts walOk => exact leased_Poll cfg m workerID now ts walOk h
  | ack taskID workerID ts walOk => exact leased_Ack m taskID workerID ts walOk h
  | scan now candidates walOk => exact leased_ScanVisibility now walOk candidates m h

theorem leased_ReplayEnqueue (m : Manager) (taskID payload : String)
    (h : InFlightAreInFlight m) : InFlightAreInFlight (ReplayEnqueue m taskID payload) := by
  unfold ReplayEnqueue
  cases hl : m.tasks.lookup taskID with
  | some task => exact h
  | none => exact leased_of_new m _ taskID _ hl rfl rfl h

theorem leased_ReplayPoll (m : Manager) (taskID workerID : String) (deadline : Time)
    (h : InFlightAreInFlight m) :
    InFlightAreInFlight (ReplayPoll m taskID workerID deadline) := by
  unfold ReplayPoll
  cases hl : m.tasks.lookup taskID with
  | none => exact h
  | some task => exact leased_of_insert m _ taskID workerID _ rfl rfl rfl h

theorem leased_ReplayAck (m : Manager) (taskID workerID : String)
    (h : InFlightAreInFlight m) : InFlightAreInFlight (ReplayAck m taskID workerID) := by
  unfold ReplayAck
  cases hl : m.tasks.lookup taskID with
  | none => exact h
  | some task => exact leased_of_erase m _ taskID _ rfl rfl h

theorem leased_ReplayTimeout (m : Manager) (taskID : String) (now : Time)
    (h : InFlightAreInFlight m) : InFlightAreInFlight (ReplayTimeout m taskID now) := by
  unfold ReplayTimeout
  cases hl : m.tasks.lookup taskID with
  | none => exact h
  | some task =>
    simp only
    split_ifs with c
    · exact leased_of_erase m _ taskID _ rfl rfl h
    · exact h

theorem leased_applyOp (cfg : Config) (m : Manager) (o : Op) (h : InFlightAreInFlight m) :
    InFlightAreInFlight (applyOp cfg m o) := by
  cases o with
  | call c => exact leased_step cfg m c h
  | replayEnqueue taskID payload => exact leased_ReplayEnqueue m taskID payload h
  | replayPoll taskID workerID deadline => exact leased_ReplayPoll m taskID workerID deadline h
  | replayAck taskID workerID => exact leased_ReplayAck m taskID workerID h
  | replayTimeout taskID now => exact leased_ReplayTimeout m taskID now h

theorem leased_build (cfg : Config) :
    ∀ (ops : List Op) (m : Manager), InFlightAreInFlight m →
      InFlightAreInFlight (build cfg m ops) := by
  intro ops
  induction ops with
  | nil =>
    intro m h
    exact h
  | cons o os ih =>
    intro m h
    exact ih (applyOp cfg m o) (leased_applyOp cfg m o h)

theorem done_not_leased (m : Manager) (id : String) (t : Task) (h : InFlightAreInFlight m)
    (hl : m.tasks.lookup id = some t) (hd : t.State = .Done) : id ∉ m.inFlight := by
  intro hin
  obtain ⟨t', hl', hs⟩ := h id hin
  rw [hl] at hl'
  cases hl'
  rw [hd] at hs
  cases hs

/-- C17. Done is terminal. The fields of a manager are unexported, so a manager state
is a state built from the empty manager of `NewManager` by a sequence of operations:
calls of Enqueue, Poll, Ack and ScanVisibility with any arguments and WAL outcomes
(a scan of the building sequence may even visit any list of ids) and the four
restoration hooks with any arguments. For every such state in which a task is
`Done`, after every sequence of Enqueue, Poll, Ack and ScanVisibility calls with any
arguments the task is stored under its id exactly as before (state `Done`, payload,
attempts and deadline), its id is not a key of `inFlight`, and its id occurs in
`pending` no more often than before: no call puts it there. -/
theorem done_is_terminal (cfg : Config) (ops : List Op) (id : String) (t : Task)
    (calls : List Call) (hl : (build cfg NewManager ops).tasks.lookup id = some t)
    (hd : t.State = .Done) (ha : Admissible cfg (build cfg NewManager ops) calls) :
    (run cfg (build cfg NewManager ops) calls).tasks.lookup id = some t ∧
    id ∉ (run cfg (build cfg NewManager ops) calls).inFlight ∧
    (run cfg (build cfg NewManager ops) calls).pending.count id ≤
      (build cfg NewManager ops).pending.count id ∧
    (id ∉ (build cfg NewManager ops).pending →
      id ∉ (run cfg (build cfg NewManager ops) calls).pending) := by
  have hnf : id ∉ (build cfg NewManager ops).inFlight :=
    done_not_leased _ id t (leased_build cfg ops NewManager leased_NewManager) hl hd
  obtain ⟨h1, h2, h3⟩ := done_run cfg id t hd calls _ hl hnf ha
  refine ⟨h1, h2, h3, ?_⟩
  intro hnp hp
  have h0 : (build cfg NewManager ops).pending.count id = 0 := List.count_eq_zero.mpr hnp
  have hpos : 0 < (run cfg (build cfg NewManager ops) calls).pending.count id :=
    List.count_pos_iff.mpr hp
  omega

theorem afterDoneCalls_inFlight :
    (step testConfig (step testConfig (step testConfig ackedT1
      (.enqueue "t1" "again" 20000000000 true))
      (.poll "w2" 20000000000 20000000000 true))
      (.ack "t1" "w9" 20000000000 true)).inFlight = ∅ := by
  decide

theorem afterDoneCalls_admissible : Admissible testConfig ackedT1 afterDoneCalls := by
  refine ⟨trivial, trivial, trivial, ⟨by simp, ?_⟩, trivial⟩
  intro id
  rw [afterDoneCalls_inFlight]
  simp [Finmap.not_mem_empty]

theorem build_doneOps : build testConfig NewManager doneOps = ackedT1 := rfl

theorem afterDoneCalls_built :
    Admissible testConfig (build testConfig NewManager doneOps) afterDoneCalls := by
  rw [build_doneOps]
  exact afterDoneCalls_admissible

/-- Witness of C17, scenario 1 continued: `t1` is done after enqueue, poll and ack;
enqueueing the id again, polling, a second ack by another worker and a late scan
leave it as it is, and its id in neither collection. -/
theorem done_is_terminal_witness :
    (build testConfig NewManager doneOps).tasks.lookup "t1" =
      some { ID := "t1", Payload := "p", State := .Done, VisibilityDeadline := 10000000000, Attempts := 0 } ∧
    Admissible testConfig (build testConfig NewManager doneOps) afterDoneCalls ∧
    "t1" ∉ (build testConfig NewManager doneOps).pending ∧
    (run testConfig (build testConfig NewManager doneOps) afterDoneCalls).tasks.lookup "t1" =
      some { ID := "t1", Payload := "p", State := .Done, VisibilityDeadline := 10000000000, Attempts := 0 } ∧
    "t1" ∉ (run testConfig (build testConfig NewManager doneOps) afterDoneCalls).inFlight ∧
    "t1" ∉ (run testConfig (build testConfig NewManager doneOps) afterDoneCalls).pending :=
  ⟨by decide, afterDoneCalls_built, by decide,
    (done_is_terminal testConfig doneOps "t1"
      { ID := "t1", Payload := "p", State := .Done, VisibilityDeadline := 10000000000, Attempts := 0 }
      afterDoneCalls (by decide) rfl afterDoneCalls_built).1,
    (done_is_terminal testConfig doneOps "t1"
      { ID := "t1", Payload := "p", State := .Done, VisibilityDeadline := 10000000000, Attempts := 0 }
      afterDoneCalls (by decide) rfl afterDoneCalls_built).2.1,
    (done_is_terminal testConfig doneOps "t1"
      { ID := "t1", Payload := "p", State := .Done, VisibilityDeadline := 10000000000, Attempts := 0 }
      afterDoneCalls (by decide) rfl afterDoneCalls_built).2.2.2 (by decide)⟩

end TaskQueue

namespace TaskQueue

/-! ## One record per line -/

end TaskQueue

namespace TaskQueue

end TaskQueue

namespace TaskQueue

end TaskQueue

namespace TaskQueue

theorem dispatch_known (target : Manager) (r : Record) (h : KnownType r.Type_) :
    dispatch target r = some (applyRecord target r) := by
  unfold dispatch applyRecord
  rcases h with h | h | h | h
  · simp [h]
  · simp [h, PollRecord, EnqueueRecord]
  · simp [h, PollRecord, EnqueueRecord, AckRecord]
  · simp [h, PollRecord, EnqueueRecord, AckRecord, TimeoutRecord]

theorem dispatch_unknown (target : Manager) (r : Record) (h : ¬ KnownType r.Type_) :
    dispatch target r = none := by
  unfold dispatch
  unfold KnownType at h
  simp only [not_or] at h
  rw [if_neg h.1, if_neg h.2.1, if_neg h.2.2.1, if_neg h.2.2.2]

theorem replayLoop_good (lib : JSONLib) (tooLong : Bool) (rest : List Bytes) :
    ∀ (pre : List Bytes) (n : Nat) (target : Manager),
      (∀ l ∈ pre, l = [] ∨ WellFormed lib l) →
      replayLoop lib tooLong n target (pre ++ rest) =
        replayLoop lib tooLong (n + pre.length) (applyLines lib target pre) rest := by
  intro pre
  induction pre with
  | nil =>
    intro n target _
    rfl
  | cons l ls ih =>
    intro n target h
    have hrest : ∀ x ∈ ls, x = [] ∨ WellFormed lib x :=
      fun x hx => h x (List.mem_cons_of_mem _ hx)
    have hn : n + (l :: ls).length = n + 1 + ls.length := by
      simp only [List.length_cons]
      omega
    rw [hn]
    simp only [List.cons_append]
    by_cases e : l = []
    · subst e
      rw [replayLoop, applyLines]
      simp only [List.length_nil, if_true]
      exact ih (n + 1) target hrest
    · rcases h l (List.mem_cons_self _ _) with h0 | ⟨r, hr, hk⟩
      · exact absurd h0 e
      · have hlen : ¬ l.length = 0 := fun h0 => e (List.length_eq_zero.mp h0)
        rw [replayLoop, applyLines, if_neg hlen, if_neg e]
        simp only [hr, dispatch_known target r hk]
        exact ih (n + 1) (applyRecord target r) hrest

end TaskQueue

namespace TaskQueue

/-! ## Replay stops at the first bad line -/

theorem replayLoop_bad_corrupt (lib : JSONLib) (tooLong : Bool) (n : Nat) (target : Manager)
    (bad : Bytes) (post : List Bytes) (hne : bad ≠ []) (h : lib.unmarshal bad = none) :
    replayLoop lib tooLong n target (bad :: post) = (target, some (.corrupt (n + 1))) := by
  have hlen : ¬ bad.length = 0 := fun h0 => hne (List.length_eq_zero.mp h0)
  rw [replayLoop, if_neg hlen]
  simp only [h]

theorem replayLoop_bad_type (lib : JSONLib) (tooLong : Bool) (n : Nat) (target : Manager)
    (bad : Bytes) (post : List Bytes) (r : Record) (hne : bad ≠ [])
    (h : lib.unmarshal bad = some r) (hk : ¬ KnownType r.Type_) :
    replayLoop lib tooLong n target (bad :: post) =
      (target, some (.unknownType (n + 1) r.Type_)) := by
  have hlen : ¬ bad.length = 0 := fun h0 => hne (List.length_eq_zero.mp h0)
  rw [replayLoop, if_neg hlen]
  simp only [h, dispatch_unknown target r hk]

/-- C16. Replay stops at the first bad record. Let the lines the scanner yields for
a log start with `pre`, every line of which is empty or well formed (it parses and
its type is ENQUEUE, POLL, ACK or TIMEOUT). If `pre` is the whole log, `Replay` ends
with the hooks of its well-formed lines applied in file order, empty lines skipped.
If the next line `bad` is non-empty and does not parse, or parses to a record of
another type, `Replay` returns the error for line `pre.length + 1` and the target
is the one after the hooks of `pre` alone: no hook is applied for `bad` nor for any
line after it. -/
theorem replay_stops_at_first_bad (lib : JSONLib) (data : Bytes) (target : Manager)
    (pre : List Bytes) (hpre : ∀ l ∈ pre, l = [] ∨ WellFormed lib l) :
    ((scanLines [] data).1 = pre →
      Replay lib (.opened data) target =
        (applyLines lib target pre,
          if (scanLines [] data).2 then some .readFailed else none)) ∧
    (∀ bad post, (scanLines [] data).1 = pre ++ bad :: post → bad ≠ [] →
      (lib.unmarshal bad = none →
        Replay lib (.opened data) target =
          (applyLines lib target pre, some (.corrupt (pre.length + 1)))) ∧
      (∀ r, lib.unmarshal bad = some r → ¬ KnownType r.Type_ →
        Replay lib (.opened data) target =
          (applyLines lib target pre, some (.unknownType (pre.length + 1) r.Type_)))) := by
  have hR : Replay lib (.opened data) target =
      replayLoop lib (scanLines [] data).2 0 target (scanLines [] data).1 := rfl
  constructor
  · intro hs
    have h := replayLoop_good lib (scanLines [] data).2 [] pre 0 target hpre
    rw [List.append_nil] at h
    rw [hR, hs, h]
    rfl
  · intro bad post hs hne
    have h := replayLoop_good lib (scanLines [] data).2 (bad :: post) pre 0 target hpre
    rw [hR, hs, h, Nat.zero_add]
    constructor
    · intro hu
      exact replayLoop_bad_corrupt lib _ _ _ bad post hne hu
    · intro r hu hk
      exact replayLoop_bad_type lib _ _ _ bad post r hne hu hk

theorem wellFormed_recS : WellFormed sxJSON (marshal sxJSON recS) :=
  ⟨recS, by decide, Or.inl rfl⟩

theorem wellFormed_recX : WellFormed sxJSON (marshal sxJSON recX) :=
  ⟨recX, by decide, Or.inl rfl⟩

set_option maxRecDepth 100000 in
theorem logGarbage_scan :
    (scanLines [] logGarbage).1 =
      [marshal sxJSON recS, []] ++ garbageLine :: [marshal sxJSON recX] := by
  decide

/-- Witness of C16: a log with the record of `s`, an empty line, a line that is no
JSON and the record of `x`; `Replay` reports line 3 as corrupt, and only `s` has
been restored. -/
theorem replay_stops_at_first_bad_witness :
    (scanLines [] logGarbage).1 =
      [marshal sxJSON recS, []] ++ garbageLine :: [marshal sxJSON recX] ∧
    sxJSON.unmarshal garbageLine = none ∧
    Replay sxJSON (.opened logGarbage) NewManager =
      (applyLines sxJSON NewManager [marshal sxJSON recS, []], some (.corrupt 3)) ∧
    (applyLines sxJSON NewManager [marshal sxJSON recS, []]).pending = ["s"] := by
  have hpre : ∀ l ∈ [marshal sxJSON recS, []], l = [] ∨ WellFormed sxJSON l := by
    intro l hl
    simp only [List.mem_cons, List.mem_singleton, List.not_mem_nil, or_false] at hl
    rcases hl with rfl | rfl
    · exact Or.inr wellFormed_recS
    · exact Or.inl rfl
  have hscan := logGarbage_scan
  exact ⟨hscan, by decide,
    ((replay_stops_at_first_bad sxJSON logGarbage NewManager [marshal sxJSON recS, []]
      hpre).2 garbageLine [marshal sxJSON recX] hscan (by decide)).1 (by decide),
    by decide⟩

end TaskQueue

namespace TaskQueue

/-! ## A log that ends inside a record -/

end TaskQueue

namespace TaskQueue

/-! ## GetStats -/

theorem getStats_flow :
    GetStats (run testConfig NewManager flowCalls) =
      { total := 1, pending := 0, inFlight := 0, done := 1, retries := 1 } := by
  decide

end TaskQueue

namespace TaskQueue

theorem foldl_countTask_done (s : Multiset (Sigma (fun _ : String => Task)))
    [RightCommutative (fun (d : Nat × Nat) (e : Sigma (fun _ : String => Task)) =>
      countTask d e.1 e.2)] :
    ∀ acc : Nat × Nat,
      (Multiset.foldl (fun (d : Nat × Nat) (e : Sigma (fun _ : String => Task)) =>
        countTask d e.1 e.2) acc s).1 =
        acc.1 + Multiset.countP (fun e => e.2.State = .Done) s := by
  induction s using Multiset.induction_on with
  | empty =>
    intro acc
    simp
  | cons a s ih =>
    intro acc
    rw [Multiset.foldl_cons, ih, Multiset.countP_cons]
    unfold countTask
    by_cases h : a.2.State = .Done
    · simp [h]
      omega
    · simp [h]

theorem getStats_done (m : Manager) :
    (GetStats m).done = Multiset.countP (fun e => e.2.State = .Done) m.tasks.entries := by
  unfold GetStats Finmap.foldl
  simp only
  rw [foldl_countTask_done]
  simp

theorem card_by_state (s : Multiset (Sigma (fun _ : String => Task))) :
    Multiset.card s =
      Multiset.countP (fun e => e.2.State = .Pending) s +
      Multiset.countP (fun e => e.2.State = .InFlight) s +
      Multiset.countP (fun e => e.2.State = .Done) s := by
  induction s using Multiset.induction_on with
  | empty => simp
  | cons a s ih =>
    rw [Multiset.card_cons, ih]
    simp only [Multiset.countP_cons]
    cases h : a.2.State <;> simp <;> omega

theorem keys_card_entries (tasks : TaskMap) :
    tasks.keys.card = Multiset.card tasks.entries := by
  show Multiset.card tasks.entries.keys = _
  simp [Multiset.keys]

theorem countP_state_keys (tasks : TaskMap) (st : TaskState) :
    Multiset.countP (fun e => e.2.State = st) tasks.entries =
      (tasks.keys.filter (fun id => stateAt tasks id = some st)).card := by
  have h1 : (tasks.keys.filter (fun id => stateAt tasks id = some st)).card =
      Multiset.countP (fun id => stateAt tasks id = some st) tasks.entries.keys := by
    rw [Finset.card, Finset.filter_val, Multiset.countP_eq_card_filter]
    rfl
  rw [h1, Multiset.keys, Multiset.countP_map, Multiset.countP_eq_card_filter]
  congr 1
  apply Multiset.filter_congr
  intro e he
  have hl : tasks.lookup e.1 = some e.2 := by
    have : Sigma.mk e.1 e.2 ∈ tasks.entries := he
    exact Finmap.mem_lookup_iff.mpr this
  simp [stateAt, hl]

end TaskQueue

namespace TaskQueue

theorem pending_keys (m : Manager) (hi : Inv m) (ht : Tracked m) :
    m.tasks.keys.filter (fun id => stateAt m.tasks id = some .Pending) = m.pending.toFinset := by
  ext id
  simp only [Finset.mem_filter, Finmap.mem_keys, List.mem_toFinset]
  constructor
  · rintro ⟨_, hs⟩
    unfold stateAt at hs
    cases hl : m.tasks.lookup id with
    | none => simp [hl] at hs
    | some t =>
      have hst : t.State = .Pending := by simpa [hl] using hs
      rcases ht id t hl with ⟨_, hp⟩ | ⟨h2, _⟩ | h3
      · exact hp
      · rw [hst] at h2
        cases h2
      · rw [hst] at h3
        cases h3
  · intro hp
    obtain ⟨t, hl, hst⟩ := hi.1 id hp
    exact ⟨Finmap.mem_of_lookup_eq_some hl, by simp [stateAt, hl, hst]⟩

theorem inFlight_keys (m : Manager) (hi : Inv m) (ht : Tracked m) :
    m.tasks.keys.filter (fun id => stateAt m.tasks id = some .InFlight) = m.inFlight.keys := by
  ext id
  simp only [Finset.mem_filter, Finmap.mem_keys]
  constructor
  · rintro ⟨_, hs⟩
    unfold stateAt at hs
    cases hl : m.tasks.lookup id with
    | none => simp [hl] at hs
    | some t =>
      have hst : t.State = .InFlight := by simpa [hl] using hs
      rcases ht id t hl with ⟨h1, _⟩ | ⟨_, hf⟩ | h3
      · rw [hst] at h1
        cases h1
      · exact hf
      · rw [hst] at h3
        cases h3
  · intro hf
    obtain ⟨t, hl, hst⟩ := hi.2.1 id hf
    exact ⟨Finmap.mem_of_lookup_eq_some hl, by simp [stateAt, hl, hst]⟩

theorem stats_conserved_of (m : Manager) (hi : Inv m) (ht : Tracked m) :
    (GetStats m).total = (GetStats m).pending + (GetStats m).inFlight + (GetStats m).done := by
  rw [getStats_done]
  show m.tasks.keys.card = m.pending.length + m.inFlight.keys.card + _
  rw [keys_card_entries, card_by_state, countP_state_keys m.tasks .Pending,
    countP_state_keys m.tasks .InFlight, pending_keys m hi ht, inFlight_keys m hi ht,
    List.toFinset_card_of_nodup hi.2.2.2.1]

theorem tracked_run (cfg : Config) :
    ∀ (calls : List Call) (m : Manager), Admissible cfg m calls → Inv m → Tracked m →
      Tracked (run cfg m calls) := by
  intro calls
  induction calls with
  | nil =>
    intro m _ _ h
    exact h
  | cons c cs ih =>
    intro m ha hi ht
    exact ih (step cfg m c) ha.2 (inv_step cfg m c ha.1 hi) (tracked_step cfg m c hi ht)

/-- C21. GetStats counters are conserved: in every state reached from the empty
manager by an admissible sequence of Enqueue, Poll, Ack and ScanVisibility calls
(whatever the outcome of each WAL append), the values `GetStats` returns satisfy
`total = pending + in_flight + done`, where `total` is the number of stored tasks,
`pending` the length of the `pending` sequence, `in_flight` the size of the
`inFlight` map and `done` the number of tasks in state `Done`. -/
theorem stats_conserved (cfg : Config) (calls : List Call)
    (ha : Admissible cfg NewManager calls) :
    (GetStats (run cfg NewManager calls)).total =
      (GetStats (run cfg NewManager calls)).pending +
      (GetStats (run cfg NewManager calls)).inFlight +
      (GetStats (run cfg NewManager calls)).done ∧
    (GetStats (run cfg NewManager calls)).total = (run cfg NewManager calls).tasks.keys.card ∧
    (GetStats (run cfg NewManager calls)).pending = (run cfg NewManager calls).pending.length ∧
    (GetStats (run cfg NewManager calls)).inFlight =
      (run cfg NewManager calls).inFlight.keys.card ∧
    (GetStats (run cfg NewManager calls)).done =
      Multiset.countP (fun e => e.2.State = .Done) (run cfg NewManager calls).tasks.entries :=
  ⟨stats_conserved_of _ (inv_run cfg calls NewManager ha inv_NewManager)
      (tracked_run cfg calls NewManager ha inv_NewManager tracked_NewManager),
    rfl, rfl, rfl, getStats_done _⟩

/-- Witness of C21 on the calls of the recovery test: one task, timed out once and
then acknowledged, gives `total = 1 = 0 + 0 + 1`. -/
theorem stats_conserved_witness :
    Admissible testConfig NewManager flowCalls ∧
    GetStats (run testConfig NewManager flowCalls) =
      { total := 1, pending := 0, inFlight := 0, done := 1, retries := 1 } ∧
    (GetStats (run testConfig NewManager flowCalls)).total =
      (GetStats (run testConfig NewManager flowCalls)).pending +
      (GetStats (run testConfig NewManager flowCalls)).inFlight +
      (GetStats (run testConfig NewManager flowCalls)).done :=
  ⟨flowCalls_admissible, getStats_flow,
    (stats_conserved testConfig flowCalls flowCalls_admissible).1⟩

end TaskQueue

namespace TaskQueue

/-! ## The restoration hooks and invariants (1)-(3) -/

theorem dataInv_of_core {m : Manager} (h1 : PendingArePending m)
    (h2 : InFlightAreInFlight m) : DataInv m := by
  refine ⟨h1, h2, ?_, ?_⟩
  · rintro id ⟨hp, hf⟩
    obtain ⟨t, ht, hs⟩ := h1 id hp
    obtain ⟨t', ht', hs'⟩ := h2 id hf
    rw [ht] at ht'
    cases ht'
    rw [hs] at hs'
    cases hs'
  · intro id t ht hd
    constructor
    · intro hp
      obtain ⟨t', ht', hs'⟩ := h1 id hp
      rw [ht] at ht'
      cases ht'
      rw [hd] at hs'
      cases hs'
    · intro hf
      obtain ⟨t', ht', hs'⟩ := h2 id hf
      rw [ht] at ht'
      cases ht'
      rw [hd] at hs'
      cases hs'

theorem dataInv_of_inv {m : Manager} (h : Inv m) : DataInv m :=
  dataInv_of_core h.1 h.2.1

theorem dataInv_ReplayEnqueue (m : Manager) (taskID payload : String) (h : DataInv m) :
    DataInv (ReplayEnqueue m taskID payload) := by
  refine dataInv_of_core ?_ (leased_ReplayEnqueue m taskID payload h.2.1)
  unfold ReplayEnqueue
  cases hl : m.tasks.lookup taskID with
  | some task => exact h.1
  | none =>
    intro id hid
    simp only [List.mem_append, List.mem_singleton] at hid
    by_cases e : id = taskID
    · subst e
      exact ⟨_, Finmap.lookup_insert _, rfl⟩
    · rcases hid with hid | hid
      · obtain ⟨t, ht, hs⟩ := h.1 id hid
        exact ⟨t, by simpa [lookup_insert_ne _ _ e] using ht, hs⟩
      · exact absurd hid e

theorem dataInv_ReplayTimeout (m : Manager) (taskID : String) (now : Time) (h : DataInv m) :
    DataInv (ReplayTimeout m taskID now) := by
  refine dataInv_of_core ?_ (leased_ReplayTimeout m taskID now h.2.1)
  unfold ReplayTimeout
  cases hl : m.tasks.lookup taskID with
  | none => exact h.1
  | some task =>
    simp only
    split_ifs with c
    · intro id hid
      simp only [List.mem_append, List.mem_singleton] at hid
      by_cases e : id = taskID
      · subst e
        exact ⟨_, Finmap.lookup_insert _, rfl⟩
      · rcases hid with hid | hid
        · obtain ⟨t, ht, hs⟩ := h.1 id hid
          exact ⟨t, by simpa [lookup_insert_ne _ _ e] using ht, hs⟩
        · exact absurd hid e
    · exact h.1

theorem dataInv_ReplayPoll (m : Manager) (taskID workerID : String) (deadline : Time)
    (h : DataInv m) (hc : m.pending.count taskID ≤ 1) :
    DataInv (ReplayPoll m taskID workerID deadline) := by
  refine dataInv_of_core ?_ (leased_ReplayPoll m taskID workerID deadline h.2.1)
  unfold ReplayPoll
  cases hl : m.tasks.lookup taskID with
  | none => exact h.1
  | some task =>
    simp only [removeFirst_eq_erase]
    intro id hid
    have hid' : id ∈ m.pending.erase taskID := hid
    have e : id ≠ taskID := by
      rintro rfl
      have hpos : 0 < (m.pending.erase id).count id := List.count_pos_iff.mpr hid'
      rw [List.count_erase_self] at hpos
      omega
    obtain ⟨t, ht, hs⟩ := h.1 id (List.mem_of_mem_erase hid')
    exact ⟨t, by simpa [lookup_insert_ne _ _ e] using ht, hs⟩

theorem dataInv_ReplayAck (m : Manager) (taskID workerID : String) (h : DataInv m)
    (hnp : taskID ∉ m.pending) : DataInv (ReplayAck m taskID workerID) := by
  refine dataInv_of_core ?_ (leased_ReplayAck m taskID workerID h.2.1)
  unfold ReplayAck
  cases hl : m.tasks.lookup taskID with
  | none => exact h.1
  | some task =>
    intro id hid
    have hid' : id ∈ m.pending := hid
    have e : id ≠ taskID := by
      rintro rfl
      exact hnp hid'
    obtain ⟨t, ht, hs⟩ := h.1 id hid'
    exact ⟨t, by simpa [lookup_insert_ne _ _ e] using ht, hs⟩

theorem replayPoll_twice_breaks (m : Manager) (taskID workerID : String) (deadline : Time)
    (h : DataInv m) (hc : 2 ≤ m.pending.count taskID) :
    ¬ DataInv (ReplayPoll m taskID workerID deadline) := by
  intro hnew
  have hp : taskID ∈ m.pending := List.count_pos_iff.mp (by omega)
  obtain ⟨task, hl, _⟩ := h.1 taskID hp
  have hin : taskID ∈ (ReplayPoll m taskID workerID deadline).pending := by
    unfold ReplayPoll
    rw [hl]
    simp only [removeFirst_eq_erase]
    apply List.count_pos_iff.mp
    rw [List.count_erase_self]
    omega
  obtain ⟨t, ht, hs⟩ := hnew.1 taskID hin
  unfold ReplayPoll at ht
  rw [hl] at ht
  simp only [Finmap.lookup_insert] at ht
  cases ht
  cases hs

theorem replayAck_pending_breaks (m : Manager) (taskID workerID : String) (h : DataInv m)
    (hp : taskID ∈ m.pending) : ¬ DataInv (ReplayAck m taskID workerID) := by
  intro hnew
  obtain ⟨task, hl, _⟩ := h.1 taskID hp
  have hin : taskID ∈ (ReplayAck m taskID workerID).pending := by
    unfold ReplayAck
    rw [hl]
    exact hp
  obtain ⟨t, ht, hs⟩ := hnew.1 taskID hin
  unfold ReplayAck at ht
  rw [hl] at ht
  simp only [Finmap.lookup_insert] at ht
  cases ht
  cases hs

theorem coherent_fresh (m m' : Manager) (x : String) (t' : Task)
    (hx : m.tasks.lookup x = none)
    (ht : m'.tasks = m.tasks.insert x t') (hf : m'.inFlight = m.inFlight)
    (hp : m'.pending = m.pending ++ [x]) (hs : t'.State = .Pending) (h : Coherent m) :
    Coherent m' := by
  obtain ⟨h1, h2, h3, h4⟩ := h
  have hnp : x ∉ m.pending := by
    intro hin
    have hsome := h3 x hin
    rw [hx] at hsome
    cases hsome
  refine ⟨leased_of_new m m' x t' hx ht hf h1, ?_, ?_, ?_⟩
  · rw [hp]
    exact List.Nodup.append h2 (List.nodup_singleton _) (by simpa using hnp)
  · intro id hid
    rw [hp] at hid
    rw [ht]
    by_cases e : id = x
    · subst e
      simp [Finmap.lookup_insert]
    · rw [lookup_insert_ne _ _ e]
      rcases List.mem_append.mp hid with h' | h'
      · exact h3 id h'
      · exact absurd (List.mem_singleton.mp h') e
  · intro id t hl hst
    rw [ht] at hl
    by_cases e : id = x
    · subst e
      rw [Finmap.lookup_insert] at hl
      cases hl
      rw [hs] at hst
      cases hst
    · rw [lookup_insert_ne _ _ e] at hl
      obtain ⟨a, b⟩ := h4 id t hl hst
      rw [hf, hp]
      exact ⟨a, by simp [b, e]⟩

theorem coherent_lease (m m' : Manager) (x w : String) (t t' : Task)
    (hx : m.tasks.lookup x = some t)
    (ht : m'.tasks = m.tasks.insert x t') (hf : m'.inFlight = m.inFlight.insert x w)
    (hnd : m'.pending.Nodup) (hsub : ∀ id ∈ m'.pending, id ∈ m.pending)
    (hxp : x ∉ m'.pending) (hs : t'.State = .InFlight) (h : Coherent m) : Coherent m' := by
  obtain ⟨h1, h2, h3, h4⟩ := h
  refine ⟨leased_of_insert m m' x w t' ht hf hs h1, hnd, ?_, ?_⟩
  · intro id hid
    rw [ht]
    by_cases e : id = x
    · subst e
      simp [Finmap.lookup_insert]
    · rw [lookup_insert_ne _ _ e]
      exact h3 id (hsub id hid)
  · intro id t0 hl hst
    by_cases e : id = x
    · subst e
      rw [hf]
      exact ⟨Finmap.mem_insert.mpr (Or.inl rfl), hxp⟩
    · rw [ht, lookup_insert_ne _ _ e] at hl
      obtain ⟨a, b⟩ := h4 id t0 hl hst
      rw [hf]
      exact ⟨Finmap.mem_insert.mpr (Or.inr a), fun hin => b (hsub id hin)⟩

theorem coherent_done (m m' : Manager) (x : String) (t t' : Task)
    (hx : m.tasks.lookup x = some t)
    (ht : m'.tasks = m.tasks.insert x t') (hf : m'.inFlight = m.inFlight.erase x)
    (hp : m'.pending = m.pending) (hs : t'.State = .Done) (h : Coherent m) : Coherent m' := by
  obtain ⟨h1, h2, h3, h4⟩ := h
  refine ⟨leased_of_erase m m' x t' ht hf h1, by rw [hp]; exact h2, ?_, ?_⟩
  · intro id hid
    rw [hp] at hid
    rw [ht]
    by_cases e : id = x
    · subst e
      simp [Finmap.lookup_insert]
    · rw [lookup_insert_ne _ _ e]
      exact h3 id hid
  · intro id t0 hl hst
    rw [ht] at hl
    by_cases e : id = x
    · subst e
      rw [Finmap.lookup_insert] at hl
      cases hl
      rw [hs] at hst
      cases hst
    · rw [lookup_insert_ne _ _ e] at hl
      obtain ⟨a, b⟩ := h4 id t0 hl hst
      rw [hf, hp]
      exact ⟨Finmap.mem_erase.mpr ⟨e, a⟩, b⟩

theorem coherent_timeout (m m' : Manager) (x : String) (t t' : Task)
    (hx : m.tasks.lookup x = some t) (hold : t.State = .InFlight)
    (ht : m'.tasks = m.tasks.insert x t') (hf : m'.inFlight = m.inFlight.erase x)
    (hp : m'.pending = m.pending ++ [x]) (hs : t'.State = .Pending) (h : Coherent m) :
    Coherent m' := by
  obtain ⟨h1, h2, h3, h4⟩ := h
  have hnp : x ∉ m.pending := (h4 x t hx hold).2
  refine ⟨leased_of_erase m m' x t' ht hf h1, ?_, ?_, ?_⟩
  · rw [hp]
    exact List.Nodup.append h2 (List.nodup_singleton _) (by simpa using hnp)
  · intro id hid
    rw [hp] at hid
    rw [ht]
    by_cases e : id = x
    · subst e
      simp [Finmap.lookup_insert]
    · rw [lookup_insert_ne _ _ e]
      rcases List.mem_append.mp hid with h' | h'
      · exact h3 id h'
      · exact absurd (List.mem_singleton.mp h') e
  · intro id t0 hl hst
    rw [ht] at hl
    by_cases e : id = x
    · subst e
      rw [Finmap.lookup_insert] at hl
      cases hl
      rw [hs] at hst
      cases hst
    · rw [lookup_insert_ne _ _ e] at hl
      obtain ⟨a, b⟩ := h4 id t0 hl hst
      rw [hf, hp]
      exact ⟨Finmap.mem_erase.mpr ⟨e, a⟩, by simp [b, e]⟩

theorem coherent_shorter (m m' : Manager) (ht : m'.tasks = m.tasks)
    (hf : m'.inFlight = m.inFlight) (hnd : m'.pending.Nodup)
    (hsub : ∀ id ∈ m'.pending, id ∈ m.pending) (h : Coherent m) : Coherent m' := by
  obtain ⟨h1, h2, h3, h4⟩ := h
  refine ⟨leased_of_same m m' ht hf h1, hnd, ?_, ?_⟩
  · intro id hid
    rw [ht]
    exact h3 id (hsub id hid)
  · intro id t0 hl hst
    rw [ht] at hl
    obtain ⟨a, b⟩ := h4 id t0 hl hst
    rw [hf]
    exact ⟨a, fun hin => b (hsub id hin)⟩

theorem coherent_NewManager : Coherent NewManager := by
  refine ⟨leased_NewManager, List.nodup_nil, ?_, ?_⟩
  · intro id hid
    cases hid
  · intro id t hl
    simp [NewManager] at hl

theorem coherent_Enqueue (cfg : Config) (m : Manager) (taskID payload : String) (ts : Time)
    (walOk : Bool) (h : Coherent m) : Coherent (Enqueue cfg m taskID payload ts walOk).1 := by
  rcases Enqueue_cases cfg m taskID payload ts walOk with ⟨e, he⟩ | ⟨_, he⟩ | ⟨hn, he⟩
  · rw [he]
    exact h
  · rw [he]
    exact h
  · rw [he]
    exact coherent_fresh m _ taskID _ hn rfl rfl rfl rfl h

theorem coherent_pollLoop (cfg : Config) (m : Manager) (workerID : String) (now ts : Time)
    (walOk : Bool) (h : Coherent m) :
    ∀ L : List String, L.Nodup → (∀ id ∈ L, id ∈ m.pending) →
      Coherent (pollLoop cfg m workerID now ts walOk L).1 := by
  intro L
  induction L with
  | nil =>
    intro _ _
    exact coherent_shorter m _ rfl rfl List.nodup_nil (fun id hid => by cases hid) h
  | cons x rest ih =>
    intro hnd hL
    have hrest : ∀ id ∈ rest, id ∈ m.pending := fun id hid => hL id (List.mem_cons_of_mem _ hid)
    have hnd' : rest.Nodup := (List.nodup_cons.mp hnd).2
    have hx : x ∉ rest := (List.nodup_cons.mp hnd).1
    unfold pollLoop
    cases hl : m.tasks.lookup x with
    | none => exact ih hnd' hrest
    | some task =>
      simp only
      split_ifs with c1 c2
      · exact ih hnd' hrest
      · exact coherent_shorter m _ rfl rfl (by simpa using hnd) (fun id hid => hL id (by simpa using hid)) h
      · exact coherent_lease m _ x workerID task _ hl rfl rfl hnd' hrest hx rfl h

theorem coherent_Poll (cfg : Config) (m : Manager) (workerID : String) (now ts : Time)
    (walOk : Bool) (h : Coherent m) : Coherent (Poll cfg m workerID now ts walOk).1 := by
  unfold Poll
  split_ifs with c
  · exact h
  · exact coherent_pollLoop cfg m workerID now ts walOk h m.pending h.2.1 (fun _ hid => hid)

theorem coherent_Ack (m : Manager) (taskID workerID : String) (ts : Time) (walOk : Bool)
    (h : Coherent m) : Coherent (Ack m taskID workerID ts walOk).1 := by
  unfold Ack
  cases hx : m.tasks.lookup taskID with
  | none => exact h
  | some task =>
    simp only
    split_ifs with c1 c2 c3 c4
    all_goals try exact h
    exact coherent_done m _ taskID task _ hx rfl rfl rfl rfl h

theorem coherent_scanOne (now : Time) (walOk : String → Bool) (m : Manager) (c : String)
    (hin : c ∈ m.inFlight) (h : Coherent m) : Coherent (scanOne now walOk m c) := by
  unfold scanOne
  cases hx : m.tasks.lookup c with
  | none => exact h
  | some task =>
    simp only
    split_ifs with c1 c2
    all_goals try exact h
    obtain ⟨t, hl, hs⟩ := h.1 c hin
    rw [hx] at hl
    cases hl
    exact coherent_timeout m _ c task _ hx hs rfl rfl rfl rfl h

theorem coherent_ScanVisibility (now : Time) (walOk : String → Bool) :
    ∀ (candidates : List String) (m : Manager), candidates.Nodup →
      (∀ id ∈ candidates, id ∈ m.inFlight) → Coherent m →
      Coherent (ScanVisibility m now candidates walOk) := by
  intro candidates
  induction candidates with
  | nil =>
    intro m _ _ h
    exact h
  | cons c cs ih =>
    intro m hnd hin h
    have hc : c ∉ cs := (List.nodup_cons.mp hnd).1
    show Coherent (ScanVisibility (scanOne now walOk m c) now cs walOk)
    apply ih _ (List.nodup_cons.mp hnd).2
    · intro id hid
      apply mem_inFlight_scanOne
      · rintro rfl
        exact hc hid
      · exact hin id (List.mem_cons_of_mem _ hid)
    · exact coherent_scanOne now walOk m c (hin c (List.mem_cons_self _ _)) h

theorem coherent_step (cfg : Config) (m : Manager) (c : Call) (ha : c.Admissible m)
    (h : Coherent m) : Coherent (step cfg m c) := by
  cases c with
  | enqueue taskID payload ts walOk => exact coherent_Enqueue cfg m taskID payload ts walOk h
  | poll workerID now ts walOk => exact coherent_Poll cfg m workerID now ts walOk h
  | ack taskID workerID ts walOk => exact coherent_Ack m taskID workerID ts walOk h
  | scan now candidates walOk =>
    exact coherent_ScanVisibility now walOk candidates m ha.1 (fun id hid => (ha.2 id).mp hid) h

theorem coherent_ReplayEnqueue (m : Manager) (taskID payload : String) (h : Coherent m) :
    Coherent (ReplayEnqueue m taskID payload) := by
  unfold ReplayEnqueue
  cases hl : m.tasks.lookup taskID with
  | some task => exact h
  | none => exact coherent_fresh m _ taskID _ hl rfl rfl rfl rfl h

theorem coherent_ReplayPoll (m : Manager) (taskID workerID : String) (deadline : Time)
    (h : Coherent m) : Coherent (ReplayPoll m taskID workerID deadline) := by
  unfold ReplayPoll
  cases hl : m.tasks.lookup taskID with
  | none => exact h
  | some task =>
    simp only [removeFirst_eq_erase]
    refine coherent_lease m _ taskID workerID task _ hl rfl rfl (List.Nodup.erase _ h.2.1)
      (fun id hid => List.mem_of_mem_erase hid) ?_ rfl h
    exact fun hin => ((List.Nodup.mem_erase_iff h.2.1).mp hin).1 rfl

theorem coherent_ReplayAck (m : Manager) (taskID workerID : String) (h : Coherent m) :
    Coherent (ReplayAck m taskID workerID) := by
  unfold ReplayAck
  cases hl : m.tasks.lookup taskID with
  | none => exact h
  | some task => exact coherent_done m _ taskID task _ hl rfl rfl rfl rfl h

theorem coherent_ReplayTimeout (m : Manager) (taskID : String) (now : Time) (h : Coherent m) :
    Coherent (ReplayTimeout m taskID now) := by
  unfold ReplayTimeout
  cases hl : m.tasks.lookup taskID with
  | none => exact h
  | some task =>
    simp only
    split_ifs with c
    · exact coherent_timeout m _ taskID task _ hl c rfl rfl rfl rfl h
    · exact h

theorem coherent_applyOp (cfg : Config) (m : Manager) (o : Op) (ha : o.Admissible m)
    (h : Coherent m) : Coherent (applyOp cfg m o) := by
  cases o with
  | call c => exact coherent_step cfg m c ha h
  | replayEnqueue taskID payload => exact coherent_ReplayEnqueue m taskID payload h
  | replayPoll taskID workerID deadline => exact coherent_ReplayPoll m taskID workerID deadline h
  | replayAck taskID workerID => exact coherent_ReplayAck m taskID workerID h
  | replayTimeout taskID now => exact coherent_ReplayTimeout m taskID now h

theorem coherent_build (cfg : Config) :
    ∀ (ops : List Op) (m : Manager), OpsAdmissible cfg m ops → Coherent m →
      Coherent (build cfg m ops) := by
  intro ops
  induction ops with
  | nil =>
    intro m _ h
    exact h
  | cons o os ih =>
    intro m ha h
    exact ih (applyOp cfg m o) ha.2 (coherent_applyOp cfg m o ha.1 h)

theorem count_le_one_of_nodup (l : List String) (x : String) (h : l.Nodup) :
    l.count x ≤ 1 :=
  List.nodup_iff_count_le_one.mp h x

theorem dataInv_dupPending : DataInv dupPending := by
  apply dataInv_of_core
  · intro id hid
    have hid' : id = "x" ∨ id = "y" := by
      simpa [dupPending, or_comm] using hid
    rcases hid' with rfl | rfl
    · exact ⟨{ ID := "x", Payload := "p", State := .Pending, Attempts := 2 }, by decide, rfl⟩
    · exact ⟨{ ID := "y", Payload := "q", State := .Pending, Attempts := 0 }, by decide, rfl⟩
  · intro id hid
    exact absurd hid (by simp [dupPending, Finmap.not_mem_empty])

/-- C19, counterexample. (a) The manager restored from `ENQUEUE s` satisfies
invariants (1)-(3); after `ReplayAck("s", w0)` the task is `Done` and its id is
still in `pending`, so the invariants fail. (b) The manager value `dupPending`, in
which the pending task `x` is listed twice in `pending` (the case the specification
of `ReplayPoll` provides for), satisfies invariants (1)-(3) as they are worded;
after `ReplayPoll("x", w, 0)` the task is `InFlight` and the second occurrence of
its id is still in `pending`, so the invariants fail. -/
theorem replay_hooks_break_invariants :
    (DataInv (ReplayEnqueue NewManager "s" "p") ∧
      (ReplayAck (ReplayEnqueue NewManager "s" "p") "s" "w0").pending = ["s"] ∧
      ((ReplayAck (ReplayEnqueue NewManager "s" "p") "s" "w0").tasks.lookup "s").map
        (fun t => t.State) = some .Done ∧
      ¬ DataInv (ReplayAck (ReplayEnqueue NewManager "s" "p") "s" "w0")) ∧
    (DataInv dupPending ∧
      (ReplayPoll dupPending "x" "w" 0).pending = ["y", "x"] ∧
      ((ReplayPoll dupPending "x" "w" 0).tasks.lookup "x").map
        (fun t => t.State) = some .InFlight ∧
      ¬ DataInv (ReplayPoll dupPending "x" "w" 0)) :=
  ⟨⟨dataInv_ReplayEnqueue NewManager "s" "p" (dataInv_of_inv inv_NewManager), by decide,
      by decide,
      replayAck_pending_breaks _ "s" "w0"
        (dataInv_ReplayEnqueue NewManager "s" "p" (dataInv_of_inv inv_NewManager))
        (by decide)⟩,
    ⟨dataInv_dupPending, by decide, by decide,
      replayPoll_twice_breaks dupPending "x" "w" 0 dataInv_dupPending (by decide)⟩⟩

/-- C19, amended. For every manager state that satisfies invariants (1)-(3) of the
data model (ids in `pending` are `Pending`, keys of `inFlight` are `InFlight`, no id
in both and no `Done` task in either) and every choice of arguments: the state
after `ReplayEnqueue` and the state after `ReplayTimeout` satisfy invariants (1)-(3)
again; the state after `ReplayPoll` does so exactly when the task id occurs at most
once in `pending`; the state after `ReplayAck` does so exactly when the task id is
not in `pending`. The condition on `ReplayPoll` holds in every state built from the
empty manager by API calls and restoration hooks (the scans ranging over the keys
of `inFlight`): there no id occurs twice in `pending`. -/
theorem hooks_preserve_invariants (m : Manager) (taskID payload workerID : String)
    (deadline now : Time) (h : DataInv m) :
    DataInv (ReplayEnqueue m taskID payload) ∧
    DataInv (ReplayTimeout m taskID now) ∧
    (DataInv (ReplayPoll m taskID workerID deadline) ↔ m.pending.count taskID ≤ 1) ∧
    (DataInv (ReplayAck m taskID workerID) ↔ taskID ∉ m.pending) ∧
    (∀ cfg ops, OpsAdmissible cfg NewManager ops → build cfg NewManager ops = m →
      m.pending.count taskID ≤ 1) := by
  refine ⟨dataInv_ReplayEnqueue m taskID payload h, dataInv_ReplayTimeout m taskID now h,
    ⟨?_, dataInv_ReplayPoll m taskID workerID deadline h⟩,
    ⟨?_, dataInv_ReplayAck m taskID workerID h⟩, ?_⟩
  · intro hnew
    by_contra hc
    exact replayPoll_twice_breaks m taskID workerID deadline h (by omega) hnew
  · intro hnew hp
    exact replayAck_pending_breaks m taskID workerID h hp hnew
  · intro cfg ops ha hb
    rw [← hb]
    exact count_le_one_of_nodup _ taskID
      (coherent_build cfg ops NewManager ha coherent_NewManager).2.1

/-- Witness of C19 on the state in which `t1` is leased to `w1`: the id `t1` is not in
`pending`, and all four hooks called with it keep the invariants. -/
theorem hooks_preserve_invariants_witness :
    DataInv leasedT1 ∧ "t1" ∉ leasedT1.pending ∧
    DataInv (ReplayEnqueue leasedT1 "t1" "other") ∧
    DataInv (ReplayTimeout leasedT1 "t1" 11000000000) ∧
    DataInv (ReplayPoll leasedT1 "t1" "w2" 5) ∧
    DataInv (ReplayAck leasedT1 "t1" "w1") :=
  ⟨dataInv_of_inv inv_leasedT1, by decide,
    (hooks_preserve_invariants leasedT1 "t1" "other" "w2" 5 11000000000
      (dataInv_of_inv inv_leasedT1)).1,
    (hooks_preserve_invariants leasedT1 "t1" "other" "w2" 5 11000000000
      (dataInv_of_inv inv_leasedT1)).2.1,
    (hooks_preserve_invariants leasedT1 "t1" "other" "w2" 5 11000000000
      (dataInv_of_inv inv_leasedT1)).2.2.1.mpr (by decide),
    (hooks_preserve_invariants leasedT1 "t1" "other" "w1" 5 11000000000
      (dataInv_of_inv inv_leasedT1)).2.2.2.1.mpr (by decide)⟩

end TaskQueue
